import Mathlib

/-!
# comp-m2: a toy computer and its structural editor

Shallow embedding of the structural editor of `src/cursor.cpp` and of the
operand decoding of `src/specific_instruction.cpp`.  A `vector<bool>` is a
`List Bool` (bit 0 first), the two address spaces of the RAM are lists of
words, and the methods of `Cursor` that mutate the RAM become functions
returning the new RAM.

The headers and the files `util.cpp`, `ram.cpp`, `instruction.cpp` and
`const.hpp` are not among the sources; what the embedded functions need from
them is modelled below, each such definition saying so in its comment.
-/

namespace Comp

/-! ## Words and addresses -/

/-- A machine word, `vector<bool>`, bit 0 first. -/
abbrev Word := List Bool

/-- The address space tag of an address. -/
inductive AddrSpace where
  | CODE
  | DATA
  | NONE
  deriving DecidableEq

/-- An address: a space and the bits of the index (`Address(space, val)`);
two addresses are equal when space and bits are equal. -/
structure Address where
  space : AddrSpace
  val : List Bool
  deriving DecidableEq

/-- Modelled from the spec: constant of `const.hpp`; every word has 8 bits
("every 8-bit-wide pattern decodes"). -/
abbrev WORD_SIZE : Nat := 8

/-- Modelled from the spec: constant of `const.hpp`; an address is a nibble. -/
abbrev ADDR_SIZE : Nat := 4

/-- Modelled from the spec: constant of `const.hpp`; the number of slots of
each space.  Index 15, the nibble `LAST_ADDRESS`, is "one past the last valid
data index", so the slots are 0..14. -/
abbrev RAM_SIZE : Nat := 15

/-- Modelled from the spec: constant of `const.hpp`; the largest value of a
word. -/
abbrev MAX_VALUE : Nat := 255

/-- Modelled from the spec: constant of `const.hpp`; the all-zero word. -/
abbrev EMPTY_WORD : Word := [false, false, false, false, false, false, false, false]

/-- Modelled from the spec: constant of `const.hpp`; the nibble of index 0. -/
abbrev FIRST_ADDRESS : List Bool := [false, false, false, false]

/-- Modelled from the spec: constant of `const.hpp`; the reserved sentinel
nibble, all ones. -/
abbrev LAST_ADDRESS : List Bool := [true, true, true, true]

/-- Modelled from the spec: `Util::getInt` (util.cpp is not among the
sources), the unsigned value of a bit vector, bit 0 the most significant. -/
def getInt (bits : List Bool) : Nat :=
  bits.foldl (fun acc b => 2 * acc + (if b then 1 else 0)) 0

/-- Modelled from the spec: `Util::getBool(num, length)` (util.cpp is not
among the sources), the `length`-bit vector of `num`, most significant bit
first, with `num` clamped into the representable range `0 .. 2^length - 1`
(the "saturating" word primitive). -/
def getBool (num : Int) (length : Nat) : List Bool :=
  let n := min num.toNat (2 ^ length - 1)
  (List.range length).map (fun i => decide ((n / 2 ^ (length - 1 - i)) % 2 = 1))

/-- Modelled from the spec: `Util::getBoolNibb`, `getBool` at address width. -/
def getBoolNibb (num : Int) : List Bool := getBool num ADDR_SIZE

/-- Modelled from the spec: `Util::getBoolByte`, `getBool` at word width. -/
def getBoolByte (num : Int) : List Bool := getBool num WORD_SIZE

/-- Modelled from the spec: `Util::getFirstNibble`, the opcode nibble. -/
def getFirstNibble (val : Word) : List Bool := val.take ADDR_SIZE

/-- Modelled from the spec: `Util::getSecondNibble`, the operand nibble. -/
def getSecondNibble (val : Word) : List Bool := (val.drop ADDR_SIZE).take ADDR_SIZE

/-! ## The instruction set (`specific_instruction.cpp`) -/

/-- The operation variants, in the order of `specific_instruction.cpp`. -/
inductive SpecificInstruction where
  | Read
  | Write
  | Add
  | Sub
  | Jump
  | IfMax
  | IfMin
  | JumpReg
  | ReadReg
  | InitializeFirstAddress
  | Not
  | ShiftLeft
  | ShiftRight
  | And
  | Or
  | Xor
  | ReadPointer
  | WritePointer
  | Increase
  | Decrease
  | Print
  | IfNotMax
  | IfNotMin
  deriving DecidableEq

/-- The static helper `getThreeBitAddress`: the operand nibble with its
first bit cleared, in DATA. -/
def getThreeBitAddress (val : Word) : Address :=
  let adr := getSecondNibble val
  ⟨AddrSpace.DATA, adr.set 0 false⟩

/-- The method `getFirstOrderAdr` of each variant. -/
def getFirstOrderAdr (inst : SpecificInstruction) (val : Word) : List Address :=
  match inst with
  | .Read => [⟨.DATA, getSecondNibble val⟩]
  | .Write => [⟨.DATA, getSecondNibble val⟩]
  | .Add => [⟨.DATA, getSecondNibble val⟩]
  | .Sub => [⟨.DATA, getSecondNibble val⟩]
  | .Jump => [⟨.CODE, getSecondNibble val⟩]
  | .IfMax => [⟨.CODE, getSecondNibble val⟩]
  | .IfMin => [⟨.CODE, getSecondNibble val⟩]
  | .JumpReg => [⟨.NONE, FIRST_ADDRESS⟩]
  | .ReadReg => [⟨.NONE, FIRST_ADDRESS⟩]
  | .InitializeFirstAddress => [⟨.DATA, FIRST_ADDRESS⟩, ⟨.DATA, getBoolNibb 1⟩]
  | .Not => [⟨.NONE, FIRST_ADDRESS⟩]
  | .ShiftLeft => [⟨.NONE, FIRST_ADDRESS⟩]
  | .ShiftRight => [⟨.NONE, FIRST_ADDRESS⟩]
  | .And => [⟨.DATA, getBoolNibb 2⟩]
  | .Or => [⟨.DATA, getBoolNibb 3⟩]
  | .Xor => [getThreeBitAddress val]
  | .ReadPointer => [⟨.DATA, getSecondNibble val⟩]
  | .WritePointer => [⟨.DATA, getSecondNibble val⟩]
  | .Increase => [getThreeBitAddress val]
  | .Decrease => [getThreeBitAddress val]
  | .Print => [⟨.DATA, getSecondNibble val⟩]
  | .IfNotMax => [⟨.CODE, getSecondNibble val⟩]
  | .IfNotMin => [⟨.CODE, getSecondNibble val⟩]

/-- Modelled from the spec: the method `getAdrIndex` of each variant
(specific_instruction.hpp is not among the sources), the bit position where
the operand field starts: 5 for the three variants that read a three-bit
address, 4 (the second nibble) for all the others. -/
def getAdrIndex (inst : SpecificInstruction) : Nat :=
  match inst with
  | .Xor => 5
  | .Increase => 5
  | .Decrease => 5
  | _ => 4

/-- Modelled from the spec: the decoding of a word into its variant, done by
the constructor of `Instruction` (instruction.cpp is not among the sources).
The opcode nibble selects the variant in the order of
`specific_instruction.cpp`; the logic opcode 7 is resolved by the operand
nibble (0..7 the eight register and fixed-operand operations, 8..15 `Xor`
with a three-bit address), opcode 10 by the first operand bit (`Increase`
when clear, `Decrease` when set).  Decoding is total: the two remaining
opcodes fall back to `Read`. -/
def getInstruction (val : Word) : SpecificInstruction :=
  match getInt (getFirstNibble val) with
  | 0 => .Read
  | 1 => .Write
  | 2 => .Add
  | 3 => .Sub
  | 4 => .Jump
  | 5 => .IfMax
  | 6 => .IfMin
  | 7 =>
    match getInt (getSecondNibble val) with
    | 0 => .JumpReg
    | 1 => .ReadReg
    | 2 => .InitializeFirstAddress
    | 3 => .Not
    | 4 => .ShiftLeft
    | 5 => .ShiftRight
    | 6 => .And
    | 7 => .Or
    | _ => .Xor
  | 8 => .ReadPointer
  | 9 => .WritePointer
  | 10 => if (getSecondNibble val).headD false then .Decrease else .Increase
  | 11 => .Print
  | 12 => .IfNotMax
  | 13 => .IfNotMin
  | _ => .Read

/-- The member `firstOrderAdr` of the `Instruction` built from a word:
`inst->getFirstOrderAdr(val)` of the decoded variant. -/
def firstOrderAdr (val : Word) : List Address :=
  getFirstOrderAdr (getInstruction val) val

/-- The first first-order address, `inst.firstOrderAdr[0]`. -/
def firstAdr (val : Word) : Address :=
  (firstOrderAdr val).headD ⟨.NONE, FIRST_ADDRESS⟩

/-- The last first-order address, `inst.firstOrderAdr.back()`. -/
def backAdr (val : Word) : Address :=
  (firstOrderAdr val).getLastD ⟨.NONE, FIRST_ADDRESS⟩

/-! ## The RAM -/

/-- The state of the RAM, `ram.state`: one vector of words per space. -/
structure Ram where
  code : List Word
  data : List Word
  deriving DecidableEq

/-- The vector `ram.state[space]`; there is none for `NONE`. -/
def Ram.words (r : Ram) : AddrSpace → List Word
  | .CODE => r.code
  | .DATA => r.data
  | .NONE => []

/-- Replaces the vector `ram.state[space]`. -/
def Ram.setWords (r : Ram) (space : AddrSpace) (ws : List Word) : Ram :=
  match space with
  | .CODE => { r with code := ws }
  | .DATA => { r with data := ws }
  | .NONE => r

/-- Modelled from the spec: `Ram::get` (ram.cpp is not among the sources),
the bounds-checked read of the word at an address of the state.  Only the
slots 0 .. `RAM_SIZE - 1` of a space belong to the state; a read outside them
gives the empty word here. -/
def Ram.get (r : Ram) (adr : Address) : Word :=
  (r.words adr.space).getD (getInt adr.val) EMPTY_WORD

/-- Modelled from the spec: `Ram::set` (ram.cpp is not among the sources),
the bounds-checked write of a word at an address of the state; a write
outside the slots 0 .. `RAM_SIZE - 1` leaves the state as it is. -/
def Ram.set (r : Ram) (adr : Address) (word : Word) : Ram :=
  r.setWords adr.space ((r.words adr.space).set (getInt adr.val) word)

/-- Every space has `RAM_SIZE` slots and every slot a `WORD_SIZE`-bit word. -/
def Ram.WellFormed (r : Ram) : Prop :=
  r.code.length = RAM_SIZE ∧ r.data.length = RAM_SIZE ∧
  (∀ w ∈ r.code, w.length = WORD_SIZE) ∧ (∀ w ∈ r.data, w.length = WORD_SIZE)

/-! ## Instructions of the CODE space -/

/-- Modelled from the spec: `Instruction::getAllInstructions`
(instruction.cpp is not among the sources): one instruction per CODE word,
in order.  An instruction is identified with its word. -/
def getAllInstructions (r : Ram) : List Word := r.code

/-- Modelled from the spec: `Instruction::getIndexOfLastNonEmptyInst`
(instruction.cpp is not among the sources): the index of the last
instruction whose word is not empty, and -1 when all are empty. -/
def getIndexOfLastNonEmptyInst (allInstructions : List Word) : Int :=
  ((allInstructions.reverse.dropWhile (fun w => decide (w = EMPTY_WORD))).length : Int) - 1

/-- Modelled from the spec: `Instruction::getEffectiveInstructions`
(instruction.cpp is not among the sources): the instructions up to the last
non-empty CODE word, "trailing empty CODE is not scanned". -/
def getEffectiveInstructions (r : Ram) : List Word :=
  (getAllInstructions r).take (getIndexOfLastNonEmptyInst (getAllInstructions r) + 1).toNat

/-! ## The structural editor (`cursor.cpp`) -/

/-- Modelled from the spec: constants of `const.hpp`, the data indices bound
to a logic operation: `InitializeFirstAddress` reads data 1, `And` data 2,
`Or` data 3, and 7 is the last index a three-bit `Xor` operand can hold. -/
abbrev INIT_OPERAND_INDEX : Nat := 1

/-- Modelled from the spec: constant of `const.hpp`, see `INIT_OPERAND_INDEX`. -/
abbrev AND_OPERAND_INDEX : Nat := 2

/-- Modelled from the spec: constant of `const.hpp`, see `INIT_OPERAND_INDEX`. -/
abbrev OR_OPERAND_INDEX : Nat := 3

/-- Modelled from the spec: constant of `const.hpp`, see `INIT_OPERAND_INDEX`. -/
abbrev LAST_XOR_OPERAND_INDEX : Nat := 7

/-- Modelled from the spec: constant of `const.hpp`, the word of the
`InitializeFirstAddress` operation (logic opcode, operand nibble 2). -/
abbrev INIT_INSTRUCTION : Word := [false, true, true, true, false, false, true, false]

/-- Modelled from the spec: constant of `const.hpp`, the word of `And`. -/
abbrev AND_INSTRUCTION : Word := [false, true, true, true, false, true, true, false]

/-- Modelled from the spec: constant of `const.hpp`, the word of `Or`. -/
abbrev OR_INSTRUCTION : Word := [false, true, true, true, false, true, true, true]

/-- Modelled from the spec: constant of `const.hpp`, the word of `Xor` with
the operand 7. -/
abbrev LAST_XOR_INSTRUCTION : Word := [false, true, true, true, true, true, true, true]

/-- The table `Cursor::BOUND_DATA_ADDRESSES`: bound data index and the
instruction that binds it. -/
def BOUND_DATA_ADDRESSES : List (Nat × Word) :=
  [ (INIT_OPERAND_INDEX, INIT_INSTRUCTION),
    (AND_OPERAND_INDEX, AND_INSTRUCTION),
    (OR_OPERAND_INDEX, OR_INSTRUCTION),
    (LAST_XOR_OPERAND_INDEX, LAST_XOR_INSTRUCTION) ]

/-- The editor: the RAM it works on, the active space and one
(bit index, word index) pair per space (`cursorPosition`). -/
structure Cursor where
  ram : Ram
  addrSpace : AddrSpace
  codeX : Nat
  codeY : Nat
  dataX : Nat
  dataY : Nat
  deriving DecidableEq

/-- `Cursor::getY`: the word index of the active space.  The position map
has no entry for `NONE`. -/
def Cursor.getY (c : Cursor) : Nat :=
  match c.addrSpace with
  | .CODE => c.codeY
  | .DATA => c.dataY
  | .NONE => 0

/-- `Cursor::getAddress`: the address of the word under the cursor. -/
def Cursor.getAddress (c : Cursor) : Address :=
  ⟨c.addrSpace, getBoolNibb c.getY⟩

/-- `Cursor::getAddressesOfEffectiveInstructions`: the last first-order
address of every effective instruction. -/
def getAddressesOfEffectiveInstructions (r : Ram) : List Address :=
  (getEffectiveInstructions r).map backAdr

/-- `Cursor::addressReferenced`. -/
def addressReferenced (r : Ram) (adr : Address) : Bool :=
  decide (adr ∈ getAddressesOfEffectiveInstructions r)

/-- `Cursor::addressUsed`: the value at the address is non-empty or the
address is referenced. -/
def addressUsed (r : Ram) (adr : Address) : Bool :=
  let valueNonEmpty := decide (r.get adr ≠ EMPTY_WORD)
  if valueNonEmpty then true
  else if addressReferenced r adr then true
  else false

/-- The test in the loop of `Cursor::shouldNotModifyData`: index `i` could be
bound and its bounding instruction is among `instructions`.  Instructions are
compared by their words. -/
def boundInstructionExists (instructions : List Word) (i : Nat) : Bool :=
  match BOUND_DATA_ADDRESSES.lookup i with
  | some boundingInst => decide (boundingInst ∈ instructions)
  | none => false

/-- `Cursor::shouldNotModifyData`: the first offending bound index from `y`
on, or 0 if there is none. -/
def shouldNotModifyData (r : Ram) ( insert : Bool) (y : Nat) : Nat :=
  let instructions := getEffectiveInstructions r
  let lastAddressToCheck := if insert then LAST_XOR_OPERAND_INDEX else LAST_XOR_OPERAND_INDEX - 1
  ((List.range' y (lastAddressToCheck + 1 - y)).find?
    (fun i => boundInstructionExists instructions i)).getD 0

/-- The loop of `Cursor::getLastRedundandAdr`, entered with loop variable
`i`; it runs while `i >= 1`. -/
def getLastRedundandAdrLoop (r : Ram) (addrSpaceIn : AddrSpace) : Nat → Address
  | 0 => ⟨.NONE, FIRST_ADDRESS⟩
  | i + 1 =>
    let adr : Address := ⟨addrSpaceIn, getBoolNibb ((i + 1 : Nat) : Int)⟩
    let adrNotUsed := !addressUsed r adr
    if adrNotUsed then
      if addrSpaceIn = .CODE ∧
          r.get ⟨addrSpaceIn, getBoolNibb (((i + 1 : Nat) : Int) - 1)⟩ ≠ EMPTY_WORD then
        getLastRedundandAdrLoop r addrSpaceIn i
      else adr
    else getLastRedundandAdrLoop r addrSpaceIn i

/-- `Cursor::getLastRedundandAdr`. -/
def getLastRedundandAdr (r : Ram) (addrSpaceIn : AddrSpace) : Address :=
  getLastRedundandAdrLoop r addrSpaceIn (RAM_SIZE - 2)

/-- `Cursor::setAddress`: the bits from `adrIndex` on are erased and the
new operand, `WORD_SIZE - adrIndex` bits wide, is appended. -/
def setAddress (word : Word) (newAdrVal : Int) (adrIndex : Nat) : Word :=
  let adrLength := WORD_SIZE - adrIndex
  let newAdr := getBool newAdrVal adrLength
  word.take adrIndex ++ newAdr

/-- The body of the loop of `Cursor::incOrDecAddressesPastTheIndex`, for one
CODE word. -/
def patchWord (space : AddrSpace) (index : Nat) (delta : Int) (word : Word) : Word :=
  let inst := getInstruction word
  let adr := firstAdr word
  let adrVal := getInt adr.val
  let instPointingToSpace := decide (adr.space = space)
  let adrPastTheIndex := decide (adrVal ≥ index)
  let notLastAdr := decide (adr.val ≠ LAST_ADDRESS)
  if instPointingToSpace && adrPastTheIndex && notLastAdr then
    setAddress word ((adrVal : Int) + delta) (getAdrIndex inst)
  else word

/-- `Cursor::incOrDecAddressesPastTheIndex`: the loop over the CODE words
0 .. `indexOfLastInst`, each rewritten in place. -/
def incOrDecAddressesPastTheIndex (r : Ram) (space : AddrSpace) (index : Nat) (delta : Int) :
    Ram :=
  let indexOfLastInst := getIndexOfLastNonEmptyInst (getAllInstructions r)
  (List.range (indexOfLastInst + 1).toNat).foldl
    (fun ram i =>
      { ram with code := ram.code.set i (patchWord space index delta (ram.code.getD i EMPTY_WORD)) })
    r

/-- The loop of `Cursor::actuallyInsert`, entered with loop variable `i`; it
runs while `i > a` and copies slot `i-1` into slot `i`. -/
def actuallyInsertLoop (a : Nat) : Nat → List Word → List Word
  | 0, s => s
  | i + 1, s =>
    if i + 1 > a then actuallyInsertLoop a i (s.set (i + 1) (s.getD i EMPTY_WORD))
    else s

/-- `Cursor::actuallyInsert`: the words from the address on move down by
one slot; the slot cleared afterwards is the one at the cursor's word index
`getY()`. -/
def actuallyInsert (r : Ram) (getY : Nat) (adr : Address) : Ram :=
  let s := actuallyInsertLoop (getInt adr.val) (RAM_SIZE - 1) (r.words adr.space)
  r.setWords adr.space (s.set getY EMPTY_WORD)

/-- The loop of `Cursor::actuallyDelete` with `n` iterations left and loop
variable `i`: slot `i+1` is copied into slot `i`. -/
def actuallyDeleteLoop : Nat → Nat → List Word → List Word
  | 0, _, s => s
  | n + 1, i, s => actuallyDeleteLoop n (i + 1) (s.set i (s.getD (i + 1) EMPTY_WORD))

/-- `Cursor::actuallyDelete`: the loop runs for `i` from the address to
`RAM_SIZE - 2`, then the last slot is cleared. -/
def actuallyDelete (r : Ram) (adr : Address) : Ram :=
  let s := actuallyDeleteLoop (RAM_SIZE - 1 - getInt adr.val) (getInt adr.val)
    (r.words adr.space)
  r.setWords adr.space (s.set (RAM_SIZE - 1) EMPTY_WORD)

/-- `Cursor::shouldNotModify(false, adr)`, the path of a delete: the result
and the RAM it leaves. -/
def shouldNotModifyDelete (r : Ram) (adr : Address) : Bool × Ram :=
  if adr.space = .DATA ∧ shouldNotModifyData r false (getInt adr.val) ≠ 0 then (true, r)
  else
    let adrUsed := addressUsed r adr
    if adrUsed then (true, r.set adr EMPTY_WORD)
    else (false, r)

/-- `Cursor::deleteByteAndMoveRestUp(Address)`: whether the delete was done,
and the RAM afterwards. -/
def deleteByteAndMoveRestUp (r : Ram) (adr : Address) : Bool × Ram :=
  let check := shouldNotModifyDelete r adr
  if check.1 then (false, check.2)
  else
    let r1 := incOrDecAddressesPastTheIndex check.2 adr.space (getInt adr.val) (-1)
    (true, actuallyDelete r1 adr)

/-- `Cursor::shouldNotModify(true, adr)`, the path of an insert: the result
and the RAM it leaves (a redundant slot may have been deleted). -/
def shouldNotModifyInsert (r : Ram) (adr : Address) : Bool × Ram :=
  if adr.space = .DATA ∧ shouldNotModifyData r true (getInt adr.val) ≠ 0 then (true, r)
  else
    let lastAdr : Address := ⟨adr.space, getBoolNibb ((RAM_SIZE : Int) - 1)⟩
    let adrUsed := addressUsed r lastAdr
    if adrUsed then
      let redundandAdr := getLastRedundandAdr r adr.space
      let redundandAdrBeforAdr := decide (getInt redundandAdr.val ≤ getInt adr.val + 1)
      if redundandAdr.space = .NONE ∨ redundandAdrBeforAdr = true then (true, r)
      else (false, (deleteByteAndMoveRestUp r redundandAdr).2)
    else (false, r)

/-- `Cursor::shouldNotModify`. -/
def shouldNotModify ( insert : Bool) (r : Ram) (adr : Address) : Bool × Ram :=
  if insert then shouldNotModifyInsert r adr else shouldNotModifyDelete r adr

/-- `Cursor::insertByteAndMoveRestDown(Address)`: whether the insert was
done, and the RAM afterwards; `getY` is the cursor's word index. -/
def insertByteAndMoveRestDown (r : Ram) (getY : Nat) (adr : Address) : Bool × Ram :=
  let check := shouldNotModify true r adr
  if check.1 then (false, check.2)
  else
    let r1 := incOrDecAddressesPastTheIndex check.2 adr.space (getInt adr.val) 1
    (true, actuallyInsert r1 getY adr)

/-- `Cursor::insertByteAndMoveRestDown()`: the insert at the cursor. -/
def Cursor.insertByteAndMoveRestDown (c : Cursor) : Bool × Cursor :=
  let res := Comp.insertByteAndMoveRestDown c.ram c.getY c.getAddress
  (res.1, { c with ram := res.2 })

/-- `Cursor::deleteByteAndMoveRestUp()`: the delete at the cursor. -/
def Cursor.deleteByteAndMoveRestUp (c : Cursor) : Bool × Cursor :=
  let res := Comp.deleteByteAndMoveRestUp c.ram c.getAddress
  (res.1, { c with ram := res.2 })

/-! ## Example states -/

/-- A RAM whose CODE and DATA start with the given words and are filled up
with empty words. -/
def mkRam (code data : List Word) : Ram :=
  ⟨code ++ List.replicate (RAM_SIZE - code.length) EMPTY_WORD,
   data ++ List.replicate (RAM_SIZE - data.length) EMPTY_WORD⟩

/-- The word of `Jump` to CODE 3. -/
def JUMP_3 : Word := [false, true, false, false, false, false, true, true]

/-- The word of `Jump` to CODE 2. -/
def JUMP_2 : Word := [false, true, false, false, false, false, true, false]

/-- The word of `Jump` to `LAST_ADDRESS`. -/
def JUMP_LAST : Word := [false, true, false, false, true, true, true, true]

/-- CODE holds the single instruction `Xor 7`. -/
def ramXorLast : Ram := mkRam [LAST_XOR_INSTRUCTION] []

/-- CODE holds the single instruction `Jump 3`. -/
def ramJump3 : Ram := mkRam [JUMP_3] []

/-- CODE holds the single instruction `Jump LAST_ADDRESS`. -/
def ramJumpLast : Ram := mkRam [JUMP_LAST] []

/-- CODE is empty and DATA holds one non-empty word, at index 0. -/
def ramDataWord : Ram := mkRam [] [JUMP_3]

/-- CODE is empty and every DATA slot holds a non-empty word. -/
def ramDataFull : Ram := mkRam [] (List.replicate RAM_SIZE JUMP_3)

/-- The cursor is at word 0 of DATA, whose first five slots are non-empty;
CODE is empty. -/
def cursorDataTop : Cursor :=
  ⟨mkRam [] [JUMP_2, JUMP_3, JUMP_2, JUMP_3, JUMP_LAST], .DATA, 0, 0, 0, 0⟩

/-- The word of `Write` to DATA 0. -/
def WRITE_0 : Word := [false, false, false, true, false, false, false, false]

/-- CODE holds `Write 0` in every slot but slot 13, which is empty. -/
def ramCodeHole : Ram := mkRam (List.replicate 13 WRITE_0 ++ [EMPTY_WORD, WRITE_0]) []

/-- DATA holds a non-empty word in every slot but slot 4, which is empty;
CODE is empty. -/
def ramDataHole : Ram :=
  mkRam [] (List.replicate 4 JUMP_3 ++ [EMPTY_WORD] ++ List.replicate 10 JUMP_3)

/-- The cursor is at word 0 of DATA, every slot of which is non-empty but
slot 4; CODE is empty. -/
def cursorDataHole : Cursor := ⟨ramDataHole, .DATA, 0, 0, 0, 0⟩

/-- The word of `Read` from DATA 3. -/
def READ_3 : Word := [false, false, false, false, false, false, true, true]

/-- The cursor is at word 1 of DATA; CODE holds `Read 3`, `Write 0`, `Jump 2`
and DATA four non-empty words. -/
def cursorProgram : Cursor :=
  ⟨mkRam [READ_3, WRITE_0, JUMP_2] [JUMP_2, JUMP_3, JUMP_2, JUMP_3], .DATA, 0, 0, 0, 1⟩

/-- The word of `Jump` to CODE 1. -/
def JUMP_1 : Word := [false, true, false, false, false, false, false, true]

/-- CODE holds `Jump 2`, an empty word and `Write 0`; DATA is empty. -/
def ramJumpOverHole : Ram := mkRam [JUMP_2, EMPTY_WORD, WRITE_0] []

/-- The word of `Increase` on data 7. -/
def INCREASE_7 : Word := [true, false, true, false, false, true, true, true]

/-- The word of `Increase` on data 6. -/
def INCREASE_6 : Word := [true, false, true, false, false, true, true, false]

/-- The cursor is at word 0 of DATA; CODE holds the single instruction
`Increase 7` and DATA is empty. -/
def cursorIncrease : Cursor := ⟨mkRam [INCREASE_7] [], .DATA, 0, 0, 0, 0⟩

/-- CODE holds the single instruction `And`; DATA holds one non-empty word,
at index 0. -/
def ramAndData : Ram := mkRam [AND_INSTRUCTION] [JUMP_3]

/-- Modelled from the spec: `Util::bitwiseNot` (util.cpp is not among the
sources), the bitwise complement of a word. -/
def bitwiseNot (val : Word) : Word := val.map (fun b => !b)

/-- Modelled from the spec: `Util::bitwiseXor` (util.cpp is not among the
sources), the bitwise exclusive or of two words. -/
def bitwiseXor (val1 val2 : Word) : Word := List.zipWith (fun a b => xor a b) val1 val2

/-- Modelled from the spec: `Util::bitwiseAndOrOr` (util.cpp is not among the
sources), the bitwise and (`isAnd`) or the bitwise or of two words. -/
def bitwiseAndOrOr (val1 val2 : Word) (isAnd : Bool) : Word :=
  List.zipWith (fun a b => if isAnd then a && b else a || b) val1 val2

/-- What the `exec` of an instruction works on: the program counter, the
register and the RAM.  Modelled from the spec: `lastData` is the reserved
"last data slot" behind `Address(DATA, LAST_ADDRESS)`, the address one past
the last data index, which the printer observes; it is not a slot of
`ram.state`. -/
structure Machine where
  pc : List Bool
  reg : Word
  ram : Ram
  lastData : Word
  deriving DecidableEq

/-- Modelled from the spec: `Ram::get` as an instruction calls it (ram.cpp is
not among the sources): the reserved last data slot for the data address one
past the last index, the word of the state otherwise. -/
def Machine.get (m : Machine) (adr : Address) : Word :=
  if adr.space = .DATA ∧ getInt adr.val = RAM_SIZE then m.lastData else m.ram.get adr

/-- Modelled from the spec: `Ram::set` as an instruction calls it (ram.cpp is
not among the sources): a write to the data address one past the last index
goes to the reserved last data slot, any other write to the state. -/
def Machine.set (m : Machine) (adr : Address) (word : Word) : Machine :=
  if adr.space = .DATA ∧ getInt adr.val = RAM_SIZE then { m with lastData := word }
  else { m with ram := m.ram.set adr word }

/-- The static helper `increasePc`, on the program counter. -/
def increasePc (pc : List Bool) : List Bool :=
  getBoolNibb ((getInt pc : Int) + 1)

/-- The call `increasePc(pc)` at the end of an `exec`. -/
def Machine.increasePc (m : Machine) : Machine :=
  { m with pc := Comp.increasePc m.pc }

/-- The static helper `addOrSubtract`. -/
def addOrSubtract (adr : Address) (m : Machine) (add : Bool) : Machine :=
  let regValue : Int := getInt m.reg
  let ramValue : Int := getInt (m.get adr)
  if add then { m with reg := getBoolByte (regValue + ramValue) }
  else { m with reg := getBoolByte (regValue - ramValue) }

/-- The static helper `getRegBit`: the register bit at a position, `false`
when the position is out of bounds. -/
def getRegBit (reg : Word) (index : Int) : Bool :=
  let indexOutOfBounds := decide (index < 0 ∨ index ≥ (WORD_SIZE : Int))
  if indexOutOfBounds then false else reg.getD index.toNat false

/-- The static helper `shift`: bit `i` of the new register is bit
`i + delta` of the old one. -/
def shift (m : Machine) (delta : Int) : Machine :=
  let tmp := (List.range WORD_SIZE).map (fun i => getRegBit m.reg ((i : Int) + delta))
  Machine.increasePc { m with reg := tmp }

/-- The static helper `andOrOr`. -/
def andOrOr (adr : Address) (m : Machine) (isAnd : Bool) : Machine :=
  let ramValue := m.get adr
  Machine.increasePc { m with reg := bitwiseAndOrOr m.reg ramValue isAnd }

/-- The static helper `incOrDec`. -/
def incOrDec (adr : Address) (m : Machine) (isInc : Bool) : Machine :=
  let value := m.get adr
  let intValue := getInt value
  let newValue : Nat :=
    if isInc then (if intValue = MAX_VALUE then 0 else intValue + 1)
    else (if intValue = 0 then MAX_VALUE else intValue - 1)
  let m1 := m.set adr (getBoolByte newValue)
  Machine.increasePc { m1 with reg := getBoolByte newValue }

/-- The method `exec` of each variant, called with the effective address. -/
def SpecificInstruction.exec (inst : SpecificInstruction) (adr : Address) (m : Machine) :
    Machine :=
  match inst with
  | .Read => Machine.increasePc { m with reg := m.get adr }
  | .Write => Machine.increasePc (m.set adr m.reg)
  | .Add => Machine.increasePc (addOrSubtract adr m true)
  | .Sub => Machine.increasePc (addOrSubtract adr m false)
  | .Jump => { m with pc := adr.val }
  | .IfMax => if getInt m.reg ≥ MAX_VALUE then { m with pc := adr.val } else Machine.increasePc m
  | .IfMin => if getInt m.reg ≤ 0 then { m with pc := adr.val } else Machine.increasePc m
  | .JumpReg => { m with pc := adr.val }
  | .ReadReg => Machine.increasePc { m with reg := m.get adr }
  | .InitializeFirstAddress =>
    let value := m.get ⟨.DATA, getBoolNibb 1⟩
    let m1 := m.set adr value
    Machine.increasePc { m1 with reg := value }
  | .Not => Machine.increasePc { m with reg := bitwiseNot m.reg }
  | .ShiftLeft => shift m 1
  | .ShiftRight => shift m (-1)
  | .And => andOrOr adr m true
  | .Or => andOrOr adr m false
  | .Xor =>
    let ramValue := m.get adr
    Machine.increasePc { m with reg := bitwiseXor m.reg ramValue }
  | .ReadPointer => Machine.increasePc { m with reg := m.get adr }
  | .WritePointer => Machine.increasePc (m.set adr m.reg)
  | .Increase => incOrDec adr m true
  | .Decrease => incOrDec adr m false
  | .Print =>
    let val := m.get adr
    Machine.increasePc (m.set ⟨.DATA, LAST_ADDRESS⟩ val)
  | .IfNotMax => if getInt m.reg ≥ MAX_VALUE then Machine.increasePc m else { m with pc := adr.val }
  | .IfNotMin => if getInt m.reg ≤ 0 then Machine.increasePc m else { m with pc := adr.val }

/-- The method `getAddress` of each variant: the effective address, from
the first first-order address, the register and the RAM. -/
def SpecificInstruction.getAddress (inst : SpecificInstruction) (firstOrderAdr : Address)
    (reg : Word) (m : Machine) : Address :=
  match inst with
  | .JumpReg => ⟨.CODE, getSecondNibble reg⟩
  | .ReadReg => ⟨.DATA, getSecondNibble reg⟩
  | .ReadPointer => ⟨.DATA, getSecondNibble (m.get firstOrderAdr)⟩
  | .WritePointer => ⟨.DATA, getSecondNibble (m.get firstOrderAdr)⟩
  | _ => firstOrderAdr

/-- The sequential variants: every variant but the two jumps and the four
conditional jumps. -/
def SEQUENTIAL_INSTRUCTIONS : List SpecificInstruction :=
  [.Read, .Write, .Add, .Sub, .ReadReg, .InitializeFirstAddress, .Not, .ShiftLeft,
   .ShiftRight, .And, .Or, .Xor, .ReadPointer, .WritePointer, .Increase, .Decrease, .Print]

/-- The machine with the program counter at 14, the last CODE index, an
empty register and an empty RAM. -/
def machineAtLastIndex : Machine :=
  ⟨[true, true, true, false], EMPTY_WORD, mkRam [] [], EMPTY_WORD⟩

/-- The word of value 255, all ones. -/
def WORD_255 : Word := [true, true, true, true, true, true, true, true]

/-- The word of value 1. -/
def WORD_1 : Word := [false, false, false, false, false, false, false, true]

/-- The machine with the register at 255 and data 0 holding the value 1. -/
def machineRegMax : Machine :=
  ⟨FIRST_ADDRESS, WORD_255, mkRam [] [WORD_1], EMPTY_WORD⟩

/-- A machine whose register holds 0 and whose DATA slot 0 holds 1. -/
def machineRegMin : Machine := ⟨FIRST_ADDRESS, EMPTY_WORD, mkRam [] [WORD_1], EMPTY_WORD⟩

/-! ## Running a program (`comp.cpp`) -/

/-- The globals of `comp.cpp` that `run` and `exec` work on.  `machine` holds the state
of `cpu` (pc and register) and of `ram` (`ram.state` and the slot behind the last
address); `keys` is the sequence of key codes that the reads of the keyboard deliver, in
order (0: no key was hit), `pleaseExit` the flag set by the signal handler. -/
structure Computer where
  machine : Machine
  interactivieMode : Bool
  executionCanceled : Bool
  executionCounter : Nat
  savedRamState : Ram
  pleaseExit : Bool
  keys : List Nat
  deriving DecidableEq

/-- How a call of `exec` or `run` ends: it returns, the process exits (`exit(0)`), or the
loop is still running when the fuel of the model is used up. -/
inductive Outcome where
  | returned (c : Computer)
  | exited
  | running
  deriving DecidableEq

/-- Modelled from the spec: the constructor `Cpu(&ram)` (cpu.hpp and cpu.cpp are not
among the sources): CPU state is created fresh, the program counter at the first CODE
address and the register empty; memory is not touched. -/
def Machine.newCpu (m : Machine) : Machine := { m with pc := FIRST_ADDRESS, reg := EMPTY_WORD }

/-- Modelled from the spec: `Util::getKey` (util.cpp is not among the sources), the key
code of a key that was hit, 0 when none was: the next element of `keys`. -/
def getKey (c : Computer) : Nat × Computer := (c.keys.headD 0, { c with keys := c.keys.tail })

/-- `readStdin`: one byte read from the standard input, 0 at its end.  The retry after an
interrupted read only redraws the screen, so the model has the delivered byte only. -/
def readStdin (c : Computer) : Nat × Computer := (c.keys.headD 0, { c with keys := c.keys.tail })

/-- `sleepAndCheckForKey`, run after every cycle in interactive mode; `none` is
`exit(0)`.  A key pauses the execution until the next key; escape (27), as either of the
two, cancels it. -/
def sleepAndCheckForKey (c : Computer) : Option Computer :=
  if c.pleaseExit then none
  else
    let (keyCode, c1) := getKey c
    if keyCode ≠ 0 then
      if keyCode = 27 then some { c1 with executionCanceled := true }
      else
        let (keyCode2, c2) := readStdin c1
        if keyCode2 = 27 then some { c2 with executionCanceled := true } else some c2
    else some c1

/-- `exec`: the loop `while (!executionCanceled)` around `cpu.step()`.  The step function
of the CPU (cpu.cpp is not among the sources) is the parameter `step`: it gives
`shouldContinue` and the new state of CPU and RAM.  One unit of fuel is one pass of the
loop. -/
def exec (step : Machine → Bool × Machine) : Nat → Computer → Outcome
  | 0, c => if c.executionCanceled then .returned c else .running
  | fuel + 1, c =>
    if c.executionCanceled then .returned c
    else
      let (shouldContinue, m1) := step c.machine
      let c1 := { c with machine := m1 }
      if !shouldContinue then .returned c1
      else if c1.interactivieMode then
        match sleepAndCheckForKey c1 with
        | none => .exited
        | some c2 => exec step fuel c2
      else exec step fuel c1

/-- `run`: saves `ram.state`, executes, waits for a key unless the execution was
cancelled, loads the saved state back and makes a new CPU.  The empty line of the printer
and the redraw of the screen are output only. -/
def run (step : Machine → Bool × Machine) (fuel : Nat) (c : Computer) : Outcome :=
  let c0 := { c with savedRamState := c.machine.ram }
  match exec step fuel c0 with
  | .returned c1 =>
    let c2 := if c1.executionCanceled then { c1 with executionCanceled := false }
      else (readStdin c1).2
    let c3 := { c2 with machine := ({ c2.machine with ram := c2.savedRamState } : Machine) }
    let c4 := { c3 with machine := c3.machine.newCpu }
    .returned { c4 with executionCounter := c4.executionCounter + 1 }
  | .exited => .exited
  | .running => .running

/-- A step function for the examples: writes the register value 255 to DATA 0 and to the
register, and asks to continue while the pc is below 2 (it stops at the third step). -/
def stepExample (m : Machine) : Bool × Machine :=
  (decide (getInt m.pc < 2),
    Machine.increasePc ((m.set ⟨.DATA, FIRST_ADDRESS⟩ WORD_255).set ⟨.CODE, m.pc⟩ WORD_1))

/-- A step function that never stops by itself. -/
def stepForever (m : Machine) : Bool × Machine :=
  (true, (m.set ⟨.DATA, FIRST_ADDRESS⟩ WORD_255).set ⟨.CODE, FIRST_ADDRESS⟩ WORD_1)

/-- A computer in interactive mode with the program of `ramJump3` and no key waiting. -/
def computerExample : Computer :=
  ⟨⟨FIRST_ADDRESS, EMPTY_WORD, ramJump3, EMPTY_WORD⟩, true, false, 0, mkRam [] [], false, []⟩

/-- The same computer with escape as the third key read. -/
def computerEscape : Computer := { computerExample with keys := [0, 0, 27] }

/-- The state of `computerExample` and of `computerEscape` after `run` has returned. -/
def computerAfterRun : Computer :=
  { computerExample with savedRamState := ramJump3, executionCounter := 1 }

/-! ## Loading a memory image (`comp.cpp`) -/

/-- The function `getBool(char)` of `comp.cpp`: a star is a set bit.  (The name `getBool`
is the one of `Util::getBool` here.) -/
def getBoolChar (c : Char) : Bool := c == '*'

/-- `writeInstructionBitToRam`: `ram.state[CODE].at(address).at(bitIndex) = bitValue`;
`none` is the exception of `at` for an index out of range. -/
def writeInstructionBitToRam (r : Ram) (address bitIndex : Nat) (bitValue : Bool) :
    Option Ram :=
  match r.code[address]? with
  | none => none
  | some w =>
    if bitIndex < w.length then some { r with code := r.code.set address (w.set bitIndex bitValue) }
    else none

/-- `writeDataBitToRam`: `ram.state[DATA].at(address).at(bitIndex) = bitValue`. -/
def writeDataBitToRam (r : Ram) (address bitIndex : Nat) (bitValue : Bool) : Option Ram :=
  match r.data[address]? with
  | none => none
  | some w =>
    if bitIndex < w.length then some { r with data := r.data.set address (w.set bitIndex bitValue) }
    else none

/-- The loop of `writeLineToRam` over the characters of the line, from `bitIndex` on. -/
def writeLineToRamLoop (address : Nat) : List Char → Nat → Ram → Option Ram
  | [], _, r => some r
  | c :: rest, bitIndex, r =>
    let written :=
      if address < RAM_SIZE then writeInstructionBitToRam r address bitIndex (getBoolChar c)
      else writeDataBitToRam r (address - RAM_SIZE) bitIndex (getBoolChar c)
    match written with
    | none => none
    | some r1 =>
      if bitIndex + 1 ≥ WORD_SIZE then some r1
      else writeLineToRamLoop address rest (bitIndex + 1) r1

/-- `writeLineToRam`: the characters of the line, at most `WORD_SIZE` of them, are written
as bits to the CODE word `address`, or to the DATA word `address - RAM_SIZE`. -/
def writeLineToRam (r : Ram) (line : List Char) (address : Nat) : Option Ram :=
  writeLineToRamLoop address line 0 r

/-- The loop of `loadRamFromFileStream` over the lines of the stream. -/
def loadRamFromFileStreamLoop : List (List Char) → Nat → Ram → Option Ram
  | [], _, r => some r
  | line :: rest, address, r =>
    let lineEmptyOrAComment := line.isEmpty || line.head? == some '#'
    if lineEmptyOrAComment then loadRamFromFileStreamLoop rest address r
    else
      match writeLineToRam r line address with
      | none => none
      | some r1 =>
        if address + 1 ≥ 2 * RAM_SIZE then some r1
        else loadRamFromFileStreamLoop rest (address + 1) r1

/-- `loadRamFromFileStream`, on the lines that `getline` reads from the stream. -/
def loadRamFromFileStream (r : Ram) (lines : List (List Char)) : Option Ram :=
  loadRamFromFileStreamLoop lines 0 r

/-- The lines of a stream that are not skipped: the lines that are not empty and do not
begin with `#`. -/
def remainingLines (lines : List (List Char)) : List (List Char) :=
  lines.filter (fun line => !(line.isEmpty || line.head? == some '#'))

/-- The word of a line as the loading rule has it: bit `j` is set exactly when the line
has a character `j` and it is a star. -/
def wordOfLine (chars : List Char) : Word :=
  (List.range WORD_SIZE).map (fun j => decide (chars[j]? = some '*'))

/-- The word that the loading rule gives slot `n`, counted through CODE and then DATA:
the word of the `n`-th remaining line, and the empty word when there is no such line. -/
def loadedWord (lines : List (List Char)) (n : Nat) : Word :=
  match (remainingLines lines)[n]? with
  | some line => wordOfLine line
  | none => EMPTY_WORD

/-- The word that the loop of `writeLineToRam` leaves in a slot that held `w`. -/
def writeBits : List Char → Nat → Word → Word
  | [], _, w => w
  | c :: rest, bitIndex, w =>
    if bitIndex + 1 ≥ WORD_SIZE then w.set bitIndex (getBoolChar c)
    else writeBits rest (bitIndex + 1) (w.set bitIndex (getBoolChar c))

/-- Slot `n` of the RAM, counted through CODE and then DATA. -/
def Ram.slot (r : Ram) (n : Nat) : Word :=
  if n < RAM_SIZE then r.code.getD n EMPTY_WORD else r.data.getD (n - RAM_SIZE) EMPTY_WORD

/-- A memory image: a comment, two CODE lines (one short, one long), an empty line. -/
def imageLines : List (List Char) :=
  [['#', ' ', 'p'], ['-', '*', '-', '*'], [],
   ['*', '*', '*', '*', '-', '-', '-', '-', '*', '*']]

/-- Modelled from the spec: the state that the constructor `Ram(printer)` creates (ram.cpp
is not among the sources): every slot of both spaces holds the empty word. -/
def Ram.empty : Ram :=
  ⟨List.replicate RAM_SIZE EMPTY_WORD, List.replicate RAM_SIZE EMPTY_WORD⟩

/-- A machine whose register holds 255 and whose DATA slot 7 holds 255. -/
def machineSlot7 : Machine :=
  ⟨FIRST_ADDRESS, WORD_255,
    mkRam [] [EMPTY_WORD, EMPTY_WORD, EMPTY_WORD, EMPTY_WORD, EMPTY_WORD, EMPTY_WORD, EMPTY_WORD,
      WORD_255], EMPTY_WORD⟩

/-- The data address 7, the largest three-bit address. -/
def DATA_7 : Address := ⟨.DATA, [false, true, true, true]⟩

/-! ## The cursor (`cursor.cpp`) -/

/-- `Cursor::switchAddressSpace`. -/
def Cursor.switchAddressSpace (c : Cursor) : Cursor :=
  if c.addrSpace = .CODE then { c with addrSpace := .DATA } else { c with addrSpace := .CODE }

/-- `Cursor::getAddressSpace`. -/
def Cursor.getAddressSpace (c : Cursor) : AddrSpace := c.addrSpace

/-- `Cursor::getX`, and `Cursor::getBitIndex`: the bit index of the active space.  The
position map has no entry for `NONE`. -/
def Cursor.getX (c : Cursor) : Nat :=
  match c.addrSpace with
  | .CODE => c.codeX
  | .DATA => c.dataX
  | .NONE => 0

/-- `Cursor::getBitIndex`. -/
def Cursor.getBitIndex (c : Cursor) : Nat := c.getX

/-- `Cursor::getAddr`: the word index of the active space. -/
def Cursor.getAddr (c : Cursor) : Nat := c.getY

/-- `Cursor::setBitIndex`: `cursorPosition[addrSpace][X] = bitIndex`. -/
def Cursor.setBitIndex (c : Cursor) (bitIndex : Nat) : Cursor :=
  match c.addrSpace with
  | .CODE => { c with codeX := bitIndex }
  | .DATA => { c with dataX := bitIndex }
  | .NONE => c

/-- `Cursor::setByteIndex`: `cursorPosition[addrSpace][Y] = byteIndex`. -/
def Cursor.setByteIndex (c : Cursor) (byteIndex : Nat) : Cursor :=
  match c.addrSpace with
  | .CODE => { c with codeY := byteIndex }
  | .DATA => { c with dataY := byteIndex }
  | .NONE => c

/-- `Cursor::setAddr`: `cursorPosition[addrSpace][Y] = addr`. -/
def Cursor.setAddr (c : Cursor) (addr : Nat) : Cursor := c.setByteIndex addr

/-- `Cursor::increaseX`. -/
def Cursor.increaseX (c : Cursor) : Cursor :=
  let atRightmostBit := decide (c.getBitIndex ≥ WORD_SIZE - 1)
  if atRightmostBit then c else c.setBitIndex (c.getBitIndex + 1)

/-- `Cursor::increaseY`. -/
def Cursor.increaseY (c : Cursor) : Cursor :=
  let atLastAddress := decide (c.getAddr ≥ RAM_SIZE - 1)
  if atLastAddress then c else c.setAddr (c.getAddr + 1)

/-- `Cursor::decreaseX`. -/
def Cursor.decreaseX (c : Cursor) : Cursor :=
  let atLeftmostBit := decide (c.getBitIndex ≤ 0)
  if atLeftmostBit then c else c.setBitIndex (c.getBitIndex - 1)

/-- `Cursor::decreaseY`. -/
def Cursor.decreaseY (c : Cursor) : Cursor :=
  let atFirstAddress := decide (c.getAddr ≤ 0)
  if atFirstAddress then c else c.setAddr (c.getAddr - 1)

/-- `Cursor::goToAddress`. -/
def Cursor.goToAddress (c : Cursor) (adr : Address) : Cursor :=
  let c1 := { c with addrSpace := adr.space }
  let c2 := c1.setBitIndex 0
  c2.setByteIndex (getInt adr.val)

/-- `Cursor::goToEndOfWord`. -/
def Cursor.goToEndOfWord (c : Cursor) : Cursor :=
  let c1 := if c.getX = WORD_SIZE - 1 then c.increaseY else c
  c1.setBitIndex (WORD_SIZE - 1)

/-- `Cursor::goToBeginningOfWord`. -/
def Cursor.goToBeginningOfWord (c : Cursor) : Cursor :=
  let c1 := if c.getX = 0 then c.decreaseY else c
  c1.setBitIndex 0

/-- `Cursor::goToBeginningOfNextWord`. -/
def Cursor.goToBeginningOfNextWord (c : Cursor) : Cursor :=
  if c.getY = RAM_SIZE - 1 then c.setBitIndex (WORD_SIZE - 1)
  else c.increaseY.setBitIndex 0

/-- `Cursor::getWord`: the word at the address of the cursor. -/
def Cursor.getWord (c : Cursor) : Word := c.ram.get c.getAddress

/-- `Cursor::setWord`. -/
def Cursor.setWord (c : Cursor) (word : Word) : Cursor :=
  { c with ram := c.ram.set c.getAddress word }

/-- Modelled from the spec: the member `adr` of the `Instruction` built from a word with
the register `reg` (instruction.cpp is not among the sources): the effective address,
`getAddress` of the decoded variant on the first first-order address, the register and
the RAM. -/
def instructionAdr (r : Ram) (val : Word) (reg : Word) : Address :=
  (getInstruction val).getAddress (firstAdr val) reg ⟨FIRST_ADDRESS, reg, r, EMPTY_WORD⟩

/-- `Cursor::goToInstructionsAddress`: in CODE, the cursor goes to the address of the
instruction under it, unless that address has the space `NONE`. -/
def Cursor.goToInstructionsAddress (c : Cursor) : Cursor :=
  if c.getAddressSpace = .DATA then c
  else
    let adr := instructionAdr c.ram c.getWord EMPTY_WORD
    if adr.space = .NONE then c else c.goToAddress adr

/-- `Cursor::moveByteUp`: the word under the cursor changes places with the word above. -/
def Cursor.moveByteUp (c : Cursor) : Cursor :=
  let atFirstAddress := decide (c.getAddr ≤ 0)
  if atFirstAddress then c
  else
    let tmp := c.getWord
    let c1 := c.decreaseY
    let tmp2 := c1.getWord
    let c2 := c1.setWord tmp
    let c3 := c2.increaseY
    let c4 := c3.setWord tmp2
    c4.decreaseY

/-- `Cursor::moveByteDown`: the word under the cursor changes places with the word
below. -/
def Cursor.moveByteDown (c : Cursor) : Cursor :=
  let atLastAddress := decide (c.getAddr ≥ RAM_SIZE - 1)
  if atLastAddress then c
  else
    let tmp := c.getWord
    let c1 := c.increaseY
    let tmp2 := c1.getWord
    let c2 := c1.setWord tmp
    let c3 := c2.decreaseY
    let c4 := c3.setWord tmp2
    c4.increaseY

/-- The coordinates of both spaces are in range: bit indices below `WORD_SIZE`, word
indices below `RAM_SIZE`. -/
def Cursor.InRange (c : Cursor) : Prop :=
  c.codeX < WORD_SIZE ∧ c.codeY < RAM_SIZE ∧ c.dataX < WORD_SIZE ∧ c.dataY < RAM_SIZE

/-- The word of `Write` to the last address. -/
def WRITE_LAST : Word := [false, false, false, true, true, true, true, true]

/-- A cursor in CODE, on the instruction `Write` to the last address. -/
def cursorWriteLast : Cursor := ⟨mkRam [WRITE_LAST] [], .CODE, 0, 0, 0, 0⟩

/-- A cursor at the top of DATA, on a non-empty word. -/
def cursorTop : Cursor := ⟨mkRam [] [WORD_1, WORD_255], .DATA, 0, 0, 3, 0⟩

/-- A cursor on the second word of DATA. -/
def cursorSecond : Cursor := ⟨mkRam [] [WORD_1, WORD_255], .DATA, 0, 0, 3, 1⟩

/-- A RAM whose DATA holds three words, none referenced by an instruction. -/
def ramThreeWords : Ram := mkRam [] [WORD_1, WORD_255, JUMP_3]

/-- The non-empty words of a list, in order. -/
def nonEmptyWords (ws : List Word) : List Word := ws.filter (fun w => decide (w ≠ EMPTY_WORD))

/-! # Theorems -/

/-! ## The address-patch step -/

theorem foldl_ram_code (f : Word → Word) (js : List Nat) (r : Ram) :
    js.foldl (fun ram j => { ram with code := ram.code.set j (f (ram.code.getD j EMPTY_WORD)) }) r
      = { r with code := js.foldl (fun l j => l.set j (f (l.getD j EMPTY_WORD))) r.code } := by
  induction js generalizing r with
  | nil => rfl
  | cons j js ih => simp only [List.foldl_cons]; rw [ih]

theorem foldl_set_length (f : Word → Word) (js : List Nat) (l : List Word) :
    (js.foldl (fun l j => l.set j (f (l.getD j EMPTY_WORD))) l).length = l.length := by
  induction js generalizing l with
  | nil => rfl
  | cons j js ih => simp only [List.foldl_cons]; rw [ih]; exact List.length_set _ _ _

theorem foldl_set_getElem? (f : Word → Word) (n : Nat) (l : List Word) (i : Nat) :
    ((List.range n).foldl (fun l j => l.set j (f (l.getD j EMPTY_WORD))) l)[i]?
      = if i < n then (l[i]?).map f else l[i]? := by
  induction n generalizing i with
  | zero => simp
  | succ n ih =>
    rw [List.range_succ, List.foldl_append]
    simp only [List.foldl_cons, List.foldl_nil]
    rw [List.getElem?_set]
    by_cases h : n = i
    · subst h
      rw [if_pos rfl, if_pos (Nat.lt_succ_self n), foldl_set_length, List.getD_eq_getElem?_getD,
        ih n, if_neg (lt_irrefl n)]
      by_cases hlen : n < l.length
      · rw [if_pos hlen, List.getElem?_eq_getElem hlen]; rfl
      · rw [if_neg hlen, List.getElem?_eq_none (not_lt.mp hlen)]; rfl
    · rw [if_neg h, ih]
      have : i < n + 1 ↔ i < n := by omega
      simp only [this]

theorem incOrDec_code (r : Ram) (space : AddrSpace) (index : Nat) (delta : Int) (i : Nat) :
    (incOrDecAddressesPastTheIndex r space index delta).code[i]?
      = if i < (getIndexOfLastNonEmptyInst r.code + 1).toNat
        then (r.code[i]?).map (patchWord space index delta) else r.code[i]? := by
  unfold incOrDecAddressesPastTheIndex
  simp only [getAllInstructions]
  rw [foldl_ram_code]
  exact foldl_set_getElem? _ _ _ _

theorem incOrDec_data (r : Ram) (space : AddrSpace) (index : Nat) (delta : Int) :
    (incOrDecAddressesPastTheIndex r space index delta).data = r.data := by
  unfold incOrDecAddressesPastTheIndex
  simp only [getAllInstructions]
  rw [foldl_ram_code]

theorem incOrDec_code_length (r : Ram) (space : AddrSpace) (index : Nat) (delta : Int) :
    (incOrDecAddressesPastTheIndex r space index delta).code.length = r.code.length := by
  unfold incOrDecAddressesPastTheIndex
  simp only [getAllInstructions]
  rw [foldl_ram_code]
  exact foldl_set_length _ _ _

theorem patchWord_last (space : AddrSpace) (index : Nat) (delta : Int) (w : Word)
    (h : (firstAdr w).val = LAST_ADDRESS) : patchWord space index delta w = w := by
  unfold patchWord
  simp [h]

/-- C3: an instruction whose first first-order address is `LAST_ADDRESS` has the same
word after the address-patch step as before it, for every space, index and delta (so for
every insert and every delete); the DATA space is not touched by the step. -/
theorem last_address_operand_never_patched (r : Ram) (space : AddrSpace) (index : Nat)
    (delta : Int) (i : Nat) (w : Word) (hw : r.code[i]? = some w)
    (hlast : (firstAdr w).val = LAST_ADDRESS) :
    (incOrDecAddressesPastTheIndex r space index delta).code[i]? = some w ∧
      (incOrDecAddressesPastTheIndex r space index delta).data = r.data := by
  refine ⟨?_, incOrDec_data r space index delta⟩
  rw [incOrDec_code, hw]
  split
  · simp [patchWord_last space index delta w hlast]
  · rfl

theorem last_address_operand_never_patched_witness :
    (incOrDecAddressesPastTheIndex ramJumpLast .CODE 0 1).code[0]? = some JUMP_LAST ∧
      (incOrDecAddressesPastTheIndex ramJumpLast .CODE 0 1).data = ramJumpLast.data :=
  last_address_operand_never_patched ramJumpLast .CODE 0 1 0 JUMP_LAST (by decide) (by decide)

/-! ## Word-level facts about re-encoding an operand -/

theorem word_cases (w : Word) (h : w.length = WORD_SIZE) :
    ∃ b0 b1 b2 b3 b4 b5 b6 b7 : Bool, w = [b0, b1, b2, b3, b4, b5, b6, b7] := by
  match w, h with
  | [b0, b1, b2, b3, b4, b5, b6, b7], _ => exact ⟨b0, b1, b2, b3, b4, b5, b6, b7, rfl⟩

set_option maxRecDepth 100000 in
theorem setAddress_inc_word : ∀ (b0 b1 b2 b3 b4 b5 b6 b7 : Bool),
    getInstruction [b0, b1, b2, b3, b4, b5, b6, b7] ≠ .InitializeFirstAddress →
    getInstruction [b0, b1, b2, b3, b4, b5, b6, b7] ≠ .And →
    getInstruction [b0, b1, b2, b3, b4, b5, b6, b7] ≠ .Or →
    (firstAdr [b0, b1, b2, b3, b4, b5, b6, b7]).space ≠ .NONE →
    getInt (firstAdr [b0, b1, b2, b3, b4, b5, b6, b7]).val + 1 <
      2 ^ (WORD_SIZE - getAdrIndex (getInstruction [b0, b1, b2, b3, b4, b5, b6, b7])) →
    getInstruction (setAddress [b0, b1, b2, b3, b4, b5, b6, b7]
        ((getInt (firstAdr [b0, b1, b2, b3, b4, b5, b6, b7]).val : Int) + 1)
        (getAdrIndex (getInstruction [b0, b1, b2, b3, b4, b5, b6, b7])))
      = getInstruction [b0, b1, b2, b3, b4, b5, b6, b7] ∧
    (firstAdr (setAddress [b0, b1, b2, b3, b4, b5, b6, b7]
        ((getInt (firstAdr [b0, b1, b2, b3, b4, b5, b6, b7]).val : Int) + 1)
        (getAdrIndex (getInstruction [b0, b1, b2, b3, b4, b5, b6, b7])))).space
      = (firstAdr [b0, b1, b2, b3, b4, b5, b6, b7]).space ∧
    getInt (firstAdr (setAddress [b0, b1, b2, b3, b4, b5, b6, b7]
        ((getInt (firstAdr [b0, b1, b2, b3, b4, b5, b6, b7]).val : Int) + 1)
        (getAdrIndex (getInstruction [b0, b1, b2, b3, b4, b5, b6, b7])))).val
      = getInt (firstAdr [b0, b1, b2, b3, b4, b5, b6, b7]).val + 1 := by
  decide

set_option maxRecDepth 100000 in
set_option synthInstance.maxSize 4096 in
set_option synthInstance.maxHeartbeats 400000 in
theorem setAddress_dec_word : ∀ (b0 b1 b2 b3 b4 b5 b6 b7 : Bool),
    getInstruction [b0, b1, b2, b3, b4, b5, b6, b7] ≠ .InitializeFirstAddress →
    getInstruction [b0, b1, b2, b3, b4, b5, b6, b7] ≠ .And →
    getInstruction [b0, b1, b2, b3, b4, b5, b6, b7] ≠ .Or →
    (firstAdr [b0, b1, b2, b3, b4, b5, b6, b7]).space ≠ .NONE →
    (firstAdr [b0, b1, b2, b3, b4, b5, b6, b7]).val ≠ LAST_ADDRESS →
    1 ≤ getInt (firstAdr [b0, b1, b2, b3, b4, b5, b6, b7]).val →
    getInstruction (setAddress [b0, b1, b2, b3, b4, b5, b6, b7]
        ((getInt (firstAdr [b0, b1, b2, b3, b4, b5, b6, b7]).val : Int) + (-1))
        (getAdrIndex (getInstruction [b0, b1, b2, b3, b4, b5, b6, b7])))
      = getInstruction [b0, b1, b2, b3, b4, b5, b6, b7] ∧
    (firstAdr (setAddress [b0, b1, b2, b3, b4, b5, b6, b7]
        ((getInt (firstAdr [b0, b1, b2, b3, b4, b5, b6, b7]).val : Int) + (-1))
        (getAdrIndex (getInstruction [b0, b1, b2, b3, b4, b5, b6, b7])))).space
      = (firstAdr [b0, b1, b2, b3, b4, b5, b6, b7]).space ∧
    getInt (firstAdr (setAddress [b0, b1, b2, b3, b4, b5, b6, b7]
        ((getInt (firstAdr [b0, b1, b2, b3, b4, b5, b6, b7]).val : Int) + (-1))
        (getAdrIndex (getInstruction [b0, b1, b2, b3, b4, b5, b6, b7])))).val + 1
      = getInt (firstAdr [b0, b1, b2, b3, b4, b5, b6, b7]).val := by
  decide

theorem patchWord_pos (space : AddrSpace) (index : Nat) (delta : Int) (w : Word)
    (h1 : (firstAdr w).space = space) (h2 : index ≤ getInt (firstAdr w).val)
    (h3 : (firstAdr w).val ≠ LAST_ADDRESS) :
    patchWord space index delta w
      = setAddress w ((getInt (firstAdr w).val : Int) + delta) (getAdrIndex (getInstruction w)) := by
  unfold patchWord
  simp [h1, h2, h3]

theorem patchWord_neg (space : AddrSpace) (index : Nat) (delta : Int) (w : Word)
    (h : (firstAdr w).space ≠ space ∨ getInt (firstAdr w).val < index) :
    patchWord space index delta w = w := by
  unfold patchWord
  rcases h with h | h
  · simp [h]
  · simp [Nat.not_le.mpr h]

theorem incOrDec_code_effective (r : Ram) (space : AddrSpace) (index : Nat) (delta : Int)
    (i : Nat) (w : Word) (hw : r.code[i]? = some w)
    (hi : (i : Int) ≤ getIndexOfLastNonEmptyInst (getAllInstructions r)) :
    (incOrDecAddressesPastTheIndex r space index delta).code[i]?
      = some (patchWord space index delta w) := by
  rw [incOrDec_code, hw]
  have : i < (getIndexOfLastNonEmptyInst r.code + 1).toNat := by
    simp only [getAllInstructions] at hi
    omega
  simp [this]

/-- The patch step with delta +1 on any RAM, space and index `A`: an effective CODE
instruction `w` that reads its operand from the word (not `InitializeFirstAddress`, `And`,
`Or`), whose first first-order address lies in `space` with index `k >= A`, is not
`LAST_ADDRESS` and has `k + 1` representable in its operand field, is rewritten into a word
of the same variant whose decoded operand index is `k + 1`; an instruction whose address
lies in another space (or `NONE`) or has index `k < A` keeps its word. -/
theorem insert_patch_increments_encoded_operand (r : Ram) (space : AddrSpace) (A i : Nat)
    (w : Word) (hspace : space ≠ .NONE) (hw : r.code[i]? = some w)
    (hlen : w.length = WORD_SIZE)
    (hi : (i : Int) ≤ getIndexOfLastNonEmptyInst (getAllInstructions r)) :
    ((firstAdr w).space = space → A ≤ getInt (firstAdr w).val →
      (firstAdr w).val ≠ LAST_ADDRESS →
      getInstruction w ≠ .InitializeFirstAddress → getInstruction w ≠ .And →
      getInstruction w ≠ .Or →
      getInt (firstAdr w).val + 1 < 2 ^ (WORD_SIZE - getAdrIndex (getInstruction w)) →
      ∃ w', (incOrDecAddressesPastTheIndex r space A 1).code[i]? = some w' ∧
        getInstruction w' = getInstruction w ∧ (firstAdr w').space = space ∧
        getInt (firstAdr w').val = getInt (firstAdr w).val + 1) ∧
    (((firstAdr w).space ≠ space ∨ getInt (firstAdr w).val < A) →
      (incOrDecAddressesPastTheIndex r space A 1).code[i]? = some w) := by
  constructor
  · intro h1 h2 h3 h4 h5 h6 h7
    refine ⟨_, incOrDec_code_effective r space A 1 i w hw hi, ?_⟩
    rw [patchWord_pos space A 1 w h1 h2 h3]
    obtain ⟨b0, b1, b2, b3, b4, b5, b6, b7, rfl⟩ := word_cases w hlen
    have hs : (firstAdr [b0, b1, b2, b3, b4, b5, b6, b7]).space ≠ .NONE := by
      rw [h1]; exact hspace
    have := setAddress_inc_word b0 b1 b2 b3 b4 b5 b6 b7 h4 h5 h6 hs h7
    rw [h1] at this
    exact this
  · intro h
    rw [incOrDec_code_effective r space A 1 i w hw hi, patchWord_neg space A 1 w h]

/-- The patch step with delta -1 on any RAM, space and index `A`: an effective CODE
instruction `w` that reads its operand from the word (not `InitializeFirstAddress`, `And`,
`Or`), whose first first-order address lies in `space` with index `k >= A`, `k >= 1`, and is
not `LAST_ADDRESS`, is rewritten into a word of the same variant whose decoded operand index
is `k - 1`; an instruction whose address lies in another space (or `NONE`) or has index
`k < A` keeps its word. -/
theorem delete_patch_decrements_encoded_operand (r : Ram) (space : AddrSpace) (A i : Nat)
    (w : Word) (hspace : space ≠ .NONE) (hw : r.code[i]? = some w)
    (hlen : w.length = WORD_SIZE)
    (hi : (i : Int) ≤ getIndexOfLastNonEmptyInst (getAllInstructions r)) :
    ((firstAdr w).space = space → A ≤ getInt (firstAdr w).val →
      (firstAdr w).val ≠ LAST_ADDRESS → 1 ≤ getInt (firstAdr w).val →
      getInstruction w ≠ .InitializeFirstAddress → getInstruction w ≠ .And →
      getInstruction w ≠ .Or →
      ∃ w', (incOrDecAddressesPastTheIndex r space A (-1)).code[i]? = some w' ∧
        getInstruction w' = getInstruction w ∧ (firstAdr w').space = space ∧
        getInt (firstAdr w').val + 1 = getInt (firstAdr w).val) ∧
    (((firstAdr w).space ≠ space ∨ getInt (firstAdr w).val < A) →
      (incOrDecAddressesPastTheIndex r space A (-1)).code[i]? = some w) := by
  constructor
  · intro h1 h2 h3 hk h4 h5 h6
    refine ⟨_, incOrDec_code_effective r space A (-1) i w hw hi, ?_⟩
    rw [patchWord_pos space A (-1) w h1 h2 h3]
    obtain ⟨b0, b1, b2, b3, b4, b5, b6, b7, rfl⟩ := word_cases w hlen
    have hs : (firstAdr [b0, b1, b2, b3, b4, b5, b6, b7]).space ≠ .NONE := by
      rw [h1]; exact hspace
    have := setAddress_dec_word b0 b1 b2 b3 b4 b5 b6 b7 h4 h5 h6 hs h3 hk
    rw [h1] at this
    exact this
  · intro h
    rw [incOrDec_code_effective r space A (-1) i w hw hi, patchWord_neg space A (-1) w h]

theorem insert_patch_increments_encoded_operand_witness :
    ∃ w', (incOrDecAddressesPastTheIndex ramJump3 .CODE 0 1).code[0]? = some w' ∧
      getInstruction w' = getInstruction JUMP_3 ∧ (firstAdr w').space = .CODE ∧
      getInt (firstAdr w').val = getInt (firstAdr JUMP_3).val + 1 :=
  (insert_patch_increments_encoded_operand ramJump3 .CODE 0 0 JUMP_3 (by decide) (by decide)
    (by decide) (by decide)).1 (by decide) (by decide) (by decide) (by decide) (by decide)
    (by decide) (by decide)

theorem delete_patch_decrements_encoded_operand_witness :
    ∃ w', (incOrDecAddressesPastTheIndex ramJump3 .CODE 3 (-1)).code[0]? = some w' ∧
      getInstruction w' = getInstruction JUMP_3 ∧ (firstAdr w').space = .CODE ∧
      getInt (firstAdr w').val + 1 = getInt (firstAdr JUMP_3).val :=
  (delete_patch_decrements_encoded_operand ramJump3 .CODE 3 0 JUMP_3 (by decide) (by decide)
    (by decide) (by decide)).1 (by decide) (by decide) (by decide) (by decide) (by decide)
    (by decide) (by decide)

/-! ## Rejected edits -/

theorem words_setWords (r : Ram) (space sp : AddrSpace) (ws : List Word) :
    (r.setWords space ws).words sp = if sp = space ∧ space ≠ .NONE then ws else r.words sp := by
  cases space <;> cases sp <;> simp [Ram.setWords, Ram.words]

theorem words_set_other (r : Ram) (adr : Address) (w : Word) (sp : AddrSpace) (i : Nat)
    (h : sp ≠ adr.space ∨ i ≠ getInt adr.val) :
    ((r.set adr w).words sp)[i]? = (r.words sp)[i]? := by
  unfold Ram.set
  rw [words_setWords]
  split
  · next hs =>
    obtain ⟨hs1, _⟩ := hs
    subst hs1
    rcases h with h | h
    · exact absurd rfl h
    · rw [List.getElem?_set]
      simp [Ne.symm h]
  · rfl

theorem delete_rejected_result (r : Ram) (adr : Address)
    (h : (deleteByteAndMoveRestUp r adr).1 = false) :
    (deleteByteAndMoveRestUp r adr).2
      = if adr.space = .DATA ∧ shouldNotModifyData r false (getInt adr.val) ≠ 0 then r
        else r.set adr EMPTY_WORD := by
  unfold deleteByteAndMoveRestUp shouldNotModifyDelete at *
  by_cases hb : adr.space = .DATA ∧ shouldNotModifyData r false (getInt adr.val) ≠ 0
  · simp [hb]
  · by_cases hu : addressUsed r adr = true
    · simp [hb, hu]
    · simp [hb, hu] at h

/-- C5 (amended): a rejected delete leaves every word other than slot `A` of its space as
it was; slot `A` itself is unchanged when the logic-binding check rejected the delete, and
is set to the empty word otherwise. -/
theorem delete_rejected_changes_only_its_slot (r : Ram) (adr : Address)
    (h : (deleteByteAndMoveRestUp r adr).1 = false) :
    (∀ sp i, (sp ≠ adr.space ∨ i ≠ getInt adr.val) →
      ((deleteByteAndMoveRestUp r adr).2.words sp)[i]? = (r.words sp)[i]?) ∧
    ((adr.space = .DATA ∧ shouldNotModifyData r false (getInt adr.val) ≠ 0) →
      (deleteByteAndMoveRestUp r adr).2 = r) ∧
    (¬ (adr.space = .DATA ∧ shouldNotModifyData r false (getInt adr.val) ≠ 0) →
      (deleteByteAndMoveRestUp r adr).2 = r.set adr EMPTY_WORD) := by
  have hres := delete_rejected_result r adr h
  refine ⟨?_, ?_, ?_⟩
  · intro sp i hne
    rw [hres]
    split
    · rfl
    · exact words_set_other r adr EMPTY_WORD sp i hne
  · intro hb
    rw [hres, if_pos hb]
  · intro hb
    rw [hres, if_neg hb]

theorem delete_rejected_changes_only_its_slot_witness :
    (∀ sp i, (sp ≠ AddrSpace.DATA ∨ i ≠ getInt FIRST_ADDRESS) →
      ((deleteByteAndMoveRestUp ramDataWord ⟨.DATA, FIRST_ADDRESS⟩).2.words sp)[i]?
        = (ramDataWord.words sp)[i]?) ∧
    ((AddrSpace.DATA = .DATA ∧ shouldNotModifyData ramDataWord false (getInt FIRST_ADDRESS) ≠ 0) →
      (deleteByteAndMoveRestUp ramDataWord ⟨.DATA, FIRST_ADDRESS⟩).2 = ramDataWord) ∧
    (¬ (AddrSpace.DATA = .DATA ∧
        shouldNotModifyData ramDataWord false (getInt FIRST_ADDRESS) ≠ 0) →
      (deleteByteAndMoveRestUp ramDataWord ⟨.DATA, FIRST_ADDRESS⟩).2
        = ramDataWord.set ⟨.DATA, FIRST_ADDRESS⟩ EMPTY_WORD) :=
  delete_rejected_changes_only_its_slot ramDataWord ⟨.DATA, FIRST_ADDRESS⟩ (by decide)

/-- C5, as stated, fails: the delete at DATA 0, a slot holding a non-empty word that no
instruction references, is rejected, and yet slot 0 no longer holds its word. -/
theorem delete_rejected_memory_changed_counterexample :
    ramDataWord.WellFormed ∧
    (deleteByteAndMoveRestUp ramDataWord ⟨.DATA, FIRST_ADDRESS⟩).1 = false ∧
    ramDataWord.data[0]? = some JUMP_3 ∧
    (deleteByteAndMoveRestUp ramDataWord ⟨.DATA, FIRST_ADDRESS⟩).2.data[0]? = some EMPTY_WORD ∧
    (deleteByteAndMoveRestUp ramDataWord ⟨.DATA, FIRST_ADDRESS⟩).2 ≠ ramDataWord := by
  refine ⟨?_, by decide, by decide, by decide, by decide⟩
  unfold Ram.WellFormed
  decide

theorem shouldNotModifyInsert_blocked (r : Ram) (adr : Address)
    (hb : adr.space = .DATA ∧ shouldNotModifyData r true (getInt adr.val) ≠ 0) :
    shouldNotModifyInsert r adr = (true, r) := by
  unfold shouldNotModifyInsert
  rw [if_pos hb]

theorem shouldNotModifyInsert_free (r : Ram) (adr : Address)
    (hb : ¬ (adr.space = .DATA ∧ shouldNotModifyData r true (getInt adr.val) ≠ 0))
    (hu : addressUsed r ⟨adr.space, getBoolNibb ((RAM_SIZE : Int) - 1)⟩ = false) :
    shouldNotModifyInsert r adr = (false, r) := by
  unfold shouldNotModifyInsert
  rw [if_neg hb]
  simp only [hu]
  rfl

theorem shouldNotModifyInsert_rejected (r : Ram) (adr : Address)
    (hb : ¬ (adr.space = .DATA ∧ shouldNotModifyData r true (getInt adr.val) ≠ 0))
    (hu : addressUsed r ⟨adr.space, getBoolNibb ((RAM_SIZE : Int) - 1)⟩ = true)
    (hr : (getLastRedundandAdr r adr.space).space = .NONE ∨
      getInt (getLastRedundandAdr r adr.space).val ≤ getInt adr.val + 1) :
    shouldNotModifyInsert r adr = (true, r) := by
  unfold shouldNotModifyInsert
  rw [if_neg hb]
  simp only [hu, if_true]
  rw [if_pos]
  rcases hr with hr | hr
  · exact Or.inl hr
  · exact Or.inr (decide_eq_true hr)

theorem shouldNotModifyInsert_reclaim (r : Ram) (adr : Address)
    (hb : ¬ (adr.space = .DATA ∧ shouldNotModifyData r true (getInt adr.val) ≠ 0))
    (hu : addressUsed r ⟨adr.space, getBoolNibb ((RAM_SIZE : Int) - 1)⟩ = true)
    (hr1 : (getLastRedundandAdr r adr.space).space ≠ .NONE)
    (hr2 : getInt adr.val + 1 < getInt (getLastRedundandAdr r adr.space).val) :
    shouldNotModifyInsert r adr
      = (false, (deleteByteAndMoveRestUp r (getLastRedundandAdr r adr.space)).2) := by
  unfold shouldNotModifyInsert
  rw [if_neg hb]
  simp only [hu, if_true]
  rw [if_neg]
  intro h
  rcases h with h | h
  · exact hr1 h
  · have := of_decide_eq_true h
    omega

/-- C6: when `insertByteAndMoveRestDown(adr)` returns false the RAM is exactly what it was
before the call: no redundant slot has been deleted and no operand patched. -/
theorem insert_rejected_memory_unchanged (r : Ram) (getY : Nat) (adr : Address)
    (h : (insertByteAndMoveRestDown r getY adr).1 = false) :
    (insertByteAndMoveRestDown r getY adr).2 = r := by
  unfold insertByteAndMoveRestDown shouldNotModify at *
  simp only [if_true] at *
  by_cases hb : adr.space = .DATA ∧ shouldNotModifyData r true (getInt adr.val) ≠ 0
  · rw [shouldNotModifyInsert_blocked r adr hb]
    rfl
  · cases hu : addressUsed r ⟨adr.space, getBoolNibb ((RAM_SIZE : Int) - 1)⟩
    · rw [shouldNotModifyInsert_free r adr hb hu] at h
      simp at h
    · by_cases hr : (getLastRedundandAdr r adr.space).space = .NONE ∨
          getInt (getLastRedundandAdr r adr.space).val ≤ getInt adr.val + 1
      · rw [shouldNotModifyInsert_rejected r adr hb hu hr]
        rfl
      · have hr1 : (getLastRedundandAdr r adr.space).space ≠ .NONE := fun e => hr (Or.inl e)
        have hr2 : getInt adr.val + 1 < getInt (getLastRedundandAdr r adr.space).val := by
          by_contra hc
          exact hr (Or.inr (not_lt.mp hc))
        rw [shouldNotModifyInsert_reclaim r adr hb hu hr1 hr2] at h
        simp at h

theorem insert_rejected_memory_unchanged_witness :
    (insertByteAndMoveRestDown ramDataFull 0 ⟨.DATA, FIRST_ADDRESS⟩).2 = ramDataFull :=
  insert_rejected_memory_unchanged ramDataFull 0 ⟨.DATA, FIRST_ADDRESS⟩ (by decide)

/-! ## The shift loops -/

theorem actuallyInsertLoop_length (a i : Nat) (s : List Word) :
    (actuallyInsertLoop a i s).length = s.length := by
  induction i generalizing s with
  | zero => rfl
  | succ i ih =>
    unfold actuallyInsertLoop
    split
    · rw [ih]; exact List.length_set _ _ _
    · rfl

theorem actuallyInsertLoop_getElem? (a i : Nat) (s : List Word) (hi : i < s.length) (j : Nat) :
    (actuallyInsertLoop a i s)[j]? = if a < j ∧ j ≤ i then s[j - 1]? else s[j]? := by
  induction i generalizing s with
  | zero =>
    unfold actuallyInsertLoop
    have : ¬ (a < j ∧ j ≤ 0) := by omega
    rw [if_neg this]
  | succ i ih =>
    unfold actuallyInsertLoop
    by_cases ha : i + 1 > a
    · rw [if_pos ha, ih _ (by rw [List.length_set]; omega)]
      by_cases hj : a < j ∧ j ≤ i
      · rw [if_pos hj, if_pos (by omega), List.getElem?_set]
        rw [if_neg (by omega)]
      · rw [if_neg hj, List.getElem?_set]
        by_cases hji : i + 1 = j
        · subst hji
          rw [if_pos rfl, if_pos hi, if_pos (by omega), List.getD_eq_getElem?_getD]
          have : i < s.length := by omega
          rw [List.getElem?_eq_getElem this]
          simp
        · rw [if_neg hji, if_neg (by omega)]
    · rw [if_neg ha, if_neg (by omega)]

theorem actuallyDeleteLoop_length (n i : Nat) (s : List Word) :
    (actuallyDeleteLoop n i s).length = s.length := by
  induction n generalizing i s with
  | zero => rfl
  | succ n ih =>
    unfold actuallyDeleteLoop
    rw [ih]; exact List.length_set _ _ _

theorem actuallyDeleteLoop_getElem? (n i : Nat) (s : List Word) (hi : i + n < s.length)
    (j : Nat) :
    (actuallyDeleteLoop n i s)[j]? = if i ≤ j ∧ j < i + n then s[j + 1]? else s[j]? := by
  induction n generalizing i s with
  | zero =>
    unfold actuallyDeleteLoop
    have : ¬ (i ≤ j ∧ j < i + 0) := by omega
    rw [if_neg this]
  | succ n ih =>
    unfold actuallyDeleteLoop
    rw [ih _ _ (by rw [List.length_set]; omega)]
    by_cases hj : i + 1 ≤ j ∧ j < i + 1 + n
    · rw [if_pos hj, if_pos (by omega), List.getElem?_set, if_neg (by omega)]
    · rw [if_neg hj, List.getElem?_set]
      by_cases hji : i = j
      · subst hji
        rw [if_pos rfl, if_pos (by omega), if_pos (by omega), List.getD_eq_getElem?_getD]
        have : i + 1 < s.length := by omega
        rw [List.getElem?_eq_getElem this]
        simp
      · rw [if_neg hji, if_neg (by omega)]

theorem incOrDec_words_data (r : Ram) (space : AddrSpace) (index : Nat) (delta : Int) :
    (incOrDecAddressesPastTheIndex r space index delta).words .DATA = r.words .DATA :=
  incOrDec_data r space index delta

theorem incOrDec_words_length (r : Ram) (space : AddrSpace) (index : Nat) (delta : Int)
    (sp : AddrSpace) :
    ((incOrDecAddressesPastTheIndex r space index delta).words sp).length
      = (r.words sp).length := by
  cases sp
  · exact incOrDec_code_length r space index delta
  · show (incOrDecAddressesPastTheIndex r space index delta).data.length = r.data.length
    rw [incOrDec_data]
  · rfl

theorem wellFormed_words_length (r : Ram) (h : r.WellFormed) (sp : AddrSpace) (hsp : sp ≠ .NONE) :
    (r.words sp).length = RAM_SIZE := by
  cases sp
  · exact h.1
  · exact h.2.1
  · exact absurd rfl hsp

theorem actuallyDelete_words (r : Ram) (adr : Address) (hsp : adr.space ≠ .NONE)
    (hlen : (r.words adr.space).length = RAM_SIZE) (hA : getInt adr.val < RAM_SIZE) (j : Nat) :
    ((actuallyDelete r adr).words adr.space)[j]?
      = if j = RAM_SIZE - 1 then some EMPTY_WORD
        else if getInt adr.val ≤ j then (r.words adr.space)[j + 1]?
        else (r.words adr.space)[j]? := by
  unfold actuallyDelete
  rw [words_setWords, if_pos ⟨rfl, hsp⟩, List.getElem?_set]
  rw [actuallyDeleteLoop_length, hlen]
  by_cases hj : j = RAM_SIZE - 1
  · subst hj
    simp
  · rw [if_neg (Ne.symm hj), if_neg hj,
      actuallyDeleteLoop_getElem? _ _ _ (by rw [hlen]; omega)]
    by_cases hAj : getInt adr.val ≤ j
    · rw [if_pos hAj]
      by_cases hj2 : j < RAM_SIZE - 1
      · rw [if_pos (by omega)]
      · rw [if_neg (by omega)]
        rw [List.getElem?_eq_none (by rw [hlen]; simp only [RAM_SIZE] at *; omega),
            List.getElem?_eq_none (by rw [hlen]; simp only [RAM_SIZE] at *; omega)]
    · rw [if_neg hAj, if_neg (by omega)]

theorem actuallyDelete_words_other (r : Ram) (adr : Address) (sp : AddrSpace)
    (h : sp ≠ adr.space) : (actuallyDelete r adr).words sp = r.words sp := by
  unfold actuallyDelete
  rw [words_setWords, if_neg (fun hc => h hc.1)]

theorem delete_success_result (r : Ram) (adr : Address)
    (h : (deleteByteAndMoveRestUp r adr).1 = true) :
    (deleteByteAndMoveRestUp r adr).2
        = actuallyDelete (incOrDecAddressesPastTheIndex r adr.space (getInt adr.val) (-1)) adr ∧
      ¬ (adr.space = .DATA ∧ shouldNotModifyData r false (getInt adr.val) ≠ 0) ∧
      addressUsed r adr = false := by
  unfold deleteByteAndMoveRestUp shouldNotModifyDelete at *
  by_cases hb : adr.space = .DATA ∧ shouldNotModifyData r false (getInt adr.val) ≠ 0
  · simp [hb] at h
  · cases hu : addressUsed r adr
    · simp [hb, hu]
    · simp [hb, hu] at h

/-- C8 (amended): a successful delete at `A` in space `S` leaves every slot of `S` below
`A` holding the word it held just before the shift (the word as the operand patching left
it), puts into each slot `i` with `A <= i < RAM_SIZE-1` the word slot `i+1` held just
before the shift, and leaves the final slot empty; the other space is as it was just before
the shift, and the operand patching before the shift does not touch DATA. -/
theorem delete_shifts_up (r : Ram) (adr : Address) (hwf : r.WellFormed)
    (hsp : adr.space ≠ .NONE) (hA : getInt adr.val < RAM_SIZE)
    (h : (deleteByteAndMoveRestUp r adr).1 = true) :
    (∀ i, i < getInt adr.val →
      ((deleteByteAndMoveRestUp r adr).2.words adr.space)[i]?
        = ((incOrDecAddressesPastTheIndex r adr.space (getInt adr.val) (-1)).words adr.space)[i]?) ∧
    (∀ i, getInt adr.val ≤ i → i < RAM_SIZE - 1 →
      ((deleteByteAndMoveRestUp r adr).2.words adr.space)[i]?
        = ((incOrDecAddressesPastTheIndex r adr.space (getInt adr.val) (-1)).words adr.space)[i + 1]?) ∧
    ((deleteByteAndMoveRestUp r adr).2.words adr.space)[RAM_SIZE - 1]? = some EMPTY_WORD ∧
    (∀ sp, sp ≠ adr.space →
      (deleteByteAndMoveRestUp r adr).2.words sp
        = (incOrDecAddressesPastTheIndex r adr.space (getInt adr.val) (-1)).words sp) ∧
    (incOrDecAddressesPastTheIndex r adr.space (getInt adr.val) (-1)).data = r.data := by
  obtain ⟨hres, _, _⟩ := delete_success_result r adr h
  rw [hres]
  have hlen : ((incOrDecAddressesPastTheIndex r adr.space (getInt adr.val) (-1)).words
      adr.space).length = RAM_SIZE := by
    rw [incOrDec_words_length]; exact wellFormed_words_length r hwf _ hsp
  refine ⟨?_, ?_, ?_, ?_, incOrDec_data _ _ _ _⟩
  · intro i hi
    rw [actuallyDelete_words _ _ hsp hlen hA, if_neg (by omega), if_neg (by omega)]
  · intro i hi1 hi2
    rw [actuallyDelete_words _ _ hsp hlen hA, if_neg (by omega), if_pos hi1]
  · rw [actuallyDelete_words _ _ hsp hlen hA, if_pos rfl]
  · intro sp hne
    exact actuallyDelete_words_other _ _ _ hne

theorem delete_shifts_up_witness :
    (∀ i, i < getInt (getBoolNibb 5) →
      ((deleteByteAndMoveRestUp cursorDataTop.ram ⟨.DATA, getBoolNibb 5⟩).2.words .DATA)[i]?
        = ((incOrDecAddressesPastTheIndex cursorDataTop.ram .DATA (getInt (getBoolNibb 5))
            (-1)).words .DATA)[i]?) ∧
    (∀ i, getInt (getBoolNibb 5) ≤ i → i < RAM_SIZE - 1 →
      ((deleteByteAndMoveRestUp cursorDataTop.ram ⟨.DATA, getBoolNibb 5⟩).2.words .DATA)[i]?
        = ((incOrDecAddressesPastTheIndex cursorDataTop.ram .DATA (getInt (getBoolNibb 5))
            (-1)).words .DATA)[i + 1]?) ∧
    ((deleteByteAndMoveRestUp cursorDataTop.ram ⟨.DATA, getBoolNibb 5⟩).2.words .DATA)[RAM_SIZE - 1]?
      = some EMPTY_WORD ∧
    (∀ sp, sp ≠ AddrSpace.DATA →
      (deleteByteAndMoveRestUp cursorDataTop.ram ⟨.DATA, getBoolNibb 5⟩).2.words sp
        = (incOrDecAddressesPastTheIndex cursorDataTop.ram .DATA (getInt (getBoolNibb 5))
            (-1)).words sp) ∧
    (incOrDecAddressesPastTheIndex cursorDataTop.ram .DATA (getInt (getBoolNibb 5)) (-1)).data
      = cursorDataTop.ram.data :=
  delete_shifts_up cursorDataTop.ram ⟨.DATA, getBoolNibb 5⟩ (by unfold Ram.WellFormed; decide)
    (by decide) (by decide) (by decide)

/-- C8, as stated, fails: the delete at CODE 1 succeeds, and slot 0, below the deleted
index, does not keep its word: the operand patching has rewritten `Jump 2` into `Jump 1`. -/
theorem delete_changes_slot_below_counterexample :
    ramJumpOverHole.WellFormed ∧
    (deleteByteAndMoveRestUp ramJumpOverHole ⟨.CODE, getBoolNibb 1⟩).1 = true ∧
    ramJumpOverHole.code[0]? = some JUMP_2 ∧
    (deleteByteAndMoveRestUp ramJumpOverHole ⟨.CODE, getBoolNibb 1⟩).2.code[0]? = some JUMP_1 ∧
    JUMP_1 ≠ JUMP_2 := by
  refine ⟨?_, by decide, by decide, by decide, by decide⟩
  unfold Ram.WellFormed
  decide

/-- The address-parameterised insert evaluated for an address that is not the cursor's, a
call that `cursor.cpp` does not make: with the cursor at word 0 of DATA and the address
DATA 3 the insert succeeds, slot 3 still holds its word and slot 0 has been cleared,
because `actuallyInsert` clears the slot at the cursor's `getY()`. -/
theorem insert_clears_cursor_slot_not_address_slot :
    cursorDataTop.ram.WellFormed ∧
    cursorDataTop.getY = 0 ∧
    (insertByteAndMoveRestDown cursorDataTop.ram cursorDataTop.getY ⟨.DATA, getBoolNibb 3⟩).1
      = true ∧
    cursorDataTop.ram.data[0]? = some JUMP_2 ∧
    cursorDataTop.ram.data[3]? = some JUMP_3 ∧
    (insertByteAndMoveRestDown cursorDataTop.ram cursorDataTop.getY
      ⟨.DATA, getBoolNibb 3⟩).2.data[0]? = some EMPTY_WORD ∧
    (insertByteAndMoveRestDown cursorDataTop.ram cursorDataTop.getY
      ⟨.DATA, getBoolNibb 3⟩).2.data[3]? = some JUMP_3 ∧
    (insertByteAndMoveRestDown cursorDataTop.ram cursorDataTop.getY
      ⟨.DATA, getBoolNibb 3⟩).2.data[4]? = some JUMP_3 := by
  refine ⟨?_, by decide, by decide, by decide, by decide, by decide, by decide, by decide⟩
  unfold Ram.WellFormed
  decide

/-! ## The redundant-slot search -/

theorem getLastRedundandAdrLoop_spec (r : Ram) (S : AddrSpace) (n : Nat) :
    (getLastRedundandAdrLoop r S n = ⟨.NONE, FIRST_ADDRESS⟩ ∧
      ∀ j : Nat, 1 ≤ j → j ≤ n →
        ¬ (addressUsed r ⟨S, getBoolNibb j⟩ = false ∧
          (S = .CODE → r.get ⟨S, getBoolNibb ((j : Int) - 1)⟩ = EMPTY_WORD))) ∨
    (∃ i : Nat, 1 ≤ i ∧ i ≤ n ∧ getLastRedundandAdrLoop r S n = ⟨S, getBoolNibb i⟩ ∧
      addressUsed r ⟨S, getBoolNibb i⟩ = false ∧
      (S = .CODE → r.get ⟨S, getBoolNibb ((i : Int) - 1)⟩ = EMPTY_WORD) ∧
      ∀ j : Nat, i < j → j ≤ n →
        ¬ (addressUsed r ⟨S, getBoolNibb j⟩ = false ∧
          (S = .CODE → r.get ⟨S, getBoolNibb ((j : Int) - 1)⟩ = EMPTY_WORD))) := by
  induction n with
  | zero =>
    left
    exact ⟨rfl, fun j h1 h2 => by omega⟩
  | succ n ih =>
    unfold getLastRedundandAdrLoop
    by_cases hq : addressUsed r ⟨S, getBoolNibb ((n + 1 : Nat) : Int)⟩ = false ∧
        (S = .CODE → r.get ⟨S, getBoolNibb (((n + 1 : Nat) : Int) - 1)⟩ = EMPTY_WORD)
    · right
      refine ⟨n + 1, by omega, le_refl _, ?_, hq.1, hq.2, fun j h1 h2 => by omega⟩
      simp only [hq.1, Bool.not_false, if_true]
      rw [if_neg]
      intro hc
      exact hc.2 (hq.2 hc.1)
    · have hstep : (let adr : Address := ⟨S, getBoolNibb ((n + 1 : Nat) : Int)⟩
          let adrNotUsed := !addressUsed r adr
          if adrNotUsed = true then
            if S = .CODE ∧
                r.get ⟨S, getBoolNibb (((n + 1 : Nat) : Int) - 1)⟩ ≠ EMPTY_WORD then
              getLastRedundandAdrLoop r S n
            else adr
          else getLastRedundandAdrLoop r S n) = getLastRedundandAdrLoop r S n := by
        cases hu : addressUsed r ⟨S, getBoolNibb ((n + 1 : Nat) : Int)⟩
        · simp only []
          rw [hu]
          simp only [Bool.not_false, if_true]
          rw [if_pos]
          by_contra hc
          apply hq
          refine ⟨hu, fun hS => ?_⟩
          by_contra hne
          exact hc ⟨hS, hne⟩
        · simp only []
          rw [hu]
          rfl
      rw [hstep]
      have hext : ∀ j : Nat, n < j → j ≤ n + 1 →
          ¬ (addressUsed r ⟨S, getBoolNibb j⟩ = false ∧
            (S = .CODE → r.get ⟨S, getBoolNibb ((j : Int) - 1)⟩ = EMPTY_WORD)) := by
        intro j h1 h2
        have : j = n + 1 := by omega
        subst this
        exact hq
      rcases ih with ⟨h1, h2⟩ | ⟨i, h1, h2, h3, h4, h5, h6⟩
      · left
        refine ⟨h1, fun j hj1 hj2 => ?_⟩
        by_cases hjn : j ≤ n
        · exact h2 j hj1 hjn
        · exact hext j (by omega) hj2
      · right
        refine ⟨i, h1, by omega, h3, h4, h5, fun j hj1 hj2 => ?_⟩
        by_cases hjn : j ≤ n
        · exact h6 j hj1 hjn
        · exact hext j (by omega) hj2

/-- C10 (amended): `getLastRedundandAdr(S)` searches the slots `RAM_SIZE-2` down to 1 and
returns the highest-indexed one that is unused and, when `S` is CODE, whose immediate
predecessor slot is empty; it returns `Address(NONE, FIRST_ADDRESS)` when no slot of that
range qualifies. -/
theorem getLastRedundandAdr_spec (r : Ram) (S : AddrSpace) :
    (getLastRedundandAdr r S = ⟨.NONE, FIRST_ADDRESS⟩ ∧
      ∀ j : Nat, 1 ≤ j → j ≤ RAM_SIZE - 2 →
        ¬ (addressUsed r ⟨S, getBoolNibb j⟩ = false ∧
          (S = .CODE → r.get ⟨S, getBoolNibb ((j : Int) - 1)⟩ = EMPTY_WORD))) ∨
    (∃ i : Nat, 1 ≤ i ∧ i ≤ RAM_SIZE - 2 ∧ getLastRedundandAdr r S = ⟨S, getBoolNibb i⟩ ∧
      addressUsed r ⟨S, getBoolNibb i⟩ = false ∧
      (S = .CODE → r.get ⟨S, getBoolNibb ((i : Int) - 1)⟩ = EMPTY_WORD) ∧
      ∀ j : Nat, i < j → j ≤ RAM_SIZE - 2 →
        ¬ (addressUsed r ⟨S, getBoolNibb j⟩ = false ∧
          (S = .CODE → r.get ⟨S, getBoolNibb ((j : Int) - 1)⟩ = EMPTY_WORD))) :=
  getLastRedundandAdrLoop_spec r S (RAM_SIZE - 2)

/-- C10, as stated, fails: CODE slot 13 is unused (empty and unreferenced) and its
predecessor slot 12 is non-empty, so the claim makes it the result; the search skips it
and, every lower slot being used, returns an address with space `NONE`. -/
theorem getLastRedundandAdr_counterexample :
    ramCodeHole.WellFormed ∧
    addressUsed ramCodeHole ⟨.CODE, getBoolNibb 13⟩ = false ∧
    ramCodeHole.get ⟨.CODE, getBoolNibb 12⟩ ≠ EMPTY_WORD ∧
    getLastRedundandAdr ramCodeHole .CODE = ⟨.NONE, FIRST_ADDRESS⟩ := by
  refine ⟨?_, by decide, by decide, by decide⟩
  unfold Ram.WellFormed
  decide

/-! ## The legality check of an insert -/

theorem getInt_getBoolNibb (i : Nat) (h : i < 16) : getInt (getBoolNibb (i : Int)) = i := by
  have key : ∀ k : Fin 16, getInt (getBoolNibb ((k.val : Nat) : Int)) = k.val := by decide
  exact key ⟨i, h⟩

theorem boundInstructionExists_zero (instructions : List Word) :
    boundInstructionExists instructions 0 = false := rfl

theorem shouldNotModifyData_eq_zero_iff (r : Ram) (ins : Bool) (y : Nat) :
    shouldNotModifyData r ins y = 0 ↔
      ∀ i, y ≤ i →
        i ≤ (if ins then LAST_XOR_OPERAND_INDEX else LAST_XOR_OPERAND_INDEX - 1) →
        boundInstructionExists (getEffectiveInstructions r) i = false := by
  unfold shouldNotModifyData
  simp only []
  constructor
  · intro h i hi1 hi2
    cases hf : (List.range' y ((if ins = true then LAST_XOR_OPERAND_INDEX
        else LAST_XOR_OPERAND_INDEX - 1) + 1 - y)).find?
        (fun i => boundInstructionExists (getEffectiveInstructions r) i) with
    | none =>
      rw [List.find?_eq_none] at hf
      have := hf i (by rw [List.mem_range'_1]; omega)
      simpa using this
    | some x =>
      rw [hf] at h
      simp only [Option.getD_some] at h
      subst h
      have := List.find?_some hf
      rw [boundInstructionExists_zero] at this
      exact absurd this (by decide)
  · intro h
    have hf : (List.range' y ((if ins = true then LAST_XOR_OPERAND_INDEX
        else LAST_XOR_OPERAND_INDEX - 1) + 1 - y)).find?
        (fun i => boundInstructionExists (getEffectiveInstructions r) i) = none := by
      rw [List.find?_eq_none]
      intro x hx
      rw [List.mem_range'_1] at hx
      have := h x hx.1 (by omega)
      simp [this]
    rw [hf]
    rfl

theorem shouldNotModifyData_delete_of_insert (r : Ram) (y y' : Nat) (hy : y ≤ y')
    (h : shouldNotModifyData r true y = 0) : shouldNotModifyData r false y' = 0 := by
  rw [shouldNotModifyData_eq_zero_iff] at *
  intro i hi1 hi2
  apply h i (by omega)
  simp only [if_true, Bool.false_eq_true, if_false] at *
  omega

theorem insert_success_result (r : Ram) (getY : Nat) (adr : Address) (r1 : Ram)
    (h : shouldNotModifyInsert r adr = (false, r1)) :
    insertByteAndMoveRestDown r getY adr
      = (true, actuallyInsert
          (incOrDecAddressesPastTheIndex r1 adr.space (getInt adr.val) 1) getY adr) := by
  unfold insertByteAndMoveRestDown shouldNotModify
  simp only [if_true]
  rw [h]
  rfl

theorem insert_rejected_result (r : Ram) (getY : Nat) (adr : Address)
    (h : shouldNotModifyInsert r adr = (true, r)) :
    insertByteAndMoveRestDown r getY adr = (false, r) := by
  unfold insertByteAndMoveRestDown shouldNotModify
  simp only [if_true]
  rw [h]
  rfl

/-- C9 (amended): when the last slot of the space is used and no logic-binding check
blocks the edit, an insert at `A` is rejected exactly when the redundant-slot search finds
no slot or one whose index is `<= A + 1`; when the redundant slot has an index `> A + 1`,
that slot is deleted first (the delete succeeds) and the insert succeeds on the RAM the
delete left. -/
theorem insert_with_last_slot_used (r : Ram) (getY : Nat) (adr : Address)
    (hb : ¬ (adr.space = .DATA ∧ shouldNotModifyData r true (getInt adr.val) ≠ 0))
    (hu : addressUsed r ⟨adr.space, getBoolNibb ((RAM_SIZE : Int) - 1)⟩ = true) :
    ((insertByteAndMoveRestDown r getY adr).1 = false ↔
      ((getLastRedundandAdr r adr.space).space = .NONE ∨
        getInt (getLastRedundandAdr r adr.space).val ≤ getInt adr.val + 1)) ∧
    ((getLastRedundandAdr r adr.space).space ≠ .NONE →
      getInt adr.val + 1 < getInt (getLastRedundandAdr r adr.space).val →
      (deleteByteAndMoveRestUp r (getLastRedundandAdr r adr.space)).1 = true ∧
      insertByteAndMoveRestDown r getY adr
        = (true, actuallyInsert
            (incOrDecAddressesPastTheIndex
              (deleteByteAndMoveRestUp r (getLastRedundandAdr r adr.space)).2
              adr.space (getInt adr.val) 1) getY adr)) := by
  constructor
  · constructor
    · intro h
      by_contra hc
      have hr1 : (getLastRedundandAdr r adr.space).space ≠ .NONE := fun e => hc (Or.inl e)
      have hr2 : getInt adr.val + 1 < getInt (getLastRedundandAdr r adr.space).val := by
        by_contra hc2
        exact hc (Or.inr (not_lt.mp hc2))
      rw [insert_success_result r getY adr _ (shouldNotModifyInsert_reclaim r adr hb hu hr1 hr2)]
        at h
      exact absurd h (by simp)
    · intro hr
      rw [insert_rejected_result r getY adr (shouldNotModifyInsert_rejected r adr hb hu hr)]
  · intro hr1 hr2
    refine ⟨?_, insert_success_result r getY adr _
      (shouldNotModifyInsert_reclaim r adr hb hu hr1 hr2)⟩
    have hspec := getLastRedundandAdrLoop_spec r adr.space (RAM_SIZE - 2)
    change (getLastRedundandAdr r adr.space = _ ∧ _) ∨ (∃ i : Nat, _ ∧ _ ∧ getLastRedundandAdr r adr.space = _ ∧ _) at hspec
    rcases hspec with ⟨h1, _⟩ | ⟨i, hi1, hi2, h3, h4, _, _⟩
    · rw [h1] at hr1
      exact absurd rfl hr1
    · rw [h3] at hr2 ⊢
      have hgi : getInt (getBoolNibb (i : Int)) = i :=
        getInt_getBoolNibb i (by simp only [RAM_SIZE] at hi2; omega)
      rw [hgi] at hr2
      unfold deleteByteAndMoveRestUp shouldNotModifyDelete
      have hb2 : ¬ ((⟨adr.space, getBoolNibb (i : Int)⟩ : Address).space = .DATA ∧
          shouldNotModifyData r false (getInt (⟨adr.space, getBoolNibb (i : Int)⟩ : Address).val)
            ≠ 0) := by
        intro hc
        apply hc.2
        show shouldNotModifyData r false (getInt (getBoolNibb (i : Int))) = 0
        rw [hgi]
        apply shouldNotModifyData_delete_of_insert r (getInt adr.val) i (by omega)
        by_contra hne
        exact hb ⟨hc.1, hne⟩
      rw [if_neg hb2]
      simp only [h4]
      rfl

theorem insert_with_last_slot_used_witness :
    ((insertByteAndMoveRestDown ramDataHole 0 ⟨.DATA, FIRST_ADDRESS⟩).1 = false ↔
      ((getLastRedundandAdr ramDataHole .DATA).space = .NONE ∨
        getInt (getLastRedundandAdr ramDataHole .DATA).val ≤ getInt FIRST_ADDRESS + 1)) ∧
    ((getLastRedundandAdr ramDataHole .DATA).space ≠ .NONE →
      getInt FIRST_ADDRESS + 1 < getInt (getLastRedundandAdr ramDataHole .DATA).val →
      (deleteByteAndMoveRestUp ramDataHole (getLastRedundandAdr ramDataHole .DATA)).1 = true ∧
      insertByteAndMoveRestDown ramDataHole 0 ⟨.DATA, FIRST_ADDRESS⟩
        = (true, actuallyInsert
            (incOrDecAddressesPastTheIndex
              (deleteByteAndMoveRestUp ramDataHole (getLastRedundandAdr ramDataHole .DATA)).2
              .DATA (getInt FIRST_ADDRESS) 1) 0 ⟨.DATA, FIRST_ADDRESS⟩)) :=
  insert_with_last_slot_used ramDataHole 0 ⟨.DATA, FIRST_ADDRESS⟩ (by decide) (by decide)

/-- C9, as stated, fails: the last DATA slot is used, no logic binding blocks the edit, and
the redundant slot found is slot 4, one past the insertion index 3; the claim lets the
insert succeed, the code rejects it. -/
theorem insert_redundant_slot_next_counterexample :
    ramDataHole.WellFormed ∧
    addressUsed ramDataHole ⟨.DATA, getBoolNibb ((RAM_SIZE : Int) - 1)⟩ = true ∧
    shouldNotModifyData ramDataHole true 3 = 0 ∧
    getLastRedundandAdr ramDataHole .DATA = ⟨.DATA, getBoolNibb 4⟩ ∧
    getInt (getBoolNibb 3) = 3 ∧
    getInt (getLastRedundandAdr ramDataHole .DATA).val = 4 ∧
    (insertByteAndMoveRestDown ramDataHole 3 ⟨.DATA, getBoolNibb 3⟩).1 = false := by
  refine ⟨?_, by decide, by decide, by decide, by decide, by decide, by decide⟩
  unfold Ram.WellFormed
  decide

/-! ## An insert followed by a delete -/

set_option maxRecDepth 100000 in
set_option synthInstance.maxSize 4096 in
set_option synthInstance.maxHeartbeats 400000 in
theorem setAddress_inc_dec_word : ∀ (b0 b1 b2 b3 b4 b5 b6 b7 : Bool),
    (firstAdr [b0, b1, b2, b3, b4, b5, b6, b7]).space ≠ .NONE →
    (firstAdr [b0, b1, b2, b3, b4, b5, b6, b7]).val ≠ LAST_ADDRESS →
    backAdr [b0, b1, b2, b3, b4, b5, b6, b7]
      ≠ ⟨(firstAdr [b0, b1, b2, b3, b4, b5, b6, b7]).space, getBoolNibb ((RAM_SIZE : Int) - 1)⟩ →
    [b0, b1, b2, b3, b4, b5, b6, b7] ≠ INIT_INSTRUCTION →
    [b0, b1, b2, b3, b4, b5, b6, b7] ≠ AND_INSTRUCTION →
    [b0, b1, b2, b3, b4, b5, b6, b7] ≠ OR_INSTRUCTION →
    [b0, b1, b2, b3, b4, b5, b6, b7] ≠ LAST_XOR_INSTRUCTION →
    ¬ (getInt (firstAdr [b0, b1, b2, b3, b4, b5, b6, b7]).val = 7 ∧
        (getInstruction [b0, b1, b2, b3, b4, b5, b6, b7] = .Increase ∨
          getInstruction [b0, b1, b2, b3, b4, b5, b6, b7] = .Decrease)) →
    (firstAdr (setAddress [b0, b1, b2, b3, b4, b5, b6, b7]
        ((getInt (firstAdr [b0, b1, b2, b3, b4, b5, b6, b7]).val : Int) + 1)
        (getAdrIndex (getInstruction [b0, b1, b2, b3, b4, b5, b6, b7])))).space
      = (firstAdr [b0, b1, b2, b3, b4, b5, b6, b7]).space ∧
    getInt (firstAdr (setAddress [b0, b1, b2, b3, b4, b5, b6, b7]
        ((getInt (firstAdr [b0, b1, b2, b3, b4, b5, b6, b7]).val : Int) + 1)
        (getAdrIndex (getInstruction [b0, b1, b2, b3, b4, b5, b6, b7])))).val
      = getInt (firstAdr [b0, b1, b2, b3, b4, b5, b6, b7]).val + 1 ∧
    (firstAdr (setAddress [b0, b1, b2, b3, b4, b5, b6, b7]
        ((getInt (firstAdr [b0, b1, b2, b3, b4, b5, b6, b7]).val : Int) + 1)
        (getAdrIndex (getInstruction [b0, b1, b2, b3, b4, b5, b6, b7])))).val ≠ LAST_ADDRESS ∧
    patchWord (firstAdr [b0, b1, b2, b3, b4, b5, b6, b7]).space 0 (-1)
        (setAddress [b0, b1, b2, b3, b4, b5, b6, b7]
          ((getInt (firstAdr [b0, b1, b2, b3, b4, b5, b6, b7]).val : Int) + 1)
          (getAdrIndex (getInstruction [b0, b1, b2, b3, b4, b5, b6, b7])))
      = [b0, b1, b2, b3, b4, b5, b6, b7] ∧
    backAdr (setAddress [b0, b1, b2, b3, b4, b5, b6, b7]
        ((getInt (firstAdr [b0, b1, b2, b3, b4, b5, b6, b7]).val : Int) + 1)
        (getAdrIndex (getInstruction [b0, b1, b2, b3, b4, b5, b6, b7])))
      = firstAdr (setAddress [b0, b1, b2, b3, b4, b5, b6, b7]
        ((getInt (firstAdr [b0, b1, b2, b3, b4, b5, b6, b7]).val : Int) + 1)
        (getAdrIndex (getInstruction [b0, b1, b2, b3, b4, b5, b6, b7]))) ∧
    setAddress [b0, b1, b2, b3, b4, b5, b6, b7]
        ((getInt (firstAdr [b0, b1, b2, b3, b4, b5, b6, b7]).val : Int) + 1)
        (getAdrIndex (getInstruction [b0, b1, b2, b3, b4, b5, b6, b7])) ≠ INIT_INSTRUCTION ∧
    setAddress [b0, b1, b2, b3, b4, b5, b6, b7]
        ((getInt (firstAdr [b0, b1, b2, b3, b4, b5, b6, b7]).val : Int) + 1)
        (getAdrIndex (getInstruction [b0, b1, b2, b3, b4, b5, b6, b7])) ≠ AND_INSTRUCTION ∧
    setAddress [b0, b1, b2, b3, b4, b5, b6, b7]
        ((getInt (firstAdr [b0, b1, b2, b3, b4, b5, b6, b7]).val : Int) + 1)
        (getAdrIndex (getInstruction [b0, b1, b2, b3, b4, b5, b6, b7])) ≠ OR_INSTRUCTION := by
  decide

set_option maxRecDepth 100000 in
theorem backAdr_eq_firstAdr_word : ∀ (b0 b1 b2 b3 b4 b5 b6 b7 : Bool),
    [b0, b1, b2, b3, b4, b5, b6, b7] ≠ INIT_INSTRUCTION →
    backAdr [b0, b1, b2, b3, b4, b5, b6, b7] = firstAdr [b0, b1, b2, b3, b4, b5, b6, b7] := by
  decide
theorem patchWord_skip (space : AddrSpace) (index : Nat) (delta : Int) (w : Word)
    (h : ¬ ((firstAdr w).space = space ∧ index ≤ getInt (firstAdr w).val ∧
      (firstAdr w).val ≠ LAST_ADDRESS)) :
    patchWord space index delta w = w := by
  by_cases h1 : (firstAdr w).space = space
  · by_cases h2 : index ≤ getInt (firstAdr w).val
    · have h3 : (firstAdr w).val = LAST_ADDRESS := by
        by_contra hc
        exact h ⟨h1, h2, hc⟩
      exact patchWord_last space index delta w h3
    · exact patchWord_neg space index delta w (Or.inr (not_le.mp h2))
  · exact patchWord_neg space index delta w (Or.inl h1)

theorem firstAdr_space_of_incdec (w : Word)
    (h : getInstruction w = .Increase ∨ getInstruction w = .Decrease) :
    (firstAdr w).space = .DATA := by
  unfold firstAdr firstOrderAdr
  rcases h with h | h <;> rw [h] <;> rfl

theorem patch_roundtrip_word (S : AddrSpace) (A : Nat) (w : Word) (hS : S ≠ .NONE)
    (hA : A < RAM_SIZE) (hlen : w.length = WORD_SIZE)
    (g2 : backAdr w ≠ ⟨S, getBoolNibb ((RAM_SIZE : Int) - 1)⟩)
    (g1 : S = .DATA → (A ≤ INIT_OPERAND_INDEX → w ≠ INIT_INSTRUCTION) ∧
      (A ≤ AND_OPERAND_INDEX → w ≠ AND_INSTRUCTION) ∧
      (A ≤ OR_OPERAND_INDEX → w ≠ OR_INSTRUCTION) ∧
      (A ≤ LAST_XOR_OPERAND_INDEX → w ≠ LAST_XOR_INSTRUCTION))
    (g3 : ¬ (S = .DATA ∧ A ≤ 7 ∧ getInt (firstAdr w).val = 7 ∧
      (getInstruction w = .Increase ∨ getInstruction w = .Decrease))) :
    patchWord S A (-1) (patchWord S A 1 w) = w ∧
    backAdr (patchWord S A 1 w) ≠ ⟨S, getBoolNibb (A : Int)⟩ ∧
    (S = .DATA → (A ≤ INIT_OPERAND_INDEX → patchWord S A 1 w ≠ INIT_INSTRUCTION) ∧
      (A ≤ AND_OPERAND_INDEX → patchWord S A 1 w ≠ AND_INSTRUCTION) ∧
      (A ≤ OR_OPERAND_INDEX → patchWord S A 1 w ≠ OR_INSTRUCTION)) := by
  have hgA : getInt (getBoolNibb (A : Int)) = A :=
    getInt_getBoolNibb A (by simp only [RAM_SIZE] at hA; omega)
  by_cases hc : (firstAdr w).space = S ∧ A ≤ getInt (firstAdr w).val ∧
      (firstAdr w).val ≠ LAST_ADDRESS
  · obtain ⟨hc1, hc2, hc3⟩ := hc
    have hinit : w ≠ INIT_INSTRUCTION := by
      intro e
      rw [e] at hc1 hc2
      have e1 : (firstAdr INIT_INSTRUCTION).space = .DATA := by decide
      have e2 : getInt (firstAdr INIT_INSTRUCTION).val = 0 := by decide
      rw [e1] at hc1
      rw [e2] at hc2
      exact (g1 hc1.symm).1 (by omega) e
    have hand : w ≠ AND_INSTRUCTION := by
      intro e
      rw [e] at hc1 hc2
      have e1 : (firstAdr AND_INSTRUCTION).space = .DATA := by decide
      have e2 : getInt (firstAdr AND_INSTRUCTION).val = 2 := by decide
      rw [e1] at hc1
      rw [e2] at hc2
      exact (g1 hc1.symm).2.1 hc2 e
    have hor : w ≠ OR_INSTRUCTION := by
      intro e
      rw [e] at hc1 hc2
      have e1 : (firstAdr OR_INSTRUCTION).space = .DATA := by decide
      have e2 : getInt (firstAdr OR_INSTRUCTION).val = 3 := by decide
      rw [e1] at hc1
      rw [e2] at hc2
      exact (g1 hc1.symm).2.2.1 hc2 e
    have hxor : w ≠ LAST_XOR_INSTRUCTION := by
      intro e
      rw [e] at hc1 hc2
      have e1 : (firstAdr LAST_XOR_INSTRUCTION).space = .DATA := by decide
      have e2 : getInt (firstAdr LAST_XOR_INSTRUCTION).val = 7 := by decide
      rw [e1] at hc1
      rw [e2] at hc2
      exact (g1 hc1.symm).2.2.2 hc2 e
    have hincdec : ¬ (getInt (firstAdr w).val = 7 ∧
        (getInstruction w = .Increase ∨ getInstruction w = .Decrease)) := by
      intro ⟨e1, e2⟩
      apply g3
      refine ⟨?_, by omega, e1, e2⟩
      rw [← hc1]
      exact firstAdr_space_of_incdec w e2
    have hsp : (firstAdr w).space ≠ .NONE := by rw [hc1]; exact hS
    have g2' : backAdr w ≠ ⟨(firstAdr w).space, getBoolNibb ((RAM_SIZE : Int) - 1)⟩ := by
      rw [hc1]; exact g2
    rw [patchWord_pos S A 1 w hc1 hc2 hc3]
    obtain ⟨b0, b1, b2, b3, b4, b5, b6, b7, rfl⟩ := word_cases w hlen
    obtain ⟨f1, f2, f3, f4, f5, f6, f7, f8⟩ :=
      setAddress_inc_dec_word b0 b1 b2 b3 b4 b5 b6 b7 hsp hc3 g2' hinit hand hor hxor hincdec
    rw [hc1] at f1 f4
    refine ⟨?_, ?_, fun _ => ⟨fun _ => f6, fun _ => f7, fun _ => f8⟩⟩
    · rw [patchWord_pos S A (-1) _ f1 (by omega) f3]
      rw [patchWord_pos S 0 (-1) _ f1 (Nat.zero_le _) f3] at f4
      exact f4
    · rw [f5]
      intro e
      have e2 := congrArg (fun a => getInt a.val) e
      simp only [] at e2
      rw [f2, hgA] at e2
      omega
  · rw [patchWord_skip S A 1 w hc, patchWord_skip S A (-1) w hc]
    refine ⟨rfl, ?_, fun hd => ⟨(g1 hd).1, (g1 hd).2.1, (g1 hd).2.2.1⟩⟩
    intro e
    by_cases hi : w = INIT_INSTRUCTION
    · rw [hi] at e
      have e1 : backAdr INIT_INSTRUCTION = ⟨.DATA, getBoolNibb 1⟩ := by decide
      rw [e1] at e
      have hS' : S = .DATA := (congrArg Address.space e).symm
      have e2 := congrArg (fun a => getInt a.val) e
      simp only [] at e2
      rw [hgA] at e2
      have e3 : getInt (getBoolNibb 1) = 1 := by decide
      rw [e3] at e2
      exact (g1 hS').1 (by rw [← e2]) hi
    · obtain ⟨b0, b1, b2, b3, b4, b5, b6, b7, rfl⟩ := word_cases w hlen
      rw [backAdr_eq_firstAdr_word b0 b1 b2 b3 b4 b5 b6 b7 hi] at e
      apply hc
      rw [e]
      refine ⟨rfl, ?_, ?_⟩
      · show A ≤ getInt (getBoolNibb (A : Int))
        rw [hgA]
      · show getBoolNibb (A : Int) ≠ LAST_ADDRESS
        intro e4
        have e5 := congrArg getInt e4
        rw [hgA] at e5
        have e6 : getInt LAST_ADDRESS = 15 := by decide
        rw [e6] at e5
        simp only [RAM_SIZE] at hA
        omega

/-! ### The effective instructions -/

theorem effCount_eq (l : List Word) :
    (getIndexOfLastNonEmptyInst l + 1).toNat
      = (l.reverse.dropWhile (fun w => decide (w = EMPTY_WORD))).length := by
  unfold getIndexOfLastNonEmptyInst
  omega

theorem code_split (l : List Word) :
    l = (l.reverse.dropWhile (fun w => decide (w = EMPTY_WORD))).reverse
        ++ (l.reverse.takeWhile (fun w => decide (w = EMPTY_WORD))).reverse := by
  have h := List.takeWhile_append_dropWhile (fun w => decide (w = EMPTY_WORD)) l.reverse
  have h2 := congrArg List.reverse h
  rw [List.reverse_append, List.reverse_reverse] at h2
  exact h2.symm

theorem effCount_le_length (l : List Word) :
    (getIndexOfLastNonEmptyInst l + 1).toNat ≤ l.length := by
  rw [effCount_eq]
  have h := congrArg List.length (code_split l)
  rw [List.length_append, List.length_reverse, List.length_reverse] at h
  omega

theorem empty_past_effCount (l : List Word) (j : Nat) (w : Word)
    (hj : (getIndexOfLastNonEmptyInst l + 1).toNat ≤ j) (hw : l[j]? = some w) :
    w = EMPTY_WORD := by
  rw [effCount_eq] at hj
  rw [code_split l, List.getElem?_append_right (by rw [List.length_reverse]; exact hj)] at hw
  have hmem : w ∈ (l.reverse.takeWhile (fun w => decide (w = EMPTY_WORD))).reverse :=
    List.mem_iff_getElem?.2 ⟨_, hw⟩
  rw [List.mem_reverse] at hmem
  have := List.mem_takeWhile_imp hmem
  simpa using this

theorem take_effCount (l : List Word) :
    l.take (getIndexOfLastNonEmptyInst l + 1).toNat
      = (l.reverse.dropWhile (fun w => decide (w = EMPTY_WORD))).reverse := by
  rw [effCount_eq]
  have h := code_split l
  have h2 : List.take (l.reverse.dropWhile (fun w => decide (w = EMPTY_WORD))).reverse.length
      ((l.reverse.dropWhile (fun w => decide (w = EMPTY_WORD))).reverse
        ++ (l.reverse.takeWhile (fun w => decide (w = EMPTY_WORD))).reverse)
      = (l.reverse.dropWhile (fun w => decide (w = EMPTY_WORD))).reverse := List.take_left' rfl
  rw [← h, List.length_reverse] at h2
  exact h2

theorem dropWhile_head_not (p : Word → Bool) (l : List Word) (a : Word) (t : List Word)
    (h : l.dropWhile p = a :: t) : p a = false := by
  induction l with
  | nil => simp at h
  | cons x xs ih =>
    rw [List.dropWhile_cons] at h
    split at h
    · exact ih h
    · next hp =>
      injection h with h1 h2
      subst h1
      simpa using hp

theorem last_effective_nonempty (l : List Word)
    (hn : 0 < (getIndexOfLastNonEmptyInst l + 1).toNat) :
    ∃ w, l[(getIndexOfLastNonEmptyInst l + 1).toNat - 1]? = some w ∧ w ≠ EMPTY_WORD := by
  have hlen := effCount_eq l
  have htake := take_effCount l
  cases hd : l.reverse.dropWhile (fun w => decide (w = EMPTY_WORD)) with
  | nil =>
    rw [hd] at hlen
    simp at hlen
    omega
  | cons a t =>
    have hp := dropWhile_head_not _ _ a t hd
    refine ⟨a, ?_, by simpa using hp⟩
    have h1 : (l.take (getIndexOfLastNonEmptyInst l + 1).toNat)[(getIndexOfLastNonEmptyInst l + 1).toNat - 1]?
        = l[(getIndexOfLastNonEmptyInst l + 1).toNat - 1]? := by
      rw [List.getElem?_take]
      simp [hn]
    rw [← h1, htake, hd, hlen, hd]
    simp

theorem effCount_le_of_empty_past (l : List Word) (m : Nat)
    (h : ∀ j w, m ≤ j → l[j]? = some w → w = EMPTY_WORD) :
    (getIndexOfLastNonEmptyInst l + 1).toNat ≤ m := by
  by_contra hc
  have hn : 0 < (getIndexOfLastNonEmptyInst l + 1).toNat := by omega
  obtain ⟨w, hw, hne⟩ := last_effective_nonempty l hn
  exact hne (h _ w (by omega) hw)

theorem mem_effective_iff (r : Ram) (x : Word) :
    x ∈ getEffectiveInstructions r ↔
      ∃ j, j < (getIndexOfLastNonEmptyInst r.code + 1).toNat ∧ r.code[j]? = some x := by
  unfold getEffectiveInstructions getAllInstructions
  rw [List.mem_iff_getElem?]
  constructor
  · rintro ⟨j, hj⟩
    rw [List.getElem?_take] at hj
    split at hj
    · next h => exact ⟨j, h, hj⟩
    · exact absurd hj (by simp)
  · rintro ⟨j, h1, h2⟩
    refine ⟨j, ?_⟩
    rw [List.getElem?_take, if_pos h1]
    exact h2

/-! ### The insert at the cursor, then the delete -/

theorem patchWord_dec_empty (S : AddrSpace) (A : Nat) :
    patchWord S A (-1) EMPTY_WORD = EMPTY_WORD := by
  by_cases hc : (firstAdr EMPTY_WORD).space = S ∧ A ≤ getInt (firstAdr EMPTY_WORD).val ∧
      (firstAdr EMPTY_WORD).val ≠ LAST_ADDRESS
  · rw [patchWord_pos S A (-1) EMPTY_WORD hc.1 hc.2.1 hc.2.2]
    decide
  · exact patchWord_skip S A (-1) EMPTY_WORD hc

theorem incOrDec_code_dec (r : Ram) (S : AddrSpace) (A j : Nat) :
    (incOrDecAddressesPastTheIndex r S A (-1)).code[j]?
      = (r.code[j]?).map (patchWord S A (-1)) := by
  rw [incOrDec_code]
  split
  · rfl
  · next h =>
    cases hw : r.code[j]? with
    | none => rfl
    | some w =>
      have := empty_past_effCount r.code j w (not_lt.mp h) hw
      subst this
      simp [patchWord_dec_empty]

theorem actuallyInsert_words (r : Ram) (y : Nat) (adr : Address) (hsp : adr.space ≠ .NONE)
    (hlen : (r.words adr.space).length = RAM_SIZE) (hy : y < RAM_SIZE) (j : Nat) :
    ((actuallyInsert r y adr).words adr.space)[j]?
      = if j = y then some EMPTY_WORD
        else if getInt adr.val < j ∧ j ≤ RAM_SIZE - 1 then (r.words adr.space)[j - 1]?
        else (r.words adr.space)[j]? := by
  unfold actuallyInsert
  rw [words_setWords, if_pos ⟨rfl, hsp⟩, List.getElem?_set, actuallyInsertLoop_length, hlen]
  by_cases hj : y = j
  · subst hj
    simp [hy]
  · rw [if_neg hj, if_neg (Ne.symm hj),
      actuallyInsertLoop_getElem? _ _ _ (by rw [hlen]; simp only [RAM_SIZE]; omega)]

theorem actuallyInsert_words_other (r : Ram) (y : Nat) (adr : Address) (sp : AddrSpace)
    (h : sp ≠ adr.space) : (actuallyInsert r y adr).words sp = r.words sp := by
  unfold actuallyInsert
  rw [words_setWords, if_neg (fun hc => h hc.1)]

theorem actuallyInsert_words_length (r : Ram) (y : Nat) (adr : Address) (sp : AddrSpace) :
    ((actuallyInsert r y adr).words sp).length = (r.words sp).length := by
  unfold actuallyInsert
  rw [words_setWords]
  split
  · next h =>
    rw [List.length_set, actuallyInsertLoop_length, h.1]
  · rfl

theorem ram_ext (r r' : Ram) (h1 : r.words .CODE = r'.words .CODE)
    (h2 : r.words .DATA = r'.words .DATA) : r = r' := by
  cases r
  cases r'
  simp only [Ram.words] at h1 h2
  rw [h1, h2]

theorem bound_guard_of_check (r : Ram) (ins : Bool) (A : Nat)
    (h : shouldNotModifyData r ins A = 0) (w : Word) (hw : w ∈ getEffectiveInstructions r) :
    (A ≤ INIT_OPERAND_INDEX → w ≠ INIT_INSTRUCTION) ∧
    (A ≤ AND_OPERAND_INDEX → w ≠ AND_INSTRUCTION) ∧
    (A ≤ OR_OPERAND_INDEX → w ≠ OR_INSTRUCTION) ∧
    (ins = true → A ≤ LAST_XOR_OPERAND_INDEX → w ≠ LAST_XOR_INSTRUCTION) := by
  rw [shouldNotModifyData_eq_zero_iff] at h
  have key : ∀ (i : Nat) (b : Word), BOUND_DATA_ADDRESSES.lookup i = some b → A ≤ i →
      i ≤ (if ins = true then LAST_XOR_OPERAND_INDEX else LAST_XOR_OPERAND_INDEX - 1) →
      w ≠ b := by
    intro i b hb h1 h2 e
    have := h i h1 h2
    unfold boundInstructionExists at this
    rw [hb] at this
    simp only [decide_eq_false_iff_not] at this
    exact this (e ▸ hw)
  refine ⟨fun h1 => key 1 _ rfl h1 (by split <;> decide),
    fun h1 => key 2 _ rfl h1 (by split <;> decide),
    fun h1 => key 3 _ rfl h1 (by split <;> decide), fun hi h1 => key 7 _ rfl h1 ?_⟩
  rw [if_pos hi]

theorem bound_check_of_guard (r : Ram) (A : Nat)
    (h : ∀ w ∈ getEffectiveInstructions r,
      (A ≤ INIT_OPERAND_INDEX → w ≠ INIT_INSTRUCTION) ∧
      (A ≤ AND_OPERAND_INDEX → w ≠ AND_INSTRUCTION) ∧
      (A ≤ OR_OPERAND_INDEX → w ≠ OR_INSTRUCTION)) :
    shouldNotModifyData r false A = 0 := by
  rw [shouldNotModifyData_eq_zero_iff]
  intro i hi1 hi2
  simp only [Bool.false_eq_true, if_false] at hi2
  have hi3 : i ≤ 6 := hi2
  unfold boundInstructionExists
  interval_cases i
  · rfl
  · show decide (INIT_INSTRUCTION ∈ getEffectiveInstructions r) = false
    rw [decide_eq_false_iff_not]
    intro hm
    exact (h _ hm).1 hi1 rfl
  · show decide (AND_INSTRUCTION ∈ getEffectiveInstructions r) = false
    rw [decide_eq_false_iff_not]
    intro hm
    exact (h _ hm).2.1 hi1 rfl
  · show decide (OR_INSTRUCTION ∈ getEffectiveInstructions r) = false
    rw [decide_eq_false_iff_not]
    intro hm
    exact (h _ hm).2.2 hi1 rfl
  · rfl
  · rfl
  · rfl

theorem shift_roundtrip (A : Nat) (g0 g1 : Nat → Option Word)
    (F : Option Word → Option Word) (hF : ∀ j : Nat, F (g1 j) = g0 j)
    (hlast : g0 (RAM_SIZE - 1) = some EMPTY_WORD) (hnone : ∀ j : Nat, RAM_SIZE ≤ j → g0 j = none)
    (j : Nat) :
    (if j = RAM_SIZE - 1 then some EMPTY_WORD
      else if A ≤ j then
        F (if j + 1 = A then some EMPTY_WORD
          else if A < j + 1 ∧ j + 1 ≤ RAM_SIZE - 1 then g1 (j + 1 - 1) else g1 (j + 1))
      else
        F (if j = A then some EMPTY_WORD
          else if A < j ∧ j ≤ RAM_SIZE - 1 then g1 (j - 1) else g1 j)) = g0 j := by
  by_cases h1 : j = RAM_SIZE - 1
  · rw [if_pos h1, h1, hlast]
  · rw [if_neg h1]
    by_cases h2 : A ≤ j
    · rw [if_pos h2, if_neg (by omega)]
      by_cases h3 : j + 1 ≤ RAM_SIZE - 1
      · rw [if_pos ⟨by omega, h3⟩, Nat.add_sub_cancel, hF]
      · rw [if_neg (fun hc => h3 hc.2), hF, hnone _ (by simp only [RAM_SIZE] at *; omega),
          hnone _ (by simp only [RAM_SIZE] at *; omega)]
    · rw [if_neg h2, if_neg (by omega), if_neg (by omega), hF]

theorem insert_delete_ram (r : Ram) (S : AddrSpace) (A : Nat) (hwf : r.WellFormed)
    (hS : S ≠ .NONE) (hA : A < RAM_SIZE)
    (hlast : addressUsed r ⟨S, getBoolNibb ((RAM_SIZE : Int) - 1)⟩ = false)
    (hb : ¬ (S = .DATA ∧ shouldNotModifyData r true A ≠ 0))
    (h3 : ∀ w ∈ getEffectiveInstructions r,
      ¬ (S = .DATA ∧ A ≤ 7 ∧ getInt (firstAdr w).val = 7 ∧
        (getInstruction w = .Increase ∨ getInstruction w = .Decrease))) :
    deleteByteAndMoveRestUp
        (actuallyInsert (incOrDecAddressesPastTheIndex r S A 1) A ⟨S, getBoolNibb (A : Int)⟩)
        ⟨S, getBoolNibb (A : Int)⟩ = (true, r) := by
  have hgA : getInt (getBoolNibb (A : Int)) = A :=
    getInt_getBoolNibb A (by simp only [RAM_SIZE] at hA; omega)
  have hg14 : getInt (getBoolNibb ((RAM_SIZE : Int) - 1)) = RAM_SIZE - 1 := by decide
  -- what the last slot being unused gives
  have hlast' := hlast
  unfold addressUsed at hlast'
  simp only [] at hlast'
  have hlastE : r.get ⟨S, getBoolNibb ((RAM_SIZE : Int) - 1)⟩ = EMPTY_WORD := by
    by_contra hc
    rw [if_pos (decide_eq_true hc)] at hlast'
    exact absurd hlast' (by simp)
  have hlastR : addressReferenced r ⟨S, getBoolNibb ((RAM_SIZE : Int) - 1)⟩ = false := by
    cases hc : addressReferenced r ⟨S, getBoolNibb ((RAM_SIZE : Int) - 1)⟩
    · rfl
    · rw [if_neg (by rw [decide_eq_true_eq]; exact not_not.mpr hlastE), hc] at hlast'
      exact absurd hlast' (by simp)
  have hlenS : (r.words S).length = RAM_SIZE := wellFormed_words_length r hwf S hS
  have hlastW : (r.words S)[RAM_SIZE - 1]? = some EMPTY_WORD := by
    unfold Ram.get at hlastE
    simp only [] at hlastE
    rw [hg14, List.getD_eq_getElem?_getD,
      List.getElem?_eq_getElem (by rw [hlenS]; decide)] at hlastE
    rw [List.getElem?_eq_getElem (by rw [hlenS]; decide)]
    exact congrArg some hlastE
  -- the guards of the effective instructions
  have hRT : ∀ w ∈ getEffectiveInstructions r,
      patchWord S A (-1) (patchWord S A 1 w) = w ∧
      backAdr (patchWord S A 1 w) ≠ ⟨S, getBoolNibb (A : Int)⟩ ∧
      (S = .DATA → (A ≤ INIT_OPERAND_INDEX → patchWord S A 1 w ≠ INIT_INSTRUCTION) ∧
        (A ≤ AND_OPERAND_INDEX → patchWord S A 1 w ≠ AND_INSTRUCTION) ∧
        (A ≤ OR_OPERAND_INDEX → patchWord S A 1 w ≠ OR_INSTRUCTION)) := by
    intro w hw
    have hmem : w ∈ r.code := by
      obtain ⟨j, _, hj⟩ := (mem_effective_iff r w).1 hw
      exact List.mem_iff_getElem?.2 ⟨j, hj⟩
    apply patch_roundtrip_word S A w hS hA (hwf.2.2.1 w hmem)
    · intro e
      unfold addressReferenced getAddressesOfEffectiveInstructions at hlastR
      rw [decide_eq_false_iff_not] at hlastR
      exact hlastR (e ▸ List.mem_map_of_mem backAdr hw)
    · intro hd
      have h0 : shouldNotModifyData r true A = 0 := by
        by_contra hne
        exact hb ⟨hd, hne⟩
      have := bound_guard_of_check r true A h0 w hw
      exact ⟨this.1, this.2.1, this.2.2.1, this.2.2.2 rfl⟩
    · exact h3 w hw
  -- the RAM after the patch step of the insert
  have hr1 : ∀ j : Nat, (incOrDecAddressesPastTheIndex r S A 1).code[j]?
      = if j < (getIndexOfLastNonEmptyInst r.code + 1).toNat
        then (r.code[j]?).map (patchWord S A 1) else r.code[j]? :=
    fun j => incOrDec_code r S A 1 j
  have hQ : ∀ j : Nat, ((incOrDecAddressesPastTheIndex r S A 1).code[j]?).map (patchWord S A (-1))
      = r.code[j]? := by
    intro j
    rw [hr1]
    cases hw : r.code[j]? with
    | none => split <;> rfl
    | some w =>
      split
      · next hj =>
        have := (hRT w ((mem_effective_iff r w).2 ⟨j, hj, hw⟩)).1
        simp [this]
      · next hj =>
        have := empty_past_effCount r.code j w (not_lt.mp hj) hw
        subst this
        simp [patchWord_dec_empty]
  have hr1mem : ∀ (j : Nat) (x : Word), (incOrDecAddressesPastTheIndex r S A 1).code[j]? = some x →
      (x = EMPTY_WORD ∧ (getIndexOfLastNonEmptyInst r.code + 1).toNat ≤ j) ∨
        ∃ w ∈ getEffectiveInstructions r, x = patchWord S A 1 w := by
    intro j x hx
    rw [hr1] at hx
    split at hx
    · next hj =>
      cases hw : r.code[j]? with
      | none => rw [hw] at hx; exact absurd hx (by simp)
      | some w =>
        rw [hw] at hx
        simp only [Option.map_some', Option.some.injEq] at hx
        exact Or.inr ⟨w, (mem_effective_iff r w).2 ⟨j, hj, hw⟩, hx.symm⟩
    · next hj =>
      exact Or.inl ⟨empty_past_effCount r.code j x (not_lt.mp hj) hx, not_lt.mp hj⟩
  have hlen1 : ((incOrDecAddressesPastTheIndex r S A 1).words S).length = RAM_SIZE := by
    rw [incOrDec_words_length]; exact hlenS
  have hr2 : ∀ j : Nat,
      ((actuallyInsert (incOrDecAddressesPastTheIndex r S A 1) A
          ⟨S, getBoolNibb (A : Int)⟩).words S)[j]?
        = if j = A then some EMPTY_WORD
          else if A < j ∧ j ≤ RAM_SIZE - 1 then
            ((incOrDecAddressesPastTheIndex r S A 1).words S)[j - 1]?
          else ((incOrDecAddressesPastTheIndex r S A 1).words S)[j]? := by
    intro j
    have := actuallyInsert_words (incOrDecAddressesPastTheIndex r S A 1) A
      ⟨S, getBoolNibb (A : Int)⟩ hS hlen1 hA j
    rw [hgA] at this
    exact this
  have hr2o : ∀ sp, sp ≠ S →
      (actuallyInsert (incOrDecAddressesPastTheIndex r S A 1) A
          ⟨S, getBoolNibb (A : Int)⟩).words sp
        = (incOrDecAddressesPastTheIndex r S A 1).words sp :=
    fun sp h => actuallyInsert_words_other _ _ _ sp h
  -- the effective instructions after the insert
  have hM : ∀ x ∈ getEffectiveInstructions
      (actuallyInsert (incOrDecAddressesPastTheIndex r S A 1) A ⟨S, getBoolNibb (A : Int)⟩),
      (S = .CODE ∧ x = EMPTY_WORD) ∨ ∃ w ∈ getEffectiveInstructions r, x = patchWord S A 1 w := by
    intro x hx
    obtain ⟨j, hj, hxj⟩ := (mem_effective_iff _ x).1 hx
    cases S with
    | NONE => exact absurd rfl hS
    | DATA =>
      have hc : (actuallyInsert (incOrDecAddressesPastTheIndex r .DATA A 1) A
          ⟨.DATA, getBoolNibb (A : Int)⟩).code
          = (incOrDecAddressesPastTheIndex r .DATA A 1).code :=
        hr2o .CODE (by decide)
      rw [hc] at hj hxj
      have hle : (getIndexOfLastNonEmptyInst (incOrDecAddressesPastTheIndex r .DATA A 1).code
          + 1).toNat ≤ (getIndexOfLastNonEmptyInst r.code + 1).toNat := by
        apply effCount_le_of_empty_past
        intro j' w' hj' hw'
        rw [hr1, if_neg (by omega)] at hw'
        exact empty_past_effCount r.code j' w' hj' hw'
      rcases hr1mem j x hxj with ⟨_, h2⟩ | h
      · omega
      · exact Or.inr h
    | CODE =>
      have hxj' : ((actuallyInsert (incOrDecAddressesPastTheIndex r .CODE A 1) A
          ⟨.CODE, getBoolNibb (A : Int)⟩).words .CODE)[j]? = some x := hxj
      rw [hr2] at hxj'
      split at hxj'
      · left
        simp only [Option.some.injEq] at hxj'
        exact ⟨rfl, hxj'.symm⟩
      · split at hxj'
        · rcases hr1mem _ x hxj' with ⟨h1, _⟩ | h
          · exact Or.inl ⟨rfl, h1⟩
          · exact Or.inr h
        · rcases hr1mem _ x hxj' with ⟨h1, _⟩ | h
          · exact Or.inl ⟨rfl, h1⟩
          · exact Or.inr h
  -- the delete passes its checks
  have hb2 : ¬ ((⟨S, getBoolNibb (A : Int)⟩ : Address).space = .DATA ∧
      shouldNotModifyData
        (actuallyInsert (incOrDecAddressesPastTheIndex r S A 1) A ⟨S, getBoolNibb (A : Int)⟩)
        false (getInt (⟨S, getBoolNibb (A : Int)⟩ : Address).val) ≠ 0) := by
    intro ⟨hd, hne⟩
    have hd' : S = .DATA := hd
    apply hne
    show shouldNotModifyData _ false (getInt (getBoolNibb (A : Int))) = 0
    rw [hgA]
    apply bound_check_of_guard
    intro x hx
    rcases hM x hx with ⟨hc, _⟩ | ⟨w, hw, rfl⟩
    · rw [hd'] at hc
      exact absurd hc (by decide)
    · exact (hRT w hw).2.2 hd'
  have hu2 : addressUsed
      (actuallyInsert (incOrDecAddressesPastTheIndex r S A 1) A ⟨S, getBoolNibb (A : Int)⟩)
      ⟨S, getBoolNibb (A : Int)⟩ = false := by
    unfold addressUsed
    simp only []
    have hget : (actuallyInsert (incOrDecAddressesPastTheIndex r S A 1) A
        ⟨S, getBoolNibb (A : Int)⟩).get ⟨S, getBoolNibb (A : Int)⟩ = EMPTY_WORD := by
      unfold Ram.get
      simp only []
      rw [hgA, List.getD_eq_getElem?_getD, hr2, if_pos rfl]
      rfl
    rw [if_neg (by simp [hget])]
    have href : addressReferenced
        (actuallyInsert (incOrDecAddressesPastTheIndex r S A 1) A ⟨S, getBoolNibb (A : Int)⟩)
        ⟨S, getBoolNibb (A : Int)⟩ = false := by
      unfold addressReferenced getAddressesOfEffectiveInstructions
      rw [decide_eq_false_iff_not]
      intro hm
      obtain ⟨x, hx, hxe⟩ := List.mem_map.1 hm
      rcases hM x hx with ⟨hc, he⟩ | ⟨w, hw, rfl⟩
      · rw [he] at hxe
        have e1 : (backAdr EMPTY_WORD).space = .DATA := by decide
        rw [hxe, hc] at e1
        have e2 : AddrSpace.CODE = .DATA := e1
        exact absurd e2 (by decide)
      · exact (hRT w hw).2.1 hxe
    rw [href]
    rfl
  have hdel : deleteByteAndMoveRestUp
      (actuallyInsert (incOrDecAddressesPastTheIndex r S A 1) A ⟨S, getBoolNibb (A : Int)⟩)
      ⟨S, getBoolNibb (A : Int)⟩
      = (true, actuallyDelete (incOrDecAddressesPastTheIndex
          (actuallyInsert (incOrDecAddressesPastTheIndex r S A 1) A ⟨S, getBoolNibb (A : Int)⟩)
          S A (-1)) ⟨S, getBoolNibb (A : Int)⟩) := by
    unfold deleteByteAndMoveRestUp shouldNotModifyDelete
    rw [if_neg hb2]
    simp only [hu2]
    rw [hgA]
    rfl
  rw [hdel]
  congr 1
  -- the RAM after the delete is the RAM before the insert
  have hlen3 : ((incOrDecAddressesPastTheIndex
      (actuallyInsert (incOrDecAddressesPastTheIndex r S A 1) A ⟨S, getBoolNibb (A : Int)⟩)
      S A (-1)).words S).length = RAM_SIZE := by
    rw [incOrDec_words_length, actuallyInsert_words_length]; exact hlen1
  have hA' : getInt (⟨S, getBoolNibb (A : Int)⟩ : Address).val < RAM_SIZE := by
    show getInt (getBoolNibb (A : Int)) < RAM_SIZE
    rw [hgA]; exact hA
  have hr4 := fun j => actuallyDelete_words (incOrDecAddressesPastTheIndex
      (actuallyInsert (incOrDecAddressesPastTheIndex r S A 1) A ⟨S, getBoolNibb (A : Int)⟩)
      S A (-1)) ⟨S, getBoolNibb (A : Int)⟩ hS hlen3 hA' j
  have hr4o := fun sp (h : sp ≠ S) => actuallyDelete_words_other (incOrDecAddressesPastTheIndex
      (actuallyInsert (incOrDecAddressesPastTheIndex r S A 1) A ⟨S, getBoolNibb (A : Int)⟩)
      S A (-1)) ⟨S, getBoolNibb (A : Int)⟩ sp h
  have hnone : ∀ j : Nat, RAM_SIZE ≤ j → (r.words S)[j]? = none :=
    fun j hj => List.getElem?_eq_none (by rw [hlenS]; exact hj)
  cases S with
  | NONE => exact absurd rfl hS
  | DATA =>
    apply ram_ext
    · rw [hr4o .CODE (by decide)]
      apply List.ext_getElem?
      intro j
      show (incOrDecAddressesPastTheIndex _ .DATA A (-1)).code[j]? = r.code[j]?
      rw [incOrDec_code_dec]
      have hc : (actuallyInsert (incOrDecAddressesPastTheIndex r .DATA A 1) A
          ⟨.DATA, getBoolNibb (A : Int)⟩).code
          = (incOrDecAddressesPastTheIndex r .DATA A 1).code :=
        hr2o .CODE (by decide)
      rw [hc]
      exact hQ j
    · apply List.ext_getElem?
      intro j
      have h := hr4 j
      simp only [] at h
      rw [hgA] at h
      rw [h]
      have h3w : ∀ j' : Nat, ((incOrDecAddressesPastTheIndex
          (actuallyInsert (incOrDecAddressesPastTheIndex r .DATA A 1) A
            ⟨.DATA, getBoolNibb (A : Int)⟩) .DATA A (-1)).words .DATA)[j']?
          = id (((actuallyInsert (incOrDecAddressesPastTheIndex r .DATA A 1) A
            ⟨.DATA, getBoolNibb (A : Int)⟩).words .DATA)[j']?) := by
        intro j'
        rw [incOrDec_words_data]
        rfl
      rw [h3w, h3w, hr2, hr2]
      exact shift_roundtrip A (fun j => (r.words .DATA)[j]?)
        (fun j => ((incOrDecAddressesPastTheIndex r .DATA A 1).words .DATA)[j]?) id
        (fun j => by simp only [id]; rw [incOrDec_words_data]) hlastW hnone j
  | CODE =>
    apply ram_ext
    · apply List.ext_getElem?
      intro j
      have h := hr4 j
      simp only [] at h
      rw [hgA] at h
      rw [h]
      have h3w : ∀ j' : Nat, ((incOrDecAddressesPastTheIndex
          (actuallyInsert (incOrDecAddressesPastTheIndex r .CODE A 1) A
            ⟨.CODE, getBoolNibb (A : Int)⟩) .CODE A (-1)).words .CODE)[j']?
          = Option.map (patchWord .CODE A (-1))
            (((actuallyInsert (incOrDecAddressesPastTheIndex r .CODE A 1) A
              ⟨.CODE, getBoolNibb (A : Int)⟩).words .CODE)[j']?) := by
        intro j'
        exact incOrDec_code_dec _ .CODE A j'
      rw [h3w, h3w, hr2, hr2]
      exact shift_roundtrip A (fun j => (r.words .CODE)[j]?)
        (fun j => ((incOrDecAddressesPastTheIndex r .CODE A 1).words .CODE)[j]?)
        (Option.map (patchWord .CODE A (-1))) (fun j => hQ j) hlastW hnone j
    · rw [hr4o .DATA (by decide)]
      show (incOrDecAddressesPastTheIndex _ .CODE A (-1)).data = r.data
      rw [incOrDec_data]
      have hd : (actuallyInsert (incOrDecAddressesPastTheIndex r .CODE A 1) A
          ⟨.CODE, getBoolNibb (A : Int)⟩).data
          = (incOrDecAddressesPastTheIndex r .CODE A 1).data :=
        hr2o .DATA (by decide)
      rw [hd, incOrDec_data]

/-- C4 (amended): when the insert at the cursor succeeds without reclaiming a redundant
slot (the last slot of the active space is unused) and no effective `Increase` or
`Decrease` on data 7 has its operand at or past a DATA insertion index, the immediately
following delete at the cursor succeeds and gives back the cursor state of before the
insert: both memory spaces are word for word what they were. -/
theorem insert_then_delete_restores (c : Cursor) (hwf : c.ram.WellFormed)
    (hsp : c.addrSpace ≠ .NONE) (hy : c.getY < RAM_SIZE)
    (hlast : addressUsed c.ram ⟨c.addrSpace, getBoolNibb ((RAM_SIZE : Int) - 1)⟩ = false)
    (h3 : ∀ w ∈ getEffectiveInstructions c.ram,
      ¬ (c.addrSpace = .DATA ∧ c.getY ≤ 7 ∧ getInt (firstAdr w).val = 7 ∧
        (getInstruction w = .Increase ∨ getInstruction w = .Decrease)))
    (hins : c.insertByteAndMoveRestDown.1 = true) :
    c.insertByteAndMoveRestDown.2.deleteByteAndMoveRestUp = (true, c) := by
  have hgA : getInt (getBoolNibb (c.getY : Int)) = c.getY :=
    getInt_getBoolNibb c.getY (by simp only [RAM_SIZE] at hy; omega)
  have hb : ¬ (c.getAddress.space = .DATA ∧
      shouldNotModifyData c.ram true (getInt c.getAddress.val) ≠ 0) := by
    intro hc
    unfold Cursor.insertByteAndMoveRestDown at hins
    simp only [] at hins
    rw [insert_rejected_result c.ram c.getY c.getAddress
      (shouldNotModifyInsert_blocked c.ram c.getAddress hc)] at hins
    exact absurd hins (by simp)
  have hfree := shouldNotModifyInsert_free c.ram c.getAddress hb hlast
  have hres := insert_success_result c.ram c.getY c.getAddress c.ram hfree
  have hb' : ¬ (c.addrSpace = .DATA ∧ shouldNotModifyData c.ram true c.getY ≠ 0) := by
    intro hc
    apply hb
    refine ⟨hc.1, ?_⟩
    show shouldNotModifyData c.ram true (getInt (getBoolNibb (c.getY : Int))) ≠ 0
    rw [hgA]
    exact hc.2
  have hrt := insert_delete_ram c.ram c.addrSpace c.getY hwf hsp hy hlast hb' h3
  have hins2 : c.insertByteAndMoveRestDown
      = (true, { c with ram := (actuallyInsert
          (incOrDecAddressesPastTheIndex c.ram c.addrSpace c.getY 1) c.getY
          ⟨c.addrSpace, getBoolNibb (c.getY : Int)⟩) }) := by
    unfold Cursor.insertByteAndMoveRestDown
    simp only []
    rw [hres]
    show (true, _) = (true, _)
    have : getInt c.getAddress.val = c.getY := hgA
    rw [this]
    rfl
  rw [hins2]
  unfold Cursor.deleteByteAndMoveRestUp
  simp only []
  have hY : ({ c with ram := (actuallyInsert
      (incOrDecAddressesPastTheIndex c.ram c.addrSpace c.getY 1) c.getY
      ⟨c.addrSpace, getBoolNibb (c.getY : Int)⟩) } : Cursor).getAddress
      = ⟨c.addrSpace, getBoolNibb (c.getY : Int)⟩ := rfl
  rw [hY, hrt]

theorem insert_then_delete_restores_witness :
    cursorProgram.insertByteAndMoveRestDown.2.ram.code[0]? ≠ cursorProgram.ram.code[0]? ∧
    cursorProgram.insertByteAndMoveRestDown.2.deleteByteAndMoveRestUp = (true, cursorProgram) :=
  ⟨by decide,
    insert_then_delete_restores cursorProgram (by unfold Ram.WellFormed; decide) (by decide)
      (by decide) (by decide) (by decide) (by decide)⟩

/-- C4, as stated, fails: the insert at DATA 0 succeeds after reclaiming the redundant
slot 4, the delete at DATA 0 that follows succeeds too, and the memory is not the memory of
before the insert: slot 4, empty before, now holds the word that was in slot 5, and the
empty slot has moved to the end.  It also fails without a reclaimed slot when CODE holds
`Increase 7`: the insert at DATA 0 cannot raise the three-bit operand, the delete lowers
it, and the instruction comes back as `Increase 6`. -/
theorem insert_then_delete_reclaim_counterexample :
    cursorDataHole.ram.WellFormed ∧
    cursorDataHole.insertByteAndMoveRestDown.1 = true ∧
    cursorDataHole.insertByteAndMoveRestDown.2.deleteByteAndMoveRestUp.1 = true ∧
    cursorDataHole.ram.data[4]? = some EMPTY_WORD ∧
    cursorDataHole.insertByteAndMoveRestDown.2.deleteByteAndMoveRestUp.2.ram.data[4]?
      = some JUMP_3 ∧
    cursorDataHole.insertByteAndMoveRestDown.2.deleteByteAndMoveRestUp.2.ram
      ≠ cursorDataHole.ram ∧
    cursorIncrease.ram.WellFormed ∧
    addressUsed cursorIncrease.ram ⟨.DATA, getBoolNibb ((RAM_SIZE : Int) - 1)⟩ = false ∧
    cursorIncrease.insertByteAndMoveRestDown.1 = true ∧
    cursorIncrease.insertByteAndMoveRestDown.2.deleteByteAndMoveRestUp.1 = true ∧
    cursorIncrease.ram.code[0]? = some INCREASE_7 ∧
    cursorIncrease.insertByteAndMoveRestDown.2.deleteByteAndMoveRestUp.2.ram.code[0]?
      = some INCREASE_6 := by
  refine ⟨?_, by decide, by decide, by decide, by decide, by decide, ?_, by decide, by decide,
    by decide, by decide, by decide⟩
  · unfold Ram.WellFormed
    decide
  · unfold Ram.WellFormed
    decide

/-! ## A delete blocked by a logic binding -/

/-- C11 (amended): a delete at DATA index `A` that is blocked because a bound data index
`i` with `A <= i <= LAST_XOR_OPERAND_INDEX - 1` has its logic instruction among the
effective instructions reports failure and leaves the whole RAM, slot `A` included, exactly
as it was: nothing is shifted and nothing is set to the empty word. -/
theorem delete_blocked_by_binding (r : Ram) (val : List Bool)
    (h : ∃ i, getInt val ≤ i ∧ i ≤ LAST_XOR_OPERAND_INDEX - 1 ∧
      boundInstructionExists (getEffectiveInstructions r) i = true) :
    deleteByteAndMoveRestUp r ⟨.DATA, val⟩ = (false, r) := by
  have hne : shouldNotModifyData r false (getInt val) ≠ 0 := by
    intro h0
    rw [shouldNotModifyData_eq_zero_iff] at h0
    obtain ⟨i, h1, h2, h3⟩ := h
    have := h0 i h1 (by simpa using h2)
    rw [h3] at this
    exact absurd this (by decide)
  have hcheck : shouldNotModifyDelete r ⟨.DATA, val⟩ = (true, r) := by
    unfold shouldNotModifyDelete
    exact if_pos ⟨rfl, hne⟩
  unfold deleteByteAndMoveRestUp
  rw [hcheck]
  rfl

theorem delete_blocked_by_binding_witness :
    deleteByteAndMoveRestUp ramAndData ⟨.DATA, FIRST_ADDRESS⟩ = (false, ramAndData) :=
  delete_blocked_by_binding ramAndData FIRST_ADDRESS ⟨2, by decide, by decide, by decide⟩

/-- C11, as stated, fails: `And` is an effective instruction, so the delete at DATA 0 is
blocked by the bound index 2; it reports failure, and slot 0 still holds its non-empty
word. -/
theorem delete_blocked_slot_kept_counterexample :
    ramAndData.WellFormed ∧
    boundInstructionExists (getEffectiveInstructions ramAndData) AND_OPERAND_INDEX = true ∧
    shouldNotModifyData ramAndData false (getInt FIRST_ADDRESS) = AND_OPERAND_INDEX ∧
    (deleteByteAndMoveRestUp ramAndData ⟨.DATA, FIRST_ADDRESS⟩).1 = false ∧
    ramAndData.data[0]? = some JUMP_3 ∧
    (deleteByteAndMoveRestUp ramAndData ⟨.DATA, FIRST_ADDRESS⟩).2.data[0]? = some JUMP_3 ∧
    JUMP_3 ≠ EMPTY_WORD := by
  refine ⟨?_, by decide, by decide, by decide, by decide, by decide, by decide⟩
  unfold Ram.WellFormed
  decide

/-! ## Used addresses -/

theorem getBool_clamp (n : Int) (len : Nat) :
    getBool n len = getBool ((min n.toNat (2 ^ len - 1) : Nat) : Int) len := by
  unfold getBool
  have h : min (((min n.toNat (2 ^ len - 1) : Nat) : Int).toNat) (2 ^ len - 1)
      = min n.toNat (2 ^ len - 1) := by
    rw [Int.toNat_ofNat]
    generalize 2 ^ len - 1 = b
    omega
  simp only [h]

set_option maxRecDepth 100000 in
theorem getInt_getBoolByte (n : Int) : getInt (getBoolByte n) = min n.toNat MAX_VALUE := by
  have key : ∀ k : Fin 256, getInt (getBool ((k.val : Nat) : Int) 8) = k.val := by decide
  unfold getBoolByte
  rw [getBool_clamp]
  have hlt : min n.toNat (2 ^ WORD_SIZE - 1) < 256 := by
    have : (2 : Nat) ^ WORD_SIZE - 1 = 255 := by decide
    rw [this]
    omega
  have := key ⟨min n.toNat (2 ^ WORD_SIZE - 1), hlt⟩
  simp only [] at this
  rw [this]
  rfl

set_option maxRecDepth 100000 in
theorem getInt_getBoolNibb_clamp (n : Int) : getInt (getBoolNibb n) = min n.toNat 15 := by
  have key : ∀ k : Fin 16, getInt (getBool ((k.val : Nat) : Int) 4) = k.val := by decide
  unfold getBoolNibb
  rw [getBool_clamp]
  have hlt : min n.toNat (2 ^ ADDR_SIZE - 1) < 16 := by
    have : (2 : Nat) ^ ADDR_SIZE - 1 = 15 := by decide
    rw [this]
    omega
  have := key ⟨min n.toNat (2 ^ ADDR_SIZE - 1), hlt⟩
  simp only [] at this
  rw [this]
  rfl

set_option maxRecDepth 100000 in
theorem getInt_word_le : ∀ (b0 b1 b2 b3 b4 b5 b6 b7 : Bool),
    getInt [b0, b1, b2, b3, b4, b5, b6, b7] ≤ MAX_VALUE := by
  decide

theorem getInt_le_of_length (w : Word) (h : w.length = WORD_SIZE) : getInt w ≤ MAX_VALUE := by
  obtain ⟨b0, b1, b2, b3, b4, b5, b6, b7, rfl⟩ := word_cases w h
  exact getInt_word_le b0 b1 b2 b3 b4 b5 b6 b7

theorem getInt_increasePc (pc : List Bool) :
    getInt (increasePc pc) = min (getInt pc + 1) 15 := by
  unfold increasePc
  rw [getInt_getBoolNibb_clamp]
  have : ((getInt pc : Int) + 1).toNat = getInt pc + 1 := by omega
  rw [this]

theorem set_pc (m : Machine) (adr : Address) (w : Word) : (m.set adr w).pc = m.pc := by
  unfold Machine.set
  split <;> rfl

theorem set_reg (m : Machine) (adr : Address) (w : Word) : (m.set adr w).reg = m.reg := by
  unfold Machine.set
  split <;> rfl

theorem set_last (m : Machine) (w : Word) :
    m.set ⟨.DATA, LAST_ADDRESS⟩ w = { m with lastData := w } := by
  unfold Machine.set
  exact if_pos (by decide)

theorem get_last (m : Machine) : m.get ⟨.DATA, LAST_ADDRESS⟩ = m.lastData := by
  unfold Machine.get
  exact if_pos (by decide)

/-- C18: `Jump` and `JumpReg` set the program counter to the index bits of the effective
address and change nothing else (no advance of the pc, same register, same memory); the
effective address of `JumpReg` is the second nibble of the register, the low four bits of
its value, in CODE, whatever first-order address the instruction word gave. -/
theorem jumps_set_pc (adr firstOrderAdr : Address) (reg : Word) (m : Machine) :
    SpecificInstruction.Jump.exec adr m = { m with pc := adr.val } ∧
    SpecificInstruction.JumpReg.exec adr m = { m with pc := adr.val } ∧
    SpecificInstruction.Jump.getAddress firstOrderAdr reg m = firstOrderAdr ∧
    SpecificInstruction.JumpReg.getAddress firstOrderAdr reg m
      = ⟨.CODE, getSecondNibble reg⟩ ∧
    (∀ b0 b1 b2 b3 b4 b5 b6 b7 : Bool,
      getInt (getSecondNibble [b0, b1, b2, b3, b4, b5, b6, b7])
        = getInt [b0, b1, b2, b3, b4, b5, b6, b7] % 16) := by
  refine ⟨rfl, rfl, rfl, rfl, ?_⟩
  decide

/-- C17: `Print` with the effective address `adr` copies the word read at `adr` into the
reserved last data slot, the slot behind `Address(DATA, LAST_ADDRESS)`; the register and
every word of both memory spaces stay as they were (the pc is advanced). -/
theorem print_copies_to_last_slot (adr : Address) (m : Machine) :
    (SpecificInstruction.Print.exec adr m).lastData = m.get adr ∧
    (SpecificInstruction.Print.exec adr m).get ⟨.DATA, LAST_ADDRESS⟩ = m.get adr ∧
    (SpecificInstruction.Print.exec adr m).reg = m.reg ∧
    (SpecificInstruction.Print.exec adr m).ram = m.ram ∧
    (SpecificInstruction.Print.exec adr m).pc = increasePc m.pc := by
  have hexec : SpecificInstruction.Print.exec adr m
      = { m with lastData := m.get adr, pc := increasePc m.pc } := by
    simp only [SpecificInstruction.exec, Machine.increasePc]
    rw [set_last]
  rw [hexec]
  exact ⟨rfl, get_last _, rfl, rfl, rfl⟩

/-- C16 (amended): every sequential instruction leaves the program counter at
`increasePc(pc)`, the four-bit increment: for every pc from 0 to `RAM_SIZE - 1`, the
largest CODE index included, the new pc is `pc + 1`, so the largest index goes to
`RAM_SIZE`, the value of `LAST_ADDRESS`, and never back to 0. -/
theorem sequential_pc (inst : SpecificInstruction) (adr : Address) (m : Machine)
    (hinst : inst ∈ SEQUENTIAL_INSTRUCTIONS) (hpc : getInt m.pc < RAM_SIZE) :
    (inst.exec adr m).pc = increasePc m.pc ∧
    getInt (inst.exec adr m).pc = getInt m.pc + 1 := by
  have h1 : (inst.exec adr m).pc = increasePc m.pc := by
    unfold SEQUENTIAL_INSTRUCTIONS at hinst
    simp only [List.mem_cons, List.mem_singleton, List.not_mem_nil, or_false] at hinst
    rcases hinst with h | h | h | h | h | h | h | h | h | h | h | h | h | h | h | h | h <;>
      subst h <;>
      simp only [SpecificInstruction.exec, Machine.increasePc, addOrSubtract, shift, andOrOr,
        incOrDec, set_pc] <;>
      rfl
  refine ⟨h1, ?_⟩
  rw [h1, getInt_increasePc]
  simp only [RAM_SIZE] at hpc
  omega

theorem sequential_pc_witness :
    (SpecificInstruction.Read.exec ⟨.DATA, FIRST_ADDRESS⟩ machineAtLastIndex).pc
      = increasePc machineAtLastIndex.pc ∧
    getInt (SpecificInstruction.Read.exec ⟨.DATA, FIRST_ADDRESS⟩ machineAtLastIndex).pc
      = getInt machineAtLastIndex.pc + 1 :=
  sequential_pc .Read ⟨.DATA, FIRST_ADDRESS⟩ machineAtLastIndex (by decide) (by decide)

/-- C16, as stated, fails: with the pc at 14, the last CODE index, `Read` leaves the pc at
15, the value of `LAST_ADDRESS`, not at `(14 + 1) mod RAM_SIZE = 0`. -/
theorem sequential_pc_no_wrap_counterexample :
    SpecificInstruction.Read ∈ SEQUENTIAL_INSTRUCTIONS ∧
    getInt machineAtLastIndex.pc = RAM_SIZE - 1 ∧
    (SpecificInstruction.Read.exec ⟨.DATA, FIRST_ADDRESS⟩ machineAtLastIndex).pc
      = LAST_ADDRESS ∧
    getInt (SpecificInstruction.Read.exec ⟨.DATA, FIRST_ADDRESS⟩ machineAtLastIndex).pc = 15 ∧
    getInt (SpecificInstruction.Read.exec ⟨.DATA, FIRST_ADDRESS⟩ machineAtLastIndex).pc
      ≠ (getInt machineAtLastIndex.pc + 1) % RAM_SIZE := by
  decide

theorem length_getBool (n : Int) (len : Nat) : (getBool n len).length = len := by
  unfold getBool
  simp

theorem length_getBoolByte (n : Int) : (getBoolByte n).length = WORD_SIZE :=
  length_getBool n WORD_SIZE

theorem get_data (m : Machine) (adr : Address) (hsp : adr.space = .DATA)
    (hlt : getInt adr.val < RAM_SIZE) :
    m.get adr = m.ram.data.getD (getInt adr.val) EMPTY_WORD := by
  unfold Machine.get
  rw [if_neg (by intro h; omega)]
  unfold Ram.get
  rw [hsp]
  rfl

theorem get_congr (m1 m2 : Machine) (adr : Address) (h1 : m1.ram = m2.ram)
    (h2 : m1.lastData = m2.lastData) : m1.get adr = m2.get adr := by
  unfold Machine.get
  rw [h1, h2]

theorem set_data_ram (m : Machine) (adr : Address) (w : Word) (hsp : adr.space = .DATA)
    (hlt : getInt adr.val < RAM_SIZE) :
    (m.set adr w).ram.data = m.ram.data.set (getInt adr.val) w := by
  unfold Machine.set
  rw [if_neg (by intro h; omega)]
  unfold Ram.set
  rw [hsp]
  rfl

theorem get_set_data (m : Machine) (adr : Address) (w : Word) (hsp : adr.space = .DATA)
    (hlt : getInt adr.val < RAM_SIZE) (hlen : getInt adr.val < m.ram.data.length) :
    (m.set adr w).get adr = w := by
  rw [get_data _ adr hsp hlt, set_data_ram m adr w hsp hlt]
  simp only [List.getD_eq_getElem?_getD]
  rw [List.getElem?_set_self hlen]
  rfl

theorem incOrDec_fields (adr : Address) (m : Machine) (isInc : Bool) (v : Nat)
    (hv : v = (if isInc then (if getInt (m.get adr) = MAX_VALUE then 0
            else getInt (m.get adr) + 1)
          else (if getInt (m.get adr) = 0 then MAX_VALUE else getInt (m.get adr) - 1))) :
    (incOrDec adr m isInc).reg = getBoolByte (v : Int) ∧
    (incOrDec adr m isInc).pc = increasePc m.pc ∧
    (incOrDec adr m isInc).get adr = (m.set adr (getBoolByte (v : Int))).get adr := by
  subst hv
  refine ⟨rfl, ?_, ?_⟩
  · unfold incOrDec Machine.increasePc
    simp only [set_pc]
  · exact get_congr _ _ adr rfl rfl

/-- C15: `Add` sets the register to the word of value `min (reg + data) MAX_VALUE` and `Sub`
to the word of value `max (reg - data) 0`, `data` being the word read at the address and
`reg` the `WORD_SIZE`-bit register: the results are clamped, never wrapped. -/
theorem add_sub_clamp (adr : Address) (m : Machine) (hreg : m.reg.length = WORD_SIZE) :
    getInt (SpecificInstruction.Add.exec adr m).reg
        = min (getInt m.reg + getInt (m.get adr)) MAX_VALUE ∧
    ((getInt (SpecificInstruction.Sub.exec adr m).reg : Nat) : Int)
        = max ((getInt m.reg : Int) - (getInt (m.get adr) : Int)) 0 ∧
    (SpecificInstruction.Add.exec adr m).reg.length = WORD_SIZE ∧
    (SpecificInstruction.Sub.exec adr m).reg.length = WORD_SIZE := by
  have hr : getInt m.reg ≤ MAX_VALUE := getInt_le_of_length _ hreg
  have hadd : (SpecificInstruction.Add.exec adr m).reg
      = getBoolByte ((getInt m.reg : Int) + (getInt (m.get adr) : Int)) := rfl
  have hsub : (SpecificInstruction.Sub.exec adr m).reg
      = getBoolByte ((getInt m.reg : Int) - (getInt (m.get adr) : Int)) := rfl
  rw [hadd, hsub, getInt_getBoolByte, getInt_getBoolByte]
  refine ⟨?_, ?_, length_getBoolByte _, length_getBoolByte _⟩
  · simp only [MAX_VALUE] at *
    omega
  · simp only [MAX_VALUE] at *
    omega

theorem add_sub_clamp_witness :
    (getInt machineRegMax.reg = MAX_VALUE ∧
      getInt (machineRegMax.get ⟨.DATA, FIRST_ADDRESS⟩) = 1 ∧
      getInt (SpecificInstruction.Add.exec ⟨.DATA, FIRST_ADDRESS⟩ machineRegMax).reg
        = MAX_VALUE) ∧
    (getInt machineRegMin.reg = 0 ∧
      getInt (machineRegMin.get ⟨.DATA, FIRST_ADDRESS⟩) = 1 ∧
      getInt (SpecificInstruction.Sub.exec ⟨.DATA, FIRST_ADDRESS⟩ machineRegMin).reg = 0) := by
  have h1 := (add_sub_clamp ⟨.DATA, FIRST_ADDRESS⟩ machineRegMax (by decide)).1
  have h2 := (add_sub_clamp ⟨.DATA, FIRST_ADDRESS⟩ machineRegMin (by decide)).2.1
  have a1 : getInt machineRegMax.reg = MAX_VALUE := by decide
  have a2 : getInt (machineRegMax.get ⟨.DATA, FIRST_ADDRESS⟩) = 1 := by decide
  have b1 : getInt machineRegMin.reg = 0 := by decide
  have b2 : getInt (machineRegMin.get ⟨.DATA, FIRST_ADDRESS⟩) = 1 := by decide
  rw [a1, a2] at h1
  rw [b1, b2] at h2
  refine ⟨⟨a1, a2, h1⟩, b1, b2, ?_⟩
  exact Int.ofNat_inj.mp h2

/-! ## Running a program -/

theorem sleepAndCheckForKey_saved (c c2 : Computer) (h : sleepAndCheckForKey c = some c2) :
    c2.savedRamState = c.savedRamState := by
  unfold sleepAndCheckForKey getKey readStdin at h
  simp only [] at h
  split at h
  · exact absurd h (by simp)
  · split at h
    · split at h
      · cases h; rfl
      · split at h <;> (cases h; rfl)
    · cases h; rfl

theorem exec_saved (step : Machine → Bool × Machine) :
    ∀ (fuel : Nat) (c c1 : Computer), exec step fuel c = .returned c1 →
      c1.savedRamState = c.savedRamState := by
  intro fuel
  induction fuel with
  | zero =>
    intro c c1 h
    unfold exec at h
    split at h
    · cases h; rfl
    · cases h
  | succ n ih =>
    intro c c1 h
    unfold exec at h
    simp only [] at h
    split at h
    · cases h; rfl
    · split at h
      · cases h; rfl
      · split at h
        · split at h
          · cases h
          · next c2 hc2 =>
            rw [ih _ _ h, sleepAndCheckForKey_saved _ _ hc2]
        · have hrec := ih _ _ h
          exact hrec

/-- The result of `exec` does not depend on the fuel, once there is enough of it. -/
theorem exec_fuel_succ (step : Machine → Bool × Machine) :
    ∀ (fuel : Nat) (c c1 : Computer), exec step fuel c = .returned c1 →
      exec step (fuel + 1) c = .returned c1 := by
  intro fuel
  induction fuel with
  | zero =>
    intro c c1 h
    unfold exec at h
    split at h
    · next hc =>
      unfold exec
      rw [if_pos hc]
      exact h
    · cases h
  | succ n ih =>
    intro c c1 h
    unfold exec at h ⊢
    simp only [] at h ⊢
    split
    · next hc => rw [if_pos hc] at h; exact h
    · next hc =>
      rw [if_neg hc] at h
      split
      · next hs => rw [if_pos hs] at h; exact h
      · next hs =>
        rw [if_neg hs] at h
        split
        · next hi =>
          rw [if_pos hi] at h
          split at h
          · cases h
          · next c2 hc2 =>
            exact ih _ _ h
        · next hi =>
          rw [if_neg hi] at h
          exact ih _ _ h

/-- A run that has returned returns the same state with more fuel. -/
theorem run_fuel_succ (step : Machine → Bool × Machine) (fuel : Nat) (c c1 : Computer)
    (h : run step fuel c = .returned c1) : run step (fuel + 1) c = .returned c1 := by
  unfold run at h ⊢
  simp only [] at h ⊢
  split at h
  · next c' hexec =>
    rw [exec_fuel_succ step fuel _ _ hexec]
    exact h
  · cases h
  · cases h

/-- C19: for every memory state, every step function of the CPU (whatever it writes to
memory), every interactive or piped mode and every sequence of keys, when `run` returns,
whether a step returned stop or the execution was cancelled, the RAM of both spaces is the
RAM at the call, the CPU is a new one (pc at the first address, empty register) and the
cancellation flag is false. -/
theorem run_restores_memory (step : Machine → Bool × Machine) (fuel : Nat) (c c1 : Computer)
    (h : run step fuel c = .returned c1) :
    c1.machine.ram = c.machine.ram ∧
    c1.machine.pc = FIRST_ADDRESS ∧ c1.machine.reg = EMPTY_WORD ∧
    c1.executionCanceled = false := by
  unfold run at h
  simp only [] at h
  split at h
  · next c' hexec =>
    have hsaved := exec_saved step fuel _ _ hexec
    simp only [] at hsaved
    cases h
    refine ⟨?_, rfl, rfl, ?_⟩
    · cases hc : c'.executionCanceled
      · simp only [Bool.false_eq_true, if_false, Machine.newCpu, readStdin]
        exact hsaved
      · simp only [if_true, Machine.newCpu]
        exact hsaved
    · cases hc : c'.executionCanceled
      · simp only [Bool.false_eq_true, if_false, Machine.newCpu, readStdin]
        exact hc
      · simp only [if_true, Machine.newCpu]
  · cases h
  · cases h

theorem run_restores_memory_witness :
    ((stepExample computerExample.machine).2.ram ≠ computerExample.machine.ram ∧
      computerAfterRun.machine.ram = computerExample.machine.ram ∧
      computerAfterRun.machine.pc = FIRST_ADDRESS ∧ computerAfterRun.machine.reg = EMPTY_WORD ∧
      computerAfterRun.executionCanceled = false) ∧
    ((stepForever computerEscape.machine).2.ram ≠ computerEscape.machine.ram ∧
      computerAfterRun.machine.ram = computerEscape.machine.ram ∧
      computerAfterRun.machine.pc = FIRST_ADDRESS ∧ computerAfterRun.machine.reg = EMPTY_WORD ∧
      computerAfterRun.executionCanceled = false) :=
  ⟨⟨by decide, run_restores_memory stepExample 5 computerExample computerAfterRun
      (by decide)⟩,
    ⟨by decide, run_restores_memory stepForever 5 computerEscape computerAfterRun
      (by decide)⟩⟩

/-! ## Loading a memory image -/

theorem set_of_getElem? {α : Type} (l : List α) (i : Nat) (a : α) (h : l[i]? = some a) :
    l.set i a = l := by
  apply List.ext_getElem?
  intro n
  rw [List.getElem?_set]
  split
  · next hin =>
    subst hin
    obtain ⟨hlt, _⟩ := List.getElem?_eq_some.mp h
    rw [if_pos hlt, h]
  · rfl

theorem writeBits_length (cs : List Char) : ∀ (k : Nat) (w : Word),
    (writeBits cs k w).length = w.length := by
  induction cs with
  | nil => intro k w; rfl
  | cons c rest ih =>
    intro k w
    unfold writeBits
    split
    · exact List.length_set _ _ _
    · rw [ih, List.length_set]

theorem writeBits_getElem? (cs : List Char) : ∀ (k : Nat) (w : Word) (j : Nat),
    k < WORD_SIZE → w.length = WORD_SIZE → j < WORD_SIZE →
    (writeBits cs k w)[j]? =
      if k ≤ j ∧ j - k < cs.length then some (decide (cs[j - k]? = some '*')) else w[j]? := by
  induction cs with
  | nil =>
    intro k w j _ _ _
    simp [writeBits]
  | cons c rest ih =>
    intro k w j hk hw hj
    have hb : getBoolChar c = decide ((c :: rest)[0]? = some '*') := by
      simp [getBoolChar, beq_eq_decide]
    unfold writeBits
    split
    · next hlast =>
      have hk7 : k = 7 := by simp only [WORD_SIZE] at *; omega
      subst hk7
      rw [List.getElem?_set]
      by_cases hj7 : 7 = j
      · subst hj7
        rw [if_pos rfl, if_pos (by rw [hw]; decide), if_pos ⟨Nat.le_refl _, by simp⟩, hb]
      · rw [if_neg hj7, if_neg (by intro h; simp only [WORD_SIZE] at *; omega)]
    · next hnot =>
      have hk1 : k + 1 < WORD_SIZE := by omega
      rw [ih (k + 1) (w.set k (getBoolChar c)) j hk1 (by rw [List.length_set]; exact hw) hj]
      by_cases hjk : j = k
      · subst hjk
        rw [if_neg (by omega), if_pos ⟨Nat.le_refl _, by simp⟩, List.getElem?_set_self (by omega),
          hb]
        simp
      · by_cases hlt : k < j
        · have hsub : j - k = (j - (k + 1)) + 1 := by omega
          rw [hsub, List.getElem?_cons_succ, List.length_cons]
          rw [List.getElem?_set_ne (Ne.symm hjk)]
          by_cases hc : j - (k + 1) < rest.length
          · rw [if_pos ⟨by omega, hc⟩, if_pos ⟨by omega, by omega⟩]
          · rw [if_neg (by omega), if_neg (by omega)]
        · rw [if_neg (by omega), if_neg (by omega), List.getElem?_set_ne (Ne.symm hjk)]

theorem writeBits_empty (cs : List Char) : writeBits cs 0 EMPTY_WORD = wordOfLine cs := by
  apply List.ext_getElem?
  intro j
  by_cases hj : j < WORD_SIZE
  · rw [writeBits_getElem? cs 0 EMPTY_WORD j (by decide) rfl hj]
    unfold wordOfLine
    rw [List.getElem?_map, List.getElem?_range hj]
    simp only [Nat.zero_le, true_and, Nat.sub_zero, Option.map_some']
    split
    · rfl
    · next hlen =>
      have hnone : cs[j]? = none := List.getElem?_eq_none (by omega)
      rw [hnone]
      have : (EMPTY_WORD)[j]? = some false := by
        have : ∀ i : Fin 8, (EMPTY_WORD)[i.val]? = some false := by decide
        exact this ⟨j, hj⟩
      rw [this]
      simp
  · rw [List.getElem?_eq_none (by rw [writeBits_length]; simp only [WORD_SIZE] at *; simp; omega),
      List.getElem?_eq_none (by unfold wordOfLine; simp; omega)]

theorem writeLineToRamLoop_code (address : Nat) (haddr : address < RAM_SIZE) (cs : List Char) :
    ∀ (k : Nat) (r : Ram) (w : Word), k < WORD_SIZE → r.code[address]? = some w →
      w.length = WORD_SIZE →
      writeLineToRamLoop address cs k r
        = some { r with code := r.code.set address (writeBits cs k w) } := by
  induction cs with
  | nil =>
    intro k r w _ hw _
    unfold writeLineToRamLoop writeBits
    rw [set_of_getElem? _ _ _ hw]
  | cons c rest ih =>
    intro k r w hk hw hlen
    have hwrite : writeInstructionBitToRam r address k (getBoolChar c)
        = some { r with code := r.code.set address (w.set k (getBoolChar c)) } := by
      unfold writeInstructionBitToRam
      rw [hw]
      exact if_pos (by omega)
    have haddrlen : address < r.code.length := (List.getElem?_eq_some.mp hw).1
    unfold writeLineToRamLoop writeBits
    simp only []
    rw [if_pos haddr, hwrite]
    simp only []
    split
    · rfl
    · next hnot =>
      rw [ih (k + 1) _ (w.set k (getBoolChar c)) (by omega)
        (List.getElem?_set_self haddrlen) (by rw [List.length_set]; exact hlen)]
      simp only [List.set_set]

theorem writeLineToRamLoop_data (address : Nat) (haddr : ¬ address < RAM_SIZE)
    (cs : List Char) :
    ∀ (k : Nat) (r : Ram) (w : Word), k < WORD_SIZE → r.data[address - RAM_SIZE]? = some w →
      w.length = WORD_SIZE →
      writeLineToRamLoop address cs k r
        = some { r with data := r.data.set (address - RAM_SIZE) (writeBits cs k w) } := by
  induction cs with
  | nil =>
    intro k r w _ hw _
    unfold writeLineToRamLoop writeBits
    rw [set_of_getElem? _ _ _ hw]
  | cons c rest ih =>
    intro k r w hk hw hlen
    have hwrite : writeDataBitToRam r (address - RAM_SIZE) k (getBoolChar c)
        = some { r with data := r.data.set (address - RAM_SIZE) (w.set k (getBoolChar c)) } := by
      unfold writeDataBitToRam
      rw [hw]
      exact if_pos (by omega)
    have haddrlen : address - RAM_SIZE < r.data.length := (List.getElem?_eq_some.mp hw).1
    unfold writeLineToRamLoop writeBits
    simp only []
    rw [if_neg haddr, hwrite]
    simp only []
    split
    · rfl
    · next hnot =>
      rw [ih (k + 1) _ (w.set k (getBoolChar c)) (by omega)
        (List.getElem?_set_self haddrlen) (by rw [List.length_set]; exact hlen)]
      simp only [List.set_set]

theorem slot_code (r : Ram) (n : Nat) (h : n < RAM_SIZE) :
    r.slot n = r.code.getD n EMPTY_WORD := by
  unfold Ram.slot
  exact if_pos h

theorem slot_data (r : Ram) (n : Nat) (h : ¬ n < RAM_SIZE) :
    r.slot n = r.data.getD (n - RAM_SIZE) EMPTY_WORD := by
  unfold Ram.slot
  exact if_neg h

theorem wordOfLine_length (cs : List Char) : (wordOfLine cs).length = WORD_SIZE := by
  unfold wordOfLine
  simp

/-- A line written to an empty slot of a well-formed RAM: the slot holds the word of the
line, every other slot is as before. -/
theorem writeLineToRam_slot (r : Ram) (cs : List Char) (address : Nat)
    (haddr : address < 2 * RAM_SIZE) (hwf : r.WellFormed) (hempty : r.slot address = EMPTY_WORD) :
    ∃ r1, writeLineToRam r cs address = some r1 ∧ r1.WellFormed ∧
      r1.slot address = wordOfLine cs ∧ ∀ n, n ≠ address → r1.slot n = r.slot n := by
  obtain ⟨hcl, hdl, hcw, hdw⟩ := hwf
  unfold writeLineToRam
  by_cases hc : address < RAM_SIZE
  · have hw : r.code[address]? = some EMPTY_WORD := by
      rw [slot_code r address hc, List.getD_eq_getElem?_getD] at hempty
      rw [List.getElem?_eq_getElem (by omega)] at hempty ⊢
      exact congrArg some hempty
    rw [writeLineToRamLoop_code address hc cs 0 r EMPTY_WORD (by decide) hw rfl, writeBits_empty]
    refine ⟨_, rfl, ⟨?_, hdl, ?_, hdw⟩, ?_, ?_⟩
    · simp only [List.length_set]; exact hcl
    · intro w hmem
      rcases List.mem_or_eq_of_mem_set hmem with h | h
      · exact hcw w h
      · rw [h]; exact wordOfLine_length cs
    · rw [slot_code _ address hc, List.getD_eq_getElem?_getD]
      simp only []
      rw [List.getElem?_set_self (by omega)]
      rfl
    · intro n hn
      unfold Ram.slot
      simp only []
      split
      · rw [List.getD_eq_getElem?_getD, List.getD_eq_getElem?_getD,
          List.getElem?_set_ne (Ne.symm hn)]
      · rfl
  · have hw : r.data[address - RAM_SIZE]? = some EMPTY_WORD := by
      rw [slot_data r address hc, List.getD_eq_getElem?_getD] at hempty
      rw [List.getElem?_eq_getElem (by omega)] at hempty ⊢
      exact congrArg some hempty
    rw [writeLineToRamLoop_data address hc cs 0 r EMPTY_WORD (by decide) hw rfl, writeBits_empty]
    refine ⟨_, rfl, ⟨hcl, ?_, hcw, ?_⟩, ?_, ?_⟩
    · simp only [List.length_set]; exact hdl
    · intro w hmem
      rcases List.mem_or_eq_of_mem_set hmem with h | h
      · exact hdw w h
      · rw [h]; exact wordOfLine_length cs
    · rw [slot_data _ address hc, List.getD_eq_getElem?_getD]
      simp only []
      rw [List.getElem?_set_self (by omega)]
      rfl
    · intro n hn
      unfold Ram.slot
      simp only []
      split
      · rfl
      · next hnc =>
        rw [List.getD_eq_getElem?_getD, List.getD_eq_getElem?_getD,
          List.getElem?_set_ne (by omega)]

theorem remainingLines_skip (line : List Char) (rest : List (List Char))
    (h : (line.isEmpty || line.head? == some '#') = true) :
    remainingLines (line :: rest) = remainingLines rest := by
  unfold remainingLines
  rw [List.filter_cons, if_neg (by rw [h]; decide)]

theorem remainingLines_keep (line : List Char) (rest : List (List Char))
    (h : ¬ (line.isEmpty || line.head? == some '#') = true) :
    remainingLines (line :: rest) = line :: remainingLines rest := by
  unfold remainingLines
  rw [List.filter_cons, if_pos (by simpa using h)]

/-- The loop of the load from slot `address` on, the slots from there on being empty:
the slots before `address` are kept, the slots from `address` on receive the words of the
lines that are not skipped, in order. -/
theorem loadRamFromFileStreamLoop_slots : ∀ (lines : List (List Char)) (address : Nat) (r : Ram),
    address < 2 * RAM_SIZE → r.WellFormed →
    (∀ n, address ≤ n → n < 2 * RAM_SIZE → r.slot n = EMPTY_WORD) →
    ∃ r1, loadRamFromFileStreamLoop lines address r = some r1 ∧ r1.WellFormed ∧
      ∀ n, n < 2 * RAM_SIZE → r1.slot n =
        if n < address then r.slot n
        else match (remainingLines lines)[n - address]? with
          | some cs => wordOfLine cs
          | none => EMPTY_WORD := by
  intro lines
  induction lines with
  | nil =>
    intro address r _ hwf hempty
    refine ⟨r, rfl, hwf, ?_⟩
    intro n hn
    split
    · rfl
    · next hge => exact hempty n (by omega) hn
  | cons line rest ih =>
    intro address r haddr hwf hempty
    unfold loadRamFromFileStreamLoop
    simp only []
    by_cases hskip : (line.isEmpty || line.head? == some '#') = true
    · rw [if_pos hskip, remainingLines_skip line rest hskip]
      exact ih address r haddr hwf hempty
    · rw [if_neg hskip, remainingLines_keep line rest hskip]
      obtain ⟨r1, hr1, hwf1, hslot, hothers⟩ :=
        writeLineToRam_slot r line address haddr hwf (hempty address (Nat.le_refl _) haddr)
      rw [hr1]
      simp only []
      by_cases hfull : address + 1 ≥ 2 * RAM_SIZE
      · rw [if_pos hfull]
        refine ⟨r1, rfl, hwf1, ?_⟩
        intro n hn
        by_cases hlt : n < address
        · rw [if_pos hlt]
          exact hothers n (by omega)
        · have hna : n = address := by omega
          subst hna
          rw [if_neg hlt, Nat.sub_self, List.getElem?_cons_zero]
          exact hslot
      · rw [if_neg hfull]
        obtain ⟨r2, hr2, hwf2, hslots⟩ := ih (address + 1) r1 (by omega) hwf1 (by
          intro n hge hn
          rw [hothers n (by omega)]
          exact hempty n (by omega) hn)
        refine ⟨r2, hr2, hwf2, ?_⟩
        intro n hn
        rw [hslots n hn]
        by_cases hlt : n < address
        · rw [if_pos (by omega), if_pos hlt]
          exact hothers n (by omega)
        · by_cases hna : n = address
          · subst hna
            rw [if_pos (by omega), if_neg hlt, Nat.sub_self, List.getElem?_cons_zero]
            exact hslot
          · have hsub : n - address = (n - (address + 1)) + 1 := by omega
            rw [if_neg (by omega), if_neg hlt, hsub, List.getElem?_cons_succ]

theorem ram_empty_wellFormed : Ram.empty.WellFormed := by
  refine ⟨by decide, by decide, ?_, ?_⟩ <;>
  · intro w hw
    rw [List.eq_of_mem_replicate hw]
    rfl

theorem ram_empty_slot (n : Nat) (hn : n < 2 * RAM_SIZE) : Ram.empty.slot n = EMPTY_WORD := by
  have : ∀ k : Fin (2 * RAM_SIZE), Ram.empty.slot k.val = EMPTY_WORD := by decide
  exact this ⟨n, hn⟩

theorem words_of_slots (ws : List Word) (f : Nat → Word) (hlen : ws.length = RAM_SIZE)
    (h : ∀ n, n < RAM_SIZE → ws.getD n EMPTY_WORD = f n) :
    ws = (List.range RAM_SIZE).map f := by
  apply List.ext_getElem?
  intro n
  by_cases hn : n < RAM_SIZE
  · rw [List.getElem?_map, List.getElem?_range hn]
    have := h n hn
    rw [List.getD_eq_getElem?_getD, List.getElem?_eq_getElem (by omega)] at this
    rw [List.getElem?_eq_getElem (by omega)]
    exact congrArg some this
  · rw [List.getElem?_eq_none (by omega), List.getElem?_eq_none (by simp; omega)]

/-- C20: loading a sequence of lines into the RAM of the program start (every slot
empty) succeeds and gives the RAM whose CODE word `n` is the word of the `n`-th line that
is not skipped (empty lines and lines beginning with `#` are skipped and take no slot)
and whose DATA word `n` is the word of the `(n + RAM_SIZE)`-th such line, bit `j` of the
word of a line being set exactly when character `j` of the line is a star; slots without
a line stay empty, and no line after the `2 * RAM_SIZE`-th has a slot. -/
theorem load_lines (lines : List (List Char)) :
    loadRamFromFileStream Ram.empty lines
      = some ⟨(List.range RAM_SIZE).map (fun n => loadedWord lines n),
          (List.range RAM_SIZE).map (fun n => loadedWord lines (n + RAM_SIZE))⟩ := by
  obtain ⟨r1, hr1, hwf1, hslots⟩ := loadRamFromFileStreamLoop_slots lines 0 Ram.empty
    (by decide) ram_empty_wellFormed (fun n _ hn => ram_empty_slot n hn)
  unfold loadRamFromFileStream
  rw [hr1]
  obtain ⟨hcl, hdl, _, _⟩ := hwf1
  have hcode : r1.code = (List.range RAM_SIZE).map (fun n => loadedWord lines n) := by
    apply words_of_slots _ _ hcl
    intro n hn
    have := hslots n (by omega)
    rw [slot_code r1 n hn, if_neg (by omega)] at this
    exact this
  have hdata : r1.data = (List.range RAM_SIZE).map (fun n => loadedWord lines (n + RAM_SIZE)) := by
    apply words_of_slots _ _ hdl
    intro n hn
    have := hslots (n + RAM_SIZE) (by omega)
    rw [slot_data r1 (n + RAM_SIZE) (by omega), if_neg (by omega), Nat.add_sub_cancel] at this
    exact this
  cases r1
  simp only [] at hcode hdata
  rw [hcode, hdata]

/-! ## An insert blocked by a logic binding -/

theorem lookup_bound : ∀ p ∈ BOUND_DATA_ADDRESSES, BOUND_DATA_ADDRESSES.lookup p.1 = some p.2 := by
  decide

theorem boundInstructionExists_of_mem (instructions : List Word) (i : Nat) (w : Word)
    (hb : (i, w) ∈ BOUND_DATA_ADDRESSES) (hw : w ∈ instructions) :
    boundInstructionExists instructions i = true := by
  unfold boundInstructionExists
  rw [lookup_bound (i, w) hb]
  exact decide_eq_true hw

/-- C26: an insert into DATA at index `y` is rejected and leaves the whole RAM unchanged
whenever some entry `(i, w)` of `BOUND_DATA_ADDRESSES` (the INIT, AND, OR or LAST_XOR operand
index with its logic instruction) has `y <= i <= LAST_XOR_OPERAND_INDEX` and `w` among the
effective instructions; this for every cursor position. -/
theorem insert_blocked_by_binding (r : Ram) (getY : Nat) (val : List Bool)
    (h : ∃ i w, (i, w) ∈ BOUND_DATA_ADDRESSES ∧ getInt val ≤ i ∧ i ≤ LAST_XOR_OPERAND_INDEX ∧
      w ∈ getEffectiveInstructions r) :
    insertByteAndMoveRestDown r getY ⟨.DATA, val⟩ = (false, r) := by
  obtain ⟨i, w, hb, h1, h2, hw⟩ := h
  have hne : shouldNotModifyData r true (getInt val) ≠ 0 := by
    intro h0
    rw [shouldNotModifyData_eq_zero_iff] at h0
    have := h0 i h1 (by simpa using h2)
    rw [boundInstructionExists_of_mem _ i w hb hw] at this
    exact absurd this (by decide)
  exact insert_rejected_result r getY ⟨.DATA, val⟩
    (shouldNotModifyInsert_blocked r ⟨.DATA, val⟩ ⟨rfl, hne⟩)

theorem insert_blocked_by_binding_witness :
    insertByteAndMoveRestDown ramXorLast 0 ⟨.DATA, FIRST_ADDRESS⟩ = (false, ramXorLast) :=
  insert_blocked_by_binding ramXorLast 0 FIRST_ADDRESS
    ⟨LAST_XOR_OPERAND_INDEX, LAST_XOR_INSTRUCTION, by decide, by decide, by decide, by decide⟩

/-! ## Shifts, and the round trip of increment and decrement -/

set_option maxRecDepth 100000 in
theorem getBoolByte_getInt_word : ∀ (b0 b1 b2 b3 b4 b5 b6 b7 : Bool),
    getBoolByte ((getInt [b0, b1, b2, b3, b4, b5, b6, b7] : Nat) : Int)
      = [b0, b1, b2, b3, b4, b5, b6, b7] := by
  decide

theorem getBoolByte_getInt (w : Word) (h : w.length = WORD_SIZE) :
    getBoolByte ((getInt w : Nat) : Int) = w := by
  obtain ⟨b0, b1, b2, b3, b4, b5, b6, b7, hw⟩ := word_cases w h
  rw [hw]
  exact getBoolByte_getInt_word b0 b1 b2 b3 b4 b5 b6 b7

theorem incOrDec_machine_data (adr : Address) (m : Machine) (isInc : Bool)
    (hsp : adr.space = .DATA) (hlt : getInt adr.val < RAM_SIZE) :
    (incOrDec adr m isInc).ram.data.length = m.ram.data.length := by
  have : (incOrDec adr m isInc).ram.data
      = (m.set adr (getBoolByte (((if isInc then (if getInt (m.get adr) = MAX_VALUE then 0
            else getInt (m.get adr) + 1)
          else (if getInt (m.get adr) = 0 then MAX_VALUE else getInt (m.get adr) - 1)) : Nat)
            : Int))).ram.data := rfl
  rw [this, set_data_ram m adr _ hsp hlt, List.length_set]

/-- The data word and the register after `incOrDec`, for a word of DATA. -/
theorem incOrDec_word (adr : Address) (m : Machine) (isInc : Bool) (hsp : adr.space = .DATA)
    (hlt : getInt adr.val < RAM_SIZE) (hlen : getInt adr.val < m.ram.data.length) :
    (incOrDec adr m isInc).get adr
      = getBoolByte (((if isInc then (if getInt (m.get adr) = MAX_VALUE then 0
            else getInt (m.get adr) + 1)
          else (if getInt (m.get adr) = 0 then MAX_VALUE else getInt (m.get adr) - 1)) : Nat)
            : Int) ∧
    (incOrDec adr m isInc).reg = (incOrDec adr m isInc).get adr := by
  obtain ⟨h1, _, h3⟩ := incOrDec_fields adr m isInc _ rfl
  rw [get_set_data m adr _ hsp hlt hlen] at h3
  exact ⟨h3, by rw [h1, h3]⟩

/-- C30: for every data address `a` with a three-bit index and every `WORD_SIZE`-bit data
word at `a`, `Increase` at `a` followed by `Decrease` at `a`, and `Decrease` followed by
`Increase`, leave at `a` the word that was there and leave the register equal to it. -/
theorem increase_decrease_roundtrip (adr : Address) (m : Machine) (hsp : adr.space = .DATA)
    (hthree : getInt adr.val < 8) (hlen : getInt adr.val < m.ram.data.length)
    (hword : (m.get adr).length = WORD_SIZE) :
    (SpecificInstruction.Decrease.exec adr (SpecificInstruction.Increase.exec adr m)).get adr
      = m.get adr ∧
    (SpecificInstruction.Decrease.exec adr (SpecificInstruction.Increase.exec adr m)).reg
      = m.get adr ∧
    (SpecificInstruction.Increase.exec adr (SpecificInstruction.Decrease.exec adr m)).get adr
      = m.get adr ∧
    (SpecificInstruction.Increase.exec adr (SpecificInstruction.Decrease.exec adr m)).reg
      = m.get adr := by
  have hlt : getInt adr.val < RAM_SIZE := by simp only [RAM_SIZE]; omega
  have hv : getInt (m.get adr) ≤ MAX_VALUE := getInt_le_of_length _ hword
  have key : ∀ (first : Bool),
      (incOrDec adr (incOrDec adr m first) (!first)).get adr = m.get adr := by
    intro first
    have h1 := (incOrDec_word adr m first hsp hlt hlen).1
    have hlen1 : getInt adr.val < (incOrDec adr m first).ram.data.length := by
      rw [incOrDec_machine_data adr m first hsp hlt]; exact hlen
    have h2 := (incOrDec_word adr (incOrDec adr m first) (!first) hsp hlt hlen1).1
    rw [h2, h1, getInt_getBoolByte, Int.toNat_ofNat]
    rw [← getBoolByte_getInt (m.get adr) hword]
    congr 2
    rw [getBoolByte_getInt (m.get adr) hword]
    simp only [MAX_VALUE] at hv ⊢
    cases first <;> simp only [Bool.not_false, Bool.not_true, if_true, Bool.false_eq_true,
      if_false] <;> split_ifs <;> omega
  have hreg : ∀ (first : Bool),
      (incOrDec adr (incOrDec adr m first) (!first)).reg = m.get adr := by
    intro first
    have hlen1 : getInt adr.val < (incOrDec adr m first).ram.data.length := by
      rw [incOrDec_machine_data adr m first hsp hlt]; exact hlen
    rw [(incOrDec_word adr (incOrDec adr m first) (!first) hsp hlt hlen1).2]
    exact key first
  exact ⟨key true, hreg true, key false, hreg false⟩

theorem increase_decrease_roundtrip_witness :
    (SpecificInstruction.Decrease.exec DATA_7
        (SpecificInstruction.Increase.exec DATA_7 machineSlot7)).get DATA_7
      = machineSlot7.get DATA_7 ∧
    (SpecificInstruction.Decrease.exec DATA_7
        (SpecificInstruction.Increase.exec DATA_7 machineSlot7)).reg
      = machineSlot7.get DATA_7 ∧
    (SpecificInstruction.Increase.exec DATA_7
        (SpecificInstruction.Decrease.exec DATA_7 machineSlot7)).get DATA_7
      = machineSlot7.get DATA_7 ∧
    (SpecificInstruction.Increase.exec DATA_7
        (SpecificInstruction.Decrease.exec DATA_7 machineSlot7)).reg
      = machineSlot7.get DATA_7 :=
  increase_decrease_roundtrip DATA_7 machineSlot7 rfl (by decide) (by decide) (by decide)

/-! ## A line written to a word -/

/-- The word that `writeLineToRam` leaves at `address`, in a well-formed RAM: the word of
`writeBits` on the word that was there; every other slot is as before. -/
theorem writeLineToRam_result (r : Ram) (cs : List Char) (address : Nat)
    (haddr : address < 2 * RAM_SIZE) (hwf : r.WellFormed) :
    ∃ r1, writeLineToRam r cs address = some r1 ∧
      r1.slot address = writeBits cs 0 (r.slot address) ∧
      (r.slot address).length = WORD_SIZE ∧
      ∀ n, n ≠ address → r1.slot n = r.slot n := by
  obtain ⟨hcl, hdl, hcw, hdw⟩ := hwf
  unfold writeLineToRam
  by_cases hc : address < RAM_SIZE
  · have hw : r.code[address]? = some (r.slot address) := by
      rw [slot_code r address hc, List.getD_eq_getElem?_getD,
        List.getElem?_eq_getElem (by omega)]
      rfl
    have hlen : (r.slot address).length = WORD_SIZE := by
      obtain ⟨hlt, he⟩ := List.getElem?_eq_some.mp hw
      rw [← he]
      exact hcw _ (List.getElem_mem _)
    rw [writeLineToRamLoop_code address hc cs 0 r _ (by decide) hw hlen]
    refine ⟨_, rfl, ?_, hlen, ?_⟩
    · rw [slot_code _ address hc, List.getD_eq_getElem?_getD]
      simp only []
      rw [List.getElem?_set_self (by omega)]
      rfl
    · intro n hn
      unfold Ram.slot
      simp only []
      split
      · simp only [List.getD_eq_getElem?_getD, List.getElem?_set_ne (Ne.symm hn)]
      · rfl
  · have hw : r.data[address - RAM_SIZE]? = some (r.slot address) := by
      rw [slot_data r address hc, List.getD_eq_getElem?_getD,
        List.getElem?_eq_getElem (by omega)]
      rfl
    have hlen : (r.slot address).length = WORD_SIZE := by
      obtain ⟨hlt, he⟩ := List.getElem?_eq_some.mp hw
      rw [← he]
      exact hdw _ (List.getElem_mem _)
    rw [writeLineToRamLoop_data address hc cs 0 r _ (by decide) hw hlen]
    refine ⟨_, rfl, ?_, hlen, ?_⟩
    · rw [slot_data _ address hc, List.getD_eq_getElem?_getD]
      simp only []
      rw [List.getElem?_set_self (by omega)]
      rfl
    · intro n hn
      unfold Ram.slot
      simp only []
      split
      · rfl
      · next hnc =>
        have hne : address - RAM_SIZE ≠ n - RAM_SIZE := by omega
        simp only [List.getD_eq_getElem?_getD, List.getElem?_set_ne hne]

theorem wordOfLine_getElem? (cs : List Char) (j : Nat) (hj : j < WORD_SIZE) :
    (wordOfLine cs)[j]? = some (decide (cs[j]? = some '*')) := by
  unfold wordOfLine
  rw [List.getElem?_map, List.getElem?_range hj, Option.map_some']

theorem wordOfLine_take (cs : List Char) : wordOfLine (cs.take WORD_SIZE) = wordOfLine cs := by
  apply List.ext_getElem?
  intro j
  by_cases hj : j < WORD_SIZE
  · rw [wordOfLine_getElem? _ j hj, wordOfLine_getElem? _ j hj, List.getElem?_take, if_pos hj]
  · rw [List.getElem?_eq_none (by rw [wordOfLine_length]; omega),
      List.getElem?_eq_none (by rw [wordOfLine_length]; omega)]

/-- C21: at a call of `writeLineToRam` as the load makes it, on a well-formed RAM and a
slot `address` below `2 * RAM_SIZE` that is still empty, a line of length `L` leaves in the
slot the word of the first `WORD_SIZE` characters of the line alone: bit `j` is set exactly
when the line has a character `j` and it is a star, so for `L < WORD_SIZE` the bits at the
positions `L .. WORD_SIZE-1` are 0.  Every other slot is unchanged. -/
theorem writeLineToRam_word (r : Ram) (cs : List Char) (address : Nat)
    (haddr : address < 2 * RAM_SIZE) (hwf : r.WellFormed)
    (hempty : r.slot address = EMPTY_WORD) :
    ∃ r1, writeLineToRam r cs address = some r1 ∧
      r1.slot address = wordOfLine (cs.take WORD_SIZE) ∧
      (∀ j, j < WORD_SIZE → (r1.slot address)[j]? = some (decide (cs[j]? = some '*'))) ∧
      (∀ j, cs.length ≤ j → j < WORD_SIZE → (r1.slot address)[j]? = some false) ∧
      (∀ n, n ≠ address → r1.slot n = r.slot n) := by
  obtain ⟨r1, hr1, _, hslot, hothers⟩ := writeLineToRam_slot r cs address haddr hwf hempty
  refine ⟨r1, hr1, ?_, ?_, ?_, hothers⟩
  · rw [hslot, wordOfLine_take]
  · intro j hj
    rw [hslot, wordOfLine_getElem? cs j hj]
  · intro j hL hj
    rw [hslot, wordOfLine_getElem? cs j hj, List.getElem?_eq_none hL]
    rfl

theorem writeLineToRam_word_witness :
    ∃ r1, writeLineToRam Ram.empty ['*', '-', '*'] 16 = some r1 ∧
      r1.slot 16 = wordOfLine (['*', '-', '*'].take WORD_SIZE) ∧
      (∀ j, j < WORD_SIZE →
        (r1.slot 16)[j]? = some (decide (['*', '-', '*'][j]? = some '*'))) ∧
      (∀ j, ['*', '-', '*'].length ≤ j → j < WORD_SIZE → (r1.slot 16)[j]? = some false) ∧
      (∀ n, n ≠ 16 → r1.slot n = Ram.empty.slot n) :=
  writeLineToRam_word Ram.empty ['*', '-', '*'] 16 (by decide) ram_empty_wellFormed
    (by decide)

/-! ## The cursor -/

/-- C23: each of the four cursor moves changes its coordinate of the active space by one
when the cursor is not at the corresponding edge and does nothing at the edge; the other
coordinate, the coordinates of the other space, the active space and the RAM are as
before.  Stated for a cursor in CODE and for a cursor in DATA. -/
theorem cursor_moves (r : Ram) (cx cy dx dy : Nat) :
    Cursor.increaseX ⟨r, .CODE, cx, cy, dx, dy⟩
      = ⟨r, .CODE, if cx ≥ WORD_SIZE - 1 then cx else cx + 1, cy, dx, dy⟩ ∧
    Cursor.decreaseX ⟨r, .CODE, cx, cy, dx, dy⟩
      = ⟨r, .CODE, if cx ≤ 0 then cx else cx - 1, cy, dx, dy⟩ ∧
    Cursor.increaseY ⟨r, .CODE, cx, cy, dx, dy⟩
      = ⟨r, .CODE, cx, if cy ≥ RAM_SIZE - 1 then cy else cy + 1, dx, dy⟩ ∧
    Cursor.decreaseY ⟨r, .CODE, cx, cy, dx, dy⟩
      = ⟨r, .CODE, cx, if cy ≤ 0 then cy else cy - 1, dx, dy⟩ ∧
    Cursor.increaseX ⟨r, .DATA, cx, cy, dx, dy⟩
      = ⟨r, .DATA, cx, cy, if dx ≥ WORD_SIZE - 1 then dx else dx + 1, dy⟩ ∧
    Cursor.decreaseX ⟨r, .DATA, cx, cy, dx, dy⟩
      = ⟨r, .DATA, cx, cy, if dx ≤ 0 then dx else dx - 1, dy⟩ ∧
    Cursor.increaseY ⟨r, .DATA, cx, cy, dx, dy⟩
      = ⟨r, .DATA, cx, cy, dx, if dy ≥ RAM_SIZE - 1 then dy else dy + 1⟩ ∧
    Cursor.decreaseY ⟨r, .DATA, cx, cy, dx, dy⟩
      = ⟨r, .DATA, cx, cy, dx, if dy ≤ 0 then dy else dy - 1⟩ := by
  refine ⟨?_, ?_, ?_, ?_, ?_, ?_, ?_, ?_⟩ <;>
  · simp only [Cursor.increaseX, Cursor.decreaseX, Cursor.increaseY, Cursor.decreaseY,
      Cursor.getBitIndex, Cursor.getX, Cursor.getAddr, Cursor.getY, Cursor.setBitIndex,
      Cursor.setAddr, Cursor.setByteIndex, decide_eq_true_eq]
    split <;> rfl

/-- C24: `switchAddressSpace` makes DATA the active space when it was CODE and CODE
otherwise; the RAM and the stored (bit index, word index) pairs of both spaces are
unchanged, and two switches from CODE or from DATA give back the cursor. -/
theorem switchAddressSpace_spec (r : Ram) (cx cy dx dy : Nat) :
    Cursor.switchAddressSpace ⟨r, .CODE, cx, cy, dx, dy⟩ = ⟨r, .DATA, cx, cy, dx, dy⟩ ∧
    Cursor.switchAddressSpace ⟨r, .DATA, cx, cy, dx, dy⟩ = ⟨r, .CODE, cx, cy, dx, dy⟩ ∧
    Cursor.switchAddressSpace ⟨r, .NONE, cx, cy, dx, dy⟩ = ⟨r, .CODE, cx, cy, dx, dy⟩ ∧
    Cursor.switchAddressSpace (Cursor.switchAddressSpace ⟨r, .CODE, cx, cy, dx, dy⟩)
      = ⟨r, .CODE, cx, cy, dx, dy⟩ ∧
    Cursor.switchAddressSpace (Cursor.switchAddressSpace ⟨r, .DATA, cx, cy, dx, dy⟩)
      = ⟨r, .DATA, cx, cy, dx, dy⟩ :=
  ⟨rfl, rfl, rfl, rfl, rfl⟩

theorem getX_lt (c : Cursor) (h : c.InRange) : c.getX < WORD_SIZE := by
  obtain ⟨r, sp, cx, cy, dx, dy⟩ := c
  obtain ⟨h1, _, h3, _⟩ := h
  cases sp
  · exact h1
  · exact h3
  · exact Nat.succ_pos _

theorem getY_lt (c : Cursor) (h : c.InRange) : c.getY < RAM_SIZE := by
  obtain ⟨r, sp, cx, cy, dx, dy⟩ := c
  obtain ⟨_, h2, _, h4⟩ := h
  cases sp
  · exact h2
  · exact h4
  · exact Nat.succ_pos _

theorem setBitIndex_inRange (c : Cursor) (n : Nat) (h : c.InRange) (hn : n < WORD_SIZE) :
    (c.setBitIndex n).InRange := by
  obtain ⟨r, sp, cx, cy, dx, dy⟩ := c
  obtain ⟨h1, h2, h3, h4⟩ := h
  cases sp
  · exact ⟨hn, h2, h3, h4⟩
  · exact ⟨h1, h2, hn, h4⟩
  · exact ⟨h1, h2, h3, h4⟩

theorem setByteIndex_inRange (c : Cursor) (n : Nat) (h : c.InRange) (hn : n < RAM_SIZE) :
    (c.setByteIndex n).InRange := by
  obtain ⟨r, sp, cx, cy, dx, dy⟩ := c
  obtain ⟨h1, h2, h3, h4⟩ := h
  cases sp
  · exact ⟨h1, hn, h3, h4⟩
  · exact ⟨h1, h2, h3, hn⟩
  · exact ⟨h1, h2, h3, h4⟩

theorem setWord_inRange (c : Cursor) (w : Word) (h : c.InRange) : (c.setWord w).InRange := h

theorem increaseX_inRange (c : Cursor) (h : c.InRange) : c.increaseX.InRange := by
  unfold Cursor.increaseX
  simp only [decide_eq_true_eq]
  split
  · exact h
  · exact setBitIndex_inRange c _ h (by
      have := getX_lt c h
      unfold Cursor.getBitIndex at *
      simp only [WORD_SIZE] at *
      omega)

theorem decreaseX_inRange (c : Cursor) (h : c.InRange) : c.decreaseX.InRange := by
  unfold Cursor.decreaseX
  simp only [decide_eq_true_eq]
  split
  · exact h
  · exact setBitIndex_inRange c _ h (by
      have := getX_lt c h
      unfold Cursor.getBitIndex at *
      omega)

theorem increaseY_inRange (c : Cursor) (h : c.InRange) : c.increaseY.InRange := by
  unfold Cursor.increaseY
  simp only [decide_eq_true_eq]
  split
  · exact h
  · exact setByteIndex_inRange c _ h (by
      have := getY_lt c h
      unfold Cursor.getAddr at *
      simp only [RAM_SIZE] at *
      omega)

theorem decreaseY_inRange (c : Cursor) (h : c.InRange) : c.decreaseY.InRange := by
  unfold Cursor.decreaseY
  simp only [decide_eq_true_eq]
  split
  · exact h
  · exact setByteIndex_inRange c _ h (by
      have := getY_lt c h
      unfold Cursor.getAddr at *
      omega)

/-- The cursor operations other than the two jumps to an address keep the coordinates of
both spaces in range; `goToAddress` does when the index of the address is below
`RAM_SIZE`. -/
theorem cursor_operations_in_range (c : Cursor) (h : c.InRange) :
    c.increaseX.InRange ∧ c.increaseY.InRange ∧ c.decreaseX.InRange ∧ c.decreaseY.InRange ∧
    c.goToEndOfWord.InRange ∧ c.goToBeginningOfWord.InRange ∧
    c.goToBeginningOfNextWord.InRange ∧ c.moveByteUp.InRange ∧ c.moveByteDown.InRange ∧
    c.switchAddressSpace.InRange ∧
    (∀ adr : Address, getInt adr.val < RAM_SIZE → (c.goToAddress adr).InRange) := by
  refine ⟨increaseX_inRange c h, increaseY_inRange c h, decreaseX_inRange c h,
    decreaseY_inRange c h, ?_, ?_, ?_, ?_, ?_, ?_, ?_⟩
  · unfold Cursor.goToEndOfWord
    apply setBitIndex_inRange _ _ _ (by decide)
    split
    · exact increaseY_inRange c h
    · exact h
  · unfold Cursor.goToBeginningOfWord
    apply setBitIndex_inRange _ _ _ (by decide)
    split
    · exact decreaseY_inRange c h
    · exact h
  · unfold Cursor.goToBeginningOfNextWord
    split
    · exact setBitIndex_inRange _ _ h (by decide)
    · exact setBitIndex_inRange _ _ (increaseY_inRange c h) (by decide)
  · unfold Cursor.moveByteUp
    simp only []
    split
    · exact h
    · exact decreaseY_inRange _ (setWord_inRange _ _ (increaseY_inRange _
        (setWord_inRange _ _ (decreaseY_inRange c h))))
  · unfold Cursor.moveByteDown
    simp only []
    split
    · exact h
    · exact increaseY_inRange _ (setWord_inRange _ _ (decreaseY_inRange _
        (setWord_inRange _ _ (increaseY_inRange c h))))
  · unfold Cursor.switchAddressSpace
    split <;> exact h
  · intro adr hadr
    unfold Cursor.goToAddress
    exact setByteIndex_inRange _ _ (setBitIndex_inRange _ _ h (by decide)) hadr

/-- C22, at the failing input: from a cursor with all coordinates in range,
`goToAddress(Address(DATA, LAST_ADDRESS))` leaves the word index of DATA at `RAM_SIZE`,
outside the range; so does `goToInstructionsAddress` with the cursor on the CODE word of
`Write` to the last address. -/
theorem goToAddress_last_address_out_of_range :
    cursorWriteLast.InRange ∧
    (cursorWriteLast.goToAddress ⟨.DATA, LAST_ADDRESS⟩).dataY = RAM_SIZE ∧
    ¬ (cursorWriteLast.goToAddress ⟨.DATA, LAST_ADDRESS⟩).InRange ∧
    cursorWriteLast.getWord = WRITE_LAST ∧
    getInstruction WRITE_LAST = .Write ∧
    cursorWriteLast.goToInstructionsAddress.addrSpace = .DATA ∧
    cursorWriteLast.goToInstructionsAddress.dataY = RAM_SIZE ∧
    ¬ cursorWriteLast.goToInstructionsAddress.InRange := by
  refine ⟨?_, by decide, ?_, by decide, by decide, by decide, by decide, ?_⟩
  · unfold Cursor.InRange
    decide
  · unfold Cursor.InRange
    decide
  · unfold Cursor.InRange
    decide

/-! ## Moving a word up and down -/

/-- The two words at `i` and `j` of a list change places. -/
theorem swap_swap (ws : List Word) (i j : Nat) (hi : i < ws.length) (hj : j < ws.length)
    (hij : i ≠ j) :
    (((ws.set i (ws.getD j EMPTY_WORD)).set j (ws.getD i EMPTY_WORD)).set j
        (((ws.set i (ws.getD j EMPTY_WORD)).set j (ws.getD i EMPTY_WORD)).getD i EMPTY_WORD)).set i
      (((ws.set i (ws.getD j EMPTY_WORD)).set j (ws.getD i EMPTY_WORD)).getD j EMPTY_WORD)
      = ws := by
  apply List.ext_getElem?
  intro n
  simp only [List.getD_eq_getElem?_getD, List.getElem?_set, List.length_set]
  by_cases h1 : i = n
  · subst h1
    simp [hi, hj, hij, Ne.symm hij, List.getElem?_eq_getElem hi]
  · by_cases h2 : j = n
    · subst h2
      simp [hi, hj, hij, Ne.symm hij, List.getElem?_eq_getElem hj]
    · simp [h1, h2]

theorem moveByteUp_data (r : Ram) (cx cy dx y : Nat) (h0 : 0 < y) (hy : y < RAM_SIZE) :
    Cursor.moveByteUp ⟨r, .DATA, cx, cy, dx, y⟩
      = ⟨⟨r.code, (r.data.set (y - 1) (r.data.getD y EMPTY_WORD)).set y
            (r.data.getD (y - 1) EMPTY_WORD)⟩, .DATA, cx, cy, dx, y - 1⟩ := by
  have hn1 : getInt (getBoolNibb ((y : Nat) : Int)) = y :=
    getInt_getBoolNibb y (by simp only [RAM_SIZE] at hy; omega)
  have hn2 : getInt (getBoolNibb (((y - 1 : Nat) : Nat) : Int)) = y - 1 :=
    getInt_getBoolNibb (y - 1) (by simp only [RAM_SIZE] at hy; omega)
  have hn3 : y - 1 + 1 = y := by omega
  have e1 : ¬ y ≤ 0 := by omega
  have e2 : ¬ y - 1 ≥ RAM_SIZE - 1 := by simp only [RAM_SIZE] at *; omega
  have e3 : ¬ y ≤ 0 := e1
  simp only [Cursor.moveByteUp, Cursor.moveByteDown, Cursor.getAddr, Cursor.getY,
    Cursor.decreaseY, Cursor.increaseY, Cursor.setAddr, Cursor.setByteIndex, Cursor.getWord,
    Cursor.setWord, Cursor.getAddress, Ram.get, Ram.set, Ram.words, Ram.setWords,
    decide_eq_true_eq, e1, e2, e3, if_false, hn1, hn2, hn3]

theorem moveByteUp_code (r : Ram) (cx y dx dy : Nat) (h0 : 0 < y) (hy : y < RAM_SIZE) :
    Cursor.moveByteUp ⟨r, .CODE, cx, y, dx, dy⟩
      = ⟨⟨(r.code.set (y - 1) (r.code.getD y EMPTY_WORD)).set y
            (r.code.getD (y - 1) EMPTY_WORD), r.data⟩, .CODE, cx, y - 1, dx, dy⟩ := by
  have hn1 : getInt (getBoolNibb ((y : Nat) : Int)) = y :=
    getInt_getBoolNibb y (by simp only [RAM_SIZE] at hy; omega)
  have hn2 : getInt (getBoolNibb (((y - 1 : Nat) : Nat) : Int)) = y - 1 :=
    getInt_getBoolNibb (y - 1) (by simp only [RAM_SIZE] at hy; omega)
  have hn3 : y - 1 + 1 = y := by omega
  have e1 : ¬ y ≤ 0 := by omega
  have e2 : ¬ y - 1 ≥ RAM_SIZE - 1 := by simp only [RAM_SIZE] at *; omega
  have e3 : ¬ y ≤ 0 := e1
  simp only [Cursor.moveByteUp, Cursor.moveByteDown, Cursor.getAddr, Cursor.getY,
    Cursor.decreaseY, Cursor.increaseY, Cursor.setAddr, Cursor.setByteIndex, Cursor.getWord,
    Cursor.setWord, Cursor.getAddress, Ram.get, Ram.set, Ram.words, Ram.setWords,
    decide_eq_true_eq, e1, e2, e3, if_false, hn1, hn2, hn3]

theorem moveByteDown_data (r : Ram) (cx cy dx y : Nat) (hy : y < RAM_SIZE - 1) :
    Cursor.moveByteDown ⟨r, .DATA, cx, cy, dx, y⟩
      = ⟨⟨r.code, (r.data.set (y + 1) (r.data.getD y EMPTY_WORD)).set y
            (r.data.getD (y + 1) EMPTY_WORD)⟩, .DATA, cx, cy, dx, y + 1⟩ := by
  have hn1 : getInt (getBoolNibb ((y : Nat) : Int)) = y :=
    getInt_getBoolNibb y (by simp only [RAM_SIZE] at hy; omega)
  have hn2 : getInt (getBoolNibb (((y + 1 : Nat) : Nat) : Int)) = y + 1 :=
    getInt_getBoolNibb (y + 1) (by simp only [RAM_SIZE] at hy; omega)
  have hn3 : y + 1 - 1 = y := by omega
  have e1 : ¬ y ≥ RAM_SIZE - 1 := by omega
  have e2 : ¬ y + 1 ≤ 0 := by omega
  have e3 : ¬ y ≥ RAM_SIZE - 1 := e1
  simp only [Cursor.moveByteUp, Cursor.moveByteDown, Cursor.getAddr, Cursor.getY,
    Cursor.decreaseY, Cursor.increaseY, Cursor.setAddr, Cursor.setByteIndex, Cursor.getWord,
    Cursor.setWord, Cursor.getAddress, Ram.get, Ram.set, Ram.words, Ram.setWords,
    decide_eq_true_eq, e1, e2, e3, if_false, hn1, hn2, hn3]

theorem moveByteDown_code (r : Ram) (cx y dx dy : Nat) (hy : y < RAM_SIZE - 1) :
    Cursor.moveByteDown ⟨r, .CODE, cx, y, dx, dy⟩
      = ⟨⟨(r.code.set (y + 1) (r.code.getD y EMPTY_WORD)).set y
            (r.code.getD (y + 1) EMPTY_WORD), r.data⟩, .CODE, cx, y + 1, dx, dy⟩ := by
  have hn1 : getInt (getBoolNibb ((y : Nat) : Int)) = y :=
    getInt_getBoolNibb y (by simp only [RAM_SIZE] at hy; omega)
  have hn2 : getInt (getBoolNibb (((y + 1 : Nat) : Nat) : Int)) = y + 1 :=
    getInt_getBoolNibb (y + 1) (by simp only [RAM_SIZE] at hy; omega)
  have hn3 : y + 1 - 1 = y := by omega
  have e1 : ¬ y ≥ RAM_SIZE - 1 := by omega
  have e2 : ¬ y + 1 ≤ 0 := by omega
  have e3 : ¬ y ≥ RAM_SIZE - 1 := e1
  simp only [Cursor.moveByteUp, Cursor.moveByteDown, Cursor.getAddr, Cursor.getY,
    Cursor.decreaseY, Cursor.increaseY, Cursor.setAddr, Cursor.setByteIndex, Cursor.getWord,
    Cursor.setWord, Cursor.getAddress, Ram.get, Ram.set, Ram.words, Ram.setWords,
    decide_eq_true_eq, e1, e2, e3, if_false, hn1, hn2, hn3]

/-- C25 (amended): with the cursor at a word index `y` of CODE or DATA, `moveByteUp` for
`y > 0` puts the word of slot `y` into slot `y - 1` and the word of slot `y - 1` into slot
`y`, leaves every other word and the other space as they were and moves the cursor to
`y - 1`; at `y = 0` it changes nothing.  `moveByteDown` does the same with `y + 1` for
`y < RAM_SIZE - 1` and changes nothing at `y = RAM_SIZE - 1`.  For `y > 0`, `moveByteUp`
followed by `moveByteDown` gives back RAM and cursor. -/
theorem moveByte_exchanges (c : Cursor) (hsp : c.addrSpace ≠ .NONE) (hy : c.getY < RAM_SIZE)
    (hlen : (c.ram.words c.addrSpace).length = RAM_SIZE) :
    (0 < c.getY → c.moveByteUp =
      (Cursor.mk (c.ram.setWords c.addrSpace
          (((c.ram.words c.addrSpace).set (c.getY - 1)
              ((c.ram.words c.addrSpace).getD c.getY EMPTY_WORD)).set c.getY
            ((c.ram.words c.addrSpace).getD (c.getY - 1) EMPTY_WORD)))
        c.addrSpace c.codeX c.codeY c.dataX c.dataY).setAddr (c.getY - 1)) ∧
    (c.getY = 0 → c.moveByteUp = c) ∧
    (c.getY < RAM_SIZE - 1 → c.moveByteDown =
      (Cursor.mk (c.ram.setWords c.addrSpace
          (((c.ram.words c.addrSpace).set (c.getY + 1)
              ((c.ram.words c.addrSpace).getD c.getY EMPTY_WORD)).set c.getY
            ((c.ram.words c.addrSpace).getD (c.getY + 1) EMPTY_WORD)))
        c.addrSpace c.codeX c.codeY c.dataX c.dataY).setAddr (c.getY + 1)) ∧
    (c.getY = RAM_SIZE - 1 → c.moveByteDown = c) ∧
    (0 < c.getY → c.moveByteUp.moveByteDown = c) := by
  obtain ⟨r, sp, cx, cy, dx, dy⟩ := c
  cases sp
  · simp only [Cursor.getY, Ram.words] at hy hlen ⊢
    refine ⟨fun h0 => ?_, fun h0 => ?_, fun h1 => ?_, fun h1 => ?_, fun h0 => ?_⟩
    · rw [moveByteUp_code r cx cy dx dy h0 hy]
      rfl
    · subst h0
      rfl
    · rw [moveByteDown_code r cx cy dx dy h1]
      rfl
    · subst h1
      rfl
    · rw [moveByteUp_code r cx cy dx dy h0 hy,
        moveByteDown_code _ cx (cy - 1) dx dy (by simp only [RAM_SIZE] at *; omega)]
      have e : cy - 1 + 1 = cy := by omega
      simp only [e]
      rw [swap_swap r.code (cy - 1) cy (by omega) (by omega) (by omega)]
  · simp only [Cursor.getY, Ram.words] at hy hlen ⊢
    refine ⟨fun h0 => ?_, fun h0 => ?_, fun h1 => ?_, fun h1 => ?_, fun h0 => ?_⟩
    · rw [moveByteUp_data r cx cy dx dy h0 hy]
      rfl
    · subst h0
      rfl
    · rw [moveByteDown_data r cx cy dx dy h1]
      rfl
    · subst h1
      rfl
    · rw [moveByteUp_data r cx cy dx dy h0 hy,
        moveByteDown_data _ cx cy dx (dy - 1) (by simp only [RAM_SIZE] at *; omega)]
      have e : dy - 1 + 1 = dy := by omega
      simp only [e]
      rw [swap_swap r.data (dy - 1) dy (by omega) (by omega) (by omega)]
  · exact absurd rfl hsp

theorem moveByte_exchanges_witness :
    cursorSecond.moveByteUp = ⟨mkRam [] [WORD_255, WORD_1], .DATA, 0, 0, 3, 0⟩ ∧
    cursorSecond.moveByteUp.moveByteDown = cursorSecond := by
  have h := moveByte_exchanges cursorSecond (by decide) (by decide) (by decide)
  refine ⟨?_, h.2.2.2.2 (by decide)⟩
  rw [h.1 (by decide)]
  decide

/-- C25, as stated, fails: with the cursor at word index 0, `moveByteUp` changes nothing
and the `moveByteDown` that follows exchanges the words 0 and 1 and moves the cursor to 1:
the two together do not give back RAM and cursor. -/
theorem moveByte_top_counterexample :
    cursorTop.getY = 0 ∧ cursorTop.ram.WellFormed ∧
    cursorTop.moveByteUp = cursorTop ∧
    cursorTop.moveByteUp.moveByteDown = ⟨mkRam [] [WORD_255, WORD_1], .DATA, 0, 0, 3, 1⟩ ∧
    cursorTop.moveByteUp.moveByteDown ≠ cursorTop := by
  refine ⟨by decide, ?_, by decide, by decide, by decide⟩
  unfold Ram.WellFormed
  decide

/-! ## A delete repeated on a used slot -/

theorem getEffectiveInstructions_set_data (r : Ram) (adr : Address) (w : Word)
    (h : adr.space ≠ .CODE) :
    getEffectiveInstructions (r.set adr w) = getEffectiveInstructions r := by
  have hcode : (r.set adr w).code = r.code := by
    unfold Ram.set Ram.setWords
    cases hs : adr.space
    · exact absurd hs h
    · rfl
    · rfl
  unfold getEffectiveInstructions getAllInstructions
  rw [hcode]

/-- The effective instructions after a CODE slot was cleared: the empty word, or
instructions that were effective before. -/
theorem mem_effective_set_empty (r : Ram) (adr : Address) (x : Word)
    (h : x ∈ getEffectiveInstructions (r.set adr EMPTY_WORD)) :
    x = EMPTY_WORD ∨ x ∈ getEffectiveInstructions r := by
  by_cases hs : adr.space = .CODE
  · have hcode : (r.set adr EMPTY_WORD).code = r.code.set (getInt adr.val) EMPTY_WORD := by
      unfold Ram.set Ram.setWords
      rw [hs]
      rfl
    rw [mem_effective_iff] at h
    obtain ⟨j, hj, hx⟩ := h
    rw [hcode] at hj hx
    have hle : (getIndexOfLastNonEmptyInst (r.code.set (getInt adr.val) EMPTY_WORD) + 1).toNat
        ≤ (getIndexOfLastNonEmptyInst r.code + 1).toNat := by
      apply effCount_le_of_empty_past
      intro k w hk hw
      rw [List.getElem?_set] at hw
      split at hw
      · split at hw
        · exact (Option.some.inj hw).symm
        · cases hw
      · exact empty_past_effCount r.code k w hk hw
    rw [List.getElem?_set] at hx
    split at hx
    · split at hx
      · exact Or.inl (Option.some.inj hx).symm
      · cases hx
    · exact Or.inr ((mem_effective_iff r x).2 ⟨j, by omega, hx⟩)
  · rw [getEffectiveInstructions_set_data r adr EMPTY_WORD hs] at h
    exact Or.inr h

theorem get_set_same (r : Ram) (adr : Address) (w : Word)
    (hlen : getInt adr.val < (r.words adr.space).length) : (r.set adr w).get adr = w := by
  unfold Ram.get Ram.set
  rw [words_setWords]
  have hsp : adr.space ≠ .NONE := by
    intro h
    rw [h] at hlen
    exact absurd hlen (by simp [Ram.words])
  rw [if_pos ⟨rfl, hsp⟩, List.getD_eq_getElem?_getD, List.getElem?_set_self hlen]
  rfl

/-- After the word of an unreferenced slot was cleared, the slot is not used. -/
theorem addressUsed_set_empty (r : Ram) (adr : Address)
    (hlen : getInt adr.val < (r.words adr.space).length)
    (href : addressReferenced r adr = false) :
    addressUsed (r.set adr EMPTY_WORD) adr = false := by
  have hnot : adr ∉ List.map backAdr (getEffectiveInstructions r) := by
    unfold addressReferenced getAddressesOfEffectiveInstructions at href
    simpa using href
  have hnot2 : adr ∉ List.map backAdr (getEffectiveInstructions (r.set adr EMPTY_WORD)) := by
    intro hmem
    obtain ⟨x, hx, hxa⟩ := List.mem_map.1 hmem
    rcases mem_effective_set_empty r adr x hx with he | hold
    · by_cases hs : adr.space = .CODE
      · rw [he] at hxa
        have : (backAdr EMPTY_WORD).space = .DATA := by decide
        rw [hxa, hs] at this
        cases this
      · rw [getEffectiveInstructions_set_data r adr EMPTY_WORD hs] at hx
        exact hnot (List.mem_map.2 ⟨x, hx, hxa⟩)
    · exact hnot (List.mem_map.2 ⟨x, hold, hxa⟩)
  unfold addressUsed addressReferenced getAddressesOfEffectiveInstructions
  simp only []
  rw [get_set_same r adr EMPTY_WORD hlen]
  simp [hnot2]

theorem shouldNotModifyData_set_data (r : Ram) (adr : Address) (w : Word) ( ins : Bool)
    (y : Nat) (h : adr.space ≠ .CODE) :
    shouldNotModifyData (r.set adr w) ins y = shouldNotModifyData r ins y := by
  unfold shouldNotModifyData
  rw [getEffectiveInstructions_set_data r adr w h]

theorem set_words_length (r : Ram) (adr : Address) (w : Word) (sp : AddrSpace) :
    ((r.set adr w).words sp).length = (r.words sp).length := by
  unfold Ram.set
  rw [words_setWords]
  split
  · next h =>
    rw [h.1, List.length_set]
  · rfl

/-- C29: for a slot `A` of CODE or DATA whose word is not empty, which no effective
instruction references and which no logic binding blocks, the first delete at `A`
returns false and only sets slot `A` to the empty word; the delete repeated at once
returns true, puts into every slot `j` with `A <= j < RAM_SIZE - 1` the word that slot
`j + 1` held just before the shift (after the operand patching, which leaves DATA as it
is) and empties the last slot. -/
theorem delete_twice (r : Ram) (adr : Address) (hwf : r.WellFormed) (hsp : adr.space ≠ .NONE)
    (hA : getInt adr.val < RAM_SIZE) (hne : r.get adr ≠ EMPTY_WORD)
    (href : addressReferenced r adr = false)
    (hb : ¬ (adr.space = .DATA ∧ shouldNotModifyData r false (getInt adr.val) ≠ 0)) :
    deleteByteAndMoveRestUp r adr = (false, r.set adr EMPTY_WORD) ∧
    (deleteByteAndMoveRestUp (r.set adr EMPTY_WORD) adr).1 = true ∧
    (∀ j, getInt adr.val ≤ j → j < RAM_SIZE - 1 →
      ((deleteByteAndMoveRestUp (r.set adr EMPTY_WORD) adr).2.words adr.space)[j]?
        = ((incOrDecAddressesPastTheIndex (r.set adr EMPTY_WORD) adr.space (getInt adr.val)
            (-1)).words adr.space)[j + 1]?) ∧
    ((deleteByteAndMoveRestUp (r.set adr EMPTY_WORD) adr).2.words adr.space)[RAM_SIZE - 1]?
      = some EMPTY_WORD ∧
    (∀ j, getInt adr.val ≤ j →
      ((incOrDecAddressesPastTheIndex (r.set adr EMPTY_WORD) adr.space (getInt adr.val)
            (-1)).words .DATA)[j + 1]? = (r.words .DATA)[j + 1]?) := by
  have hlen : (r.words adr.space).length = RAM_SIZE := wellFormed_words_length r hwf _ hsp
  have hused : addressUsed r adr = true := by
    unfold addressUsed
    simp [hne]
  have hfirst : deleteByteAndMoveRestUp r adr = (false, r.set adr EMPTY_WORD) := by
    unfold deleteByteAndMoveRestUp shouldNotModifyDelete
    rw [if_neg hb]
    simp only [hused, if_true]
  have hb2 : ¬ (adr.space = .DATA ∧
      shouldNotModifyData (r.set adr EMPTY_WORD) false (getInt adr.val) ≠ 0) := by
    intro hc
    apply hb
    refine ⟨hc.1, ?_⟩
    rw [← shouldNotModifyData_set_data r adr EMPTY_WORD false _ (by rw [hc.1]; decide)]
    exact hc.2
  have hunused : addressUsed (r.set adr EMPTY_WORD) adr = false :=
    addressUsed_set_empty r adr (by omega) href
  have hsecond : deleteByteAndMoveRestUp (r.set adr EMPTY_WORD) adr
      = (true, actuallyDelete (incOrDecAddressesPastTheIndex (r.set adr EMPTY_WORD) adr.space
          (getInt adr.val) (-1)) adr) := by
    unfold deleteByteAndMoveRestUp shouldNotModifyDelete
    rw [if_neg hb2]
    simp only [hunused]
    rfl
  have hlen2 : ((incOrDecAddressesPastTheIndex (r.set adr EMPTY_WORD) adr.space
      (getInt adr.val) (-1)).words adr.space).length = RAM_SIZE := by
    rw [incOrDec_words_length, set_words_length]
    exact hlen
  refine ⟨hfirst, by rw [hsecond], ?_, ?_, ?_⟩
  · intro j hj1 hj2
    rw [hsecond]
    simp only []
    rw [actuallyDelete_words _ adr hsp hlen2 hA j, if_neg (by omega), if_pos hj1]
  · rw [hsecond]
    simp only []
    rw [actuallyDelete_words _ adr hsp hlen2 hA (RAM_SIZE - 1), if_pos rfl]
  · intro j hj
    rw [incOrDec_words_data]
    by_cases hs : adr.space = .DATA
    · exact words_set_other r adr EMPTY_WORD .DATA (j + 1) (Or.inr (by omega))
    · exact words_set_other r adr EMPTY_WORD .DATA (j + 1) (Or.inl (Ne.symm hs))

theorem delete_twice_witness :
    deleteByteAndMoveRestUp ramThreeWords ⟨.DATA, FIRST_ADDRESS⟩
      = (false, mkRam [] [EMPTY_WORD, WORD_255, JUMP_3]) ∧
    deleteByteAndMoveRestUp (mkRam [] [EMPTY_WORD, WORD_255, JUMP_3]) ⟨.DATA, FIRST_ADDRESS⟩
      = (true, mkRam [] [WORD_255, JUMP_3]) := by
  have h := delete_twice ramThreeWords ⟨.DATA, FIRST_ADDRESS⟩
    (by unfold Ram.WellFormed; decide) (by decide) (by decide) (by decide) (by decide)
    (by decide)
  refine ⟨?_, by decide⟩
  rw [h.1]
  decide

/-! ## An insert discards no word -/


theorem insert_shift_eq (ws res : List Word) (A n : Nat) (E : Word)
    (hlen : ws.length = n + 1) (hA : A ≤ n)
    (hres : ∀ j, res[j]? = if j = A then some E
      else if A < j ∧ j ≤ n then ws[j - 1]? else ws[j]?) :
    res = ws.take A ++ E :: (ws.drop A).take (n - A) := by
  apply List.ext_getElem?
  intro j
  rw [hres j]
  simp only [List.getElem?_append, List.length_take, List.getElem?_take, List.getElem?_cons,
    List.getElem?_drop, hlen]
  split_ifs <;> first | rfl | omega | (congr 1; omega) | (apply List.getElem?_eq_none; omega)

theorem insert_shift_filter (ws res : List Word) (A n : Nat) (E : Word)
    (p : Word → Bool) (hp : p E = false)
    (hlen : ws.length = n + 1) (hA : A ≤ n) (hlast : ws[n]? = some E)
    (hres : ∀ j, res[j]? = if j = A then some E
      else if A < j ∧ j ≤ n then ws[j - 1]? else ws[j]?) :
    res.filter p = ws.filter p := by
  rw [insert_shift_eq ws res A n E hlen hA hres]
  have hdrop : ws.drop n = [E] := by
    obtain ⟨hlt, he⟩ := List.getElem?_eq_some.mp hlast
    rw [List.drop_eq_getElem_cons hlt, he, List.drop_eq_nil_of_le (by omega)]
  have hsplit : ws = ws.take A ++ ((ws.drop A).take (n - A) ++ [E]) := by
    conv_lhs => rw [← List.take_append_drop A ws]
    congr 1
    conv_lhs => rw [← List.take_append_drop (n - A) (ws.drop A)]
    rw [List.drop_drop, show A + (n - A) = n by omega, hdrop]
  conv_rhs => rw [hsplit]
  simp only [List.filter_append, List.filter_cons, hp, List.filter_nil, List.append_nil]
  simp

theorem delete_shift_eq (ws res : List Word) (i n : Nat) (E : Word)
    (hlen : ws.length = n + 1) (hi : i ≤ n)
    (hres : ∀ j, res[j]? = if j = n then some E
      else if i ≤ j then ws[j + 1]? else ws[j]?) :
    res = ws.take i ++ (ws.drop (i + 1) ++ [E]) := by
  apply List.ext_getElem?
  intro j
  rw [hres j]
  simp only [List.getElem?_append, List.length_take, List.getElem?_take, List.getElem?_cons,
    List.getElem?_drop, List.length_drop, hlen]
  split_ifs <;> first
    | rfl
    | omega
    | (congr 1; omega)
    | (apply List.getElem?_eq_none; omega)

theorem delete_shift_filter (ws res : List Word) (i n : Nat) (E : Word)
    (p : Word → Bool) (hp : p E = false)
    (hlen : ws.length = n + 1) (hi : i ≤ n) (hE : ws[i]? = some E)
    (hres : ∀ j, res[j]? = if j = n then some E
      else if i ≤ j then ws[j + 1]? else ws[j]?) :
    res.filter p = ws.filter p := by
  rw [delete_shift_eq ws res i n E hlen hi hres]
  have hsplit : ws = ws.take i ++ (E :: ws.drop (i + 1)) := by
    conv_lhs => rw [← List.take_append_drop i ws]
    congr 1
    obtain ⟨hlt, he⟩ := List.getElem?_eq_some.mp hE
    rw [List.drop_eq_getElem_cons hlt, he]
  conv_rhs => rw [hsplit]
  simp only [List.filter_append, List.filter_cons, hp, List.filter_nil, List.append_nil]
  simp

theorem addressUsed_false_get (r : Ram) (adr : Address) (h : addressUsed r adr = false) :
    r.get adr = EMPTY_WORD := by
  unfold addressUsed at h
  simp only [] at h
  by_contra hne
  rw [if_pos (decide_eq_true hne)] at h
  cases h

/-- The reclaim of a redundant slot before an insert: the slot found has an index `i`
above `A + 1`, is not used, and its delete is done. -/
theorem reclaim_delete (r : Ram) (adr : Address)
    (hb : ¬ (adr.space = .DATA ∧ shouldNotModifyData r true (getInt adr.val) ≠ 0))
    (hr1 : (getLastRedundandAdr r adr.space).space ≠ .NONE)
    (hr2 : getInt adr.val + 1 < getInt (getLastRedundandAdr r adr.space).val) :
    ∃ i : Nat, 1 ≤ i ∧ i ≤ RAM_SIZE - 2 ∧ getInt adr.val + 1 < i ∧
      addressUsed r ⟨adr.space, getBoolNibb i⟩ = false ∧
      (deleteByteAndMoveRestUp r (getLastRedundandAdr r adr.space)).2
        = actuallyDelete (incOrDecAddressesPastTheIndex r adr.space i (-1))
            ⟨adr.space, getBoolNibb i⟩ := by
  have hspec := getLastRedundandAdrLoop_spec r adr.space (RAM_SIZE - 2)
  change (getLastRedundandAdr r adr.space = _ ∧ _) ∨
    (∃ i : Nat, _ ∧ _ ∧ getLastRedundandAdr r adr.space = _ ∧ _) at hspec
  rcases hspec with ⟨h1, _⟩ | ⟨i, hi1, hi2, h3, h4, _, _⟩
  · rw [h1] at hr1
    exact absurd rfl hr1
  · rw [h3] at hr2 ⊢
    have hgi : getInt (getBoolNibb (i : Int)) = i :=
      getInt_getBoolNibb i (by simp only [RAM_SIZE] at hi2; omega)
    rw [show getInt (⟨adr.space, getBoolNibb (i : Int)⟩ : Address).val
      = getInt (getBoolNibb (i : Int)) from rfl, hgi] at hr2
    refine ⟨i, hi1, hi2, hr2, h4, ?_⟩
    unfold deleteByteAndMoveRestUp shouldNotModifyDelete
    have hb2 : ¬ ((⟨adr.space, getBoolNibb (i : Int)⟩ : Address).space = .DATA ∧
        shouldNotModifyData r false (getInt (⟨adr.space, getBoolNibb (i : Int)⟩ : Address).val)
          ≠ 0) := by
      intro hc
      apply hc.2
      show shouldNotModifyData r false (getInt (getBoolNibb (i : Int))) = 0
      rw [hgi]
      apply shouldNotModifyData_delete_of_insert r (getInt adr.val) i (by omega)
      by_contra hne
      exact hb ⟨hc.1, hne⟩
    rw [if_neg hb2]
    simp only [h4]
    show actuallyDelete (incOrDecAddressesPastTheIndex r adr.space
      (getInt (getBoolNibb (i : Int))) (-1)) _ = _
    rw [hgi]

theorem actuallyDelete_words_length (r : Ram) (adr : Address) (sp : AddrSpace) :
    ((actuallyDelete r adr).words sp).length = (r.words sp).length := by
  unfold actuallyDelete
  rw [words_setWords]
  split
  · next h =>
    rw [List.length_set, actuallyDeleteLoop_length, h.1]
  · rfl

theorem getInt_last_index : getInt (getBoolNibb ((RAM_SIZE : Int) - 1)) = RAM_SIZE - 1 := by
  decide

/-- The RAM that the check of a successful insert leaves: the last slot of the space is
empty, and the non-empty words of DATA are those of the RAM before, in order. -/
theorem insert_check_ram (r : Ram) (getY : Nat) (adr : Address) (hwf : r.WellFormed)
    (hsp : adr.space ≠ .NONE) (hA : getInt adr.val < RAM_SIZE)
    (hins : (insertByteAndMoveRestDown r getY adr).1 = true) :
    insertByteAndMoveRestDown r getY adr
      = (true, actuallyInsert (incOrDecAddressesPastTheIndex (shouldNotModify true r adr).2
          adr.space (getInt adr.val) 1) getY adr) ∧
    ((shouldNotModify true r adr).2.words adr.space).length = RAM_SIZE ∧
    ((shouldNotModify true r adr).2.words adr.space)[RAM_SIZE - 1]? = some EMPTY_WORD ∧
    (adr.space = .DATA →
      nonEmptyWords (shouldNotModify true r adr).2.data = nonEmptyWords r.data) := by
  have hlen : (r.words adr.space).length = RAM_SIZE := wellFormed_words_length r hwf _ hsp
  have hsnm : shouldNotModify true r adr = shouldNotModifyInsert r adr := rfl
  rw [hsnm]
  by_cases hb : adr.space = .DATA ∧ shouldNotModifyData r true (getInt adr.val) ≠ 0
  · rw [insert_rejected_result r getY adr (shouldNotModifyInsert_blocked r adr hb)] at hins
    cases hins
  · cases hu : addressUsed r ⟨adr.space, getBoolNibb ((RAM_SIZE : Int) - 1)⟩
    · have hcheck := shouldNotModifyInsert_free r adr hb hu
      rw [hcheck]
      refine ⟨insert_success_result r getY adr r hcheck, hlen, ?_, fun _ => rfl⟩
      have hget := addressUsed_false_get r _ hu
      unfold Ram.get at hget
      simp only [] at hget
      rw [getInt_last_index, List.getD_eq_getElem?_getD,
        List.getElem?_eq_getElem (by omega)] at hget
      show (r.words adr.space)[RAM_SIZE - 1]? = some EMPTY_WORD
      rw [List.getElem?_eq_getElem (by omega)]
      exact congrArg some hget
    · by_cases hr : (getLastRedundandAdr r adr.space).space = .NONE ∨
          getInt (getLastRedundandAdr r adr.space).val ≤ getInt adr.val + 1
      · rw [insert_rejected_result r getY adr (shouldNotModifyInsert_rejected r adr hb hu hr)]
          at hins
        cases hins
      · have hr1 : (getLastRedundandAdr r adr.space).space ≠ .NONE := fun e => hr (Or.inl e)
        have hr2 : getInt adr.val + 1 < getInt (getLastRedundandAdr r adr.space).val := by
          by_contra hc2
          exact hr (Or.inr (not_lt.mp hc2))
        have hcheck := shouldNotModifyInsert_reclaim r adr hb hu hr1 hr2
        obtain ⟨i, hi1, hi2, hi3, hunused, hdel⟩ := reclaim_delete r adr hb hr1 hr2
        have hgi : getInt (getBoolNibb (i : Int)) = i :=
          getInt_getBoolNibb i (by simp only [RAM_SIZE] at hi2; omega)
        have hlenp : ((incOrDecAddressesPastTheIndex r adr.space i (-1)).words
            adr.space).length = RAM_SIZE := by
          rw [incOrDec_words_length]; exact hlen
        have hwords := actuallyDelete_words (incOrDecAddressesPastTheIndex r adr.space i (-1))
          ⟨adr.space, getBoolNibb (i : Int)⟩ hsp hlenp
          (by show getInt (getBoolNibb (i : Int)) < RAM_SIZE; rw [hgi]; omega)
        simp only [] at hwords
        refine ⟨?_, ?_, ?_, ?_⟩
        · rw [hcheck]
          exact insert_success_result r getY adr _ hcheck
        · rw [hcheck]
          simp only []
          rw [hdel]
          have := actuallyDelete_words_length
            (incOrDecAddressesPastTheIndex r adr.space i (-1))
            ⟨adr.space, getBoolNibb (i : Int)⟩ adr.space
          rw [this]
          exact hlenp
        · rw [hcheck]
          simp only []
          rw [hdel, hwords (RAM_SIZE - 1), if_pos rfl]
        · intro hdata
          rw [hcheck]
          simp only []
          rw [hdel]
          rw [hdata] at hwords hunused hlen
          have hE : r.data[i]? = some EMPTY_WORD := by
            have hget := addressUsed_false_get r _ hunused
            unfold Ram.get at hget
            simp only [Ram.words] at hget hlen
            rw [hgi, List.getD_eq_getElem?_getD,
              List.getElem?_eq_getElem (by omega)] at hget
            rw [List.getElem?_eq_getElem (by omega)]
            exact congrArg some hget
          simp only [Ram.words, incOrDec_data] at hwords hlen
          unfold nonEmptyWords
          apply delete_shift_filter r.data _ i (RAM_SIZE - 1) EMPTY_WORD _ (by decide)
            hlen (by omega) hE
          intro j
          rw [hdata]
          have := hwords j
          rw [hgi] at this
          exact this

theorem patched_last_empty (r1 : Ram) (space sp : AddrSpace) (index : Nat) (delta : Int)
    (hsp : sp ≠ .NONE) (hlen : (r1.words sp).length = RAM_SIZE)
    (hlast : (r1.words sp)[RAM_SIZE - 1]? = some EMPTY_WORD) :
    ((incOrDecAddressesPastTheIndex r1 space index delta).words sp)[RAM_SIZE - 1]?
      = some EMPTY_WORD := by
  cases sp
  · simp only [Ram.words] at hlen hlast ⊢
    rw [incOrDec_code, if_neg, hlast]
    have hle : (getIndexOfLastNonEmptyInst r1.code + 1).toNat ≤ RAM_SIZE - 1 := by
      apply effCount_le_of_empty_past
      intro j w hj hw
      have hj2 : j = RAM_SIZE - 1 := by
        have := (List.getElem?_eq_some.mp hw).1
        omega
      rw [hj2, hlast] at hw
      exact (Option.some.inj hw).symm
    omega
  · rw [incOrDec_words_data]
    exact hlast
  · exact absurd rfl hsp

/-- C28: whenever the insert at the cursor returns true, the RAM is the one that the check
and the operand patching left, shifted by `actuallyInsert`; in that RAM, the RAM at the
moment of the final shift, the last slot of the space is empty, so the shift discards no
non-empty word; and for an insert into DATA the non-empty DATA words, in index order, are
the same after the insert as before it, also when a redundant slot was reclaimed. -/
theorem insert_discards_no_word (c : Cursor) (hwf : c.ram.WellFormed)
    (hsp : c.addrSpace ≠ .NONE) (hy : c.getY < RAM_SIZE)
    (hins : c.insertByteAndMoveRestDown.1 = true) :
    c.insertByteAndMoveRestDown.2.ram
      = actuallyInsert (incOrDecAddressesPastTheIndex (shouldNotModify true c.ram c.getAddress).2
          c.addrSpace (getInt c.getAddress.val) 1) c.getY c.getAddress ∧
    ((incOrDecAddressesPastTheIndex (shouldNotModify true c.ram c.getAddress).2
        c.addrSpace (getInt c.getAddress.val) 1).words c.addrSpace)[RAM_SIZE - 1]?
      = some EMPTY_WORD ∧
    (c.addrSpace = .DATA →
      nonEmptyWords c.insertByteAndMoveRestDown.2.ram.data = nonEmptyWords c.ram.data) := by
  have hA : getInt c.getAddress.val = c.getY :=
    getInt_getBoolNibb c.getY (by simp only [RAM_SIZE] at hy; omega)
  have hins2 : (insertByteAndMoveRestDown c.ram c.getY c.getAddress).1 = true := hins
  obtain ⟨hres, hlen, hlast, hfilter⟩ := insert_check_ram c.ram c.getY c.getAddress hwf hsp
    (by rw [hA]; exact hy) hins2
  have hsp3 : c.getAddress.space = c.addrSpace := rfl
  rw [hsp3] at hres hlen hlast hfilter
  have hram : c.insertByteAndMoveRestDown.2.ram
      = (insertByteAndMoveRestDown c.ram c.getY c.getAddress).2 := rfl
  have hplast := patched_last_empty (shouldNotModify true c.ram c.getAddress).2 c.addrSpace
    c.addrSpace (getInt c.getAddress.val) 1 hsp hlen hlast
  have hPdata := incOrDec_data (shouldNotModify true c.ram c.getAddress).2 c.addrSpace
    (getInt c.getAddress.val) 1
  have hlenp : ((incOrDecAddressesPastTheIndex (shouldNotModify true c.ram c.getAddress).2
      c.addrSpace (getInt c.getAddress.val) 1).words c.addrSpace).length = RAM_SIZE := by
    rw [incOrDec_words_length]; exact hlen
  generalize incOrDecAddressesPastTheIndex (shouldNotModify true c.ram c.getAddress).2
    c.addrSpace (getInt c.getAddress.val) 1 = P at hres hplast hPdata hlenp ⊢
  rw [hram, hres]
  refine ⟨rfl, hplast, ?_⟩
  intro hdata
  rw [← hfilter hdata, ← hPdata]
  have hwords := actuallyInsert_words P c.getY c.getAddress hsp hlenp hy
  rw [hsp3, hdata] at hwords
  rw [hdata] at hplast hlenp
  simp only [Ram.words] at hwords hlenp hplast
  unfold nonEmptyWords
  apply insert_shift_filter P.data (actuallyInsert P c.getY c.getAddress).data c.getY
    (RAM_SIZE - 1) EMPTY_WORD _ (by decide) hlenp (by omega) hplast
  intro j
  rw [hwords j, hA]

theorem insert_discards_no_word_witness :
    cursorDataHole.insertByteAndMoveRestDown.1 = true ∧
    addressUsed cursorDataHole.ram ⟨.DATA, getBoolNibb ((RAM_SIZE : Int) - 1)⟩ = true ∧
    nonEmptyWords cursorDataHole.insertByteAndMoveRestDown.2.ram.data
      = nonEmptyWords cursorDataHole.ram.data ∧
    (nonEmptyWords cursorDataHole.ram.data).length = RAM_SIZE - 1 :=
  ⟨by decide, by decide,
    (insert_discards_no_word cursorDataHole (by unfold Ram.WellFormed; decide) (by decide)
      (by decide) (by decide)).2.2 rfl,
    by decide⟩

/-! ## The operand field of a patched word -/

theorem getAdrIndex_le (inst : SpecificInstruction) : getAdrIndex inst ≤ WORD_SIZE := by
  cases inst <;> decide

theorem setAddress_length (word : Word) (newAdrVal : Int) (adrIndex : Nat)
    (hlen : word.length = WORD_SIZE) (hidx : adrIndex ≤ WORD_SIZE) :
    (setAddress word newAdrVal adrIndex).length = WORD_SIZE := by
  unfold setAddress
  simp only [List.length_append, List.length_take, length_getBool, hlen]
  omega

theorem setAddress_take (word : Word) (newAdrVal : Int) (adrIndex : Nat)
    (hlen : word.length = WORD_SIZE) (hidx : adrIndex ≤ WORD_SIZE) :
    (setAddress word newAdrVal adrIndex).take adrIndex = word.take adrIndex := by
  unfold setAddress
  simp only []
  exact List.take_left' (by rw [List.length_take, hlen]; omega)

theorem patchWord_length_take (space : AddrSpace) (index : Nat) (delta : Int) (word : Word)
    (hlen : word.length = WORD_SIZE) :
    (patchWord space index delta word).length = WORD_SIZE ∧
    (patchWord space index delta word).take (getAdrIndex (getInstruction word))
      = word.take (getAdrIndex (getInstruction word)) := by
  unfold patchWord
  simp only []
  split
  · exact ⟨setAddress_length word _ _ hlen (getAdrIndex_le _),
      setAddress_take word _ _ hlen (getAdrIndex_le _)⟩
  · exact ⟨hlen, rfl⟩

/-- C31: `setAddress(word, v, adrIndex)` on a `WORD_SIZE`-bit word, for a position
`adrIndex` of the word, gives a `WORD_SIZE`-bit word with the same bits before `adrIndex`;
so the address patching (`incOrDecAddressesPastTheIndex`, for every space, index and
delta, that of an insert and that of a delete included) leaves the number of CODE words
as it is and leaves in the slot of every `WORD_SIZE`-bit CODE word a `WORD_SIZE`-bit word
with the same bits in front of the operand field of its instruction. -/
theorem patch_keeps_length_and_prefix (r : Ram) (space : AddrSpace) (index : Nat) (delta : Int)
    (i : Nat) (word : Word) (newAdrVal : Int) (adrIndex : Nat)
    (hlen : word.length = WORD_SIZE) (hidx : adrIndex ≤ WORD_SIZE)
    (hi : r.code[i]? = some word) :
    (setAddress word newAdrVal adrIndex).length = WORD_SIZE ∧
    (setAddress word newAdrVal adrIndex).take adrIndex = word.take adrIndex ∧
    (incOrDecAddressesPastTheIndex r space index delta).code.length = r.code.length ∧
    ∃ w, (incOrDecAddressesPastTheIndex r space index delta).code[i]? = some w ∧
      w.length = WORD_SIZE ∧
      w.take (getAdrIndex (getInstruction word))
        = word.take (getAdrIndex (getInstruction word)) := by
  refine ⟨setAddress_length word newAdrVal adrIndex hlen hidx,
    setAddress_take word newAdrVal adrIndex hlen hidx,
    incOrDec_code_length r space index delta, ?_⟩
  rw [incOrDec_code, hi]
  split
  · exact ⟨_, rfl, patchWord_length_take space index delta word hlen⟩
  · exact ⟨word, rfl, hlen, rfl⟩

theorem patch_keeps_length_and_prefix_witness :
    (setAddress JUMP_3 4 4).length = WORD_SIZE ∧
    (setAddress JUMP_3 4 4).take 4 = JUMP_3.take 4 ∧
    (incOrDecAddressesPastTheIndex ramJump3 .CODE 0 1).code.length = ramJump3.code.length ∧
    ∃ w, (incOrDecAddressesPastTheIndex ramJump3 .CODE 0 1).code[0]? = some w ∧
      w.length = WORD_SIZE ∧
      w.take (getAdrIndex (getInstruction JUMP_3))
        = JUMP_3.take (getAdrIndex (getInstruction JUMP_3)) :=
  patch_keeps_length_and_prefix ramJump3 .CODE 0 1 0 JUMP_3 4 4 (by decide) (by decide)
    (by decide)

/-! ## The final shift of an insert -/

set_option maxRecDepth 100000 in
theorem fixed_operand_words : ∀ (b0 b1 b2 b3 b4 b5 b6 b7 : Bool),
    (getInstruction [b0, b1, b2, b3, b4, b5, b6, b7] = .InitializeFirstAddress →
      [b0, b1, b2, b3, b4, b5, b6, b7] = INIT_INSTRUCTION) ∧
    (getInstruction [b0, b1, b2, b3, b4, b5, b6, b7] = .And →
      [b0, b1, b2, b3, b4, b5, b6, b7] = AND_INSTRUCTION) ∧
    (getInstruction [b0, b1, b2, b3, b4, b5, b6, b7] = .Or →
      [b0, b1, b2, b3, b4, b5, b6, b7] = OR_INSTRUCTION) := by
  decide

set_option maxRecDepth 100000 in
theorem firstAdr_val_canonical : ∀ (b0 b1 b2 b3 b4 b5 b6 b7 : Bool),
    getBoolNibb ((getInt (firstAdr [b0, b1, b2, b3, b4, b5, b6, b7]).val : Nat) : Int)
      = (firstAdr [b0, b1, b2, b3, b4, b5, b6, b7]).val := by
  decide

theorem addressUsed_false_not_referenced (r : Ram) (adr : Address)
    (h : addressUsed r adr = false) (x : Word) (hx : x ∈ getEffectiveInstructions r) :
    backAdr x ≠ adr := by
  intro he
  have hmem : adr ∈ List.map backAdr (getEffectiveInstructions r) :=
    List.mem_map.2 ⟨x, hx, he⟩
  unfold addressUsed addressReferenced getAddressesOfEffectiveInstructions at h
  simp only [] at h
  split at h
  · cases h
  · rw [if_pos (decide_eq_true hmem)] at h
    cases h

/-- C2: for a delete at index `A` of CODE or DATA that is done (it returns true, so its
patch step `incOrDecAddressesPastTheIndex` with delta -1 runs, on the RAM as it was),
and for every CODE word `w`: when the first first-order address of `w` lies in the space
with an index `k > A` and is not `LAST_ADDRESS`, the word is rewritten into a word of the
same variant whose operand is `k - 1` in the same space; when it lies in the space with
an index `k <= A`, `k = A` included, or is `LAST_ADDRESS`, or lies in another space, the
word is left as it is. -/
theorem delete_patch_step (r : Ram) (S : AddrSpace) (A i : Nat) (w : Word)
    (hwf : r.WellFormed) (hS : S ≠ .NONE) (hA : A < RAM_SIZE)
    (hdel : (deleteByteAndMoveRestUp r ⟨S, getBoolNibb A⟩).1 = true)
    (hw : r.code[i]? = some w) :
    (deleteByteAndMoveRestUp r ⟨S, getBoolNibb A⟩).2
      = actuallyDelete (incOrDecAddressesPastTheIndex r S A (-1)) ⟨S, getBoolNibb A⟩ ∧
    ((firstAdr w).space = S → A < getInt (firstAdr w).val →
      (firstAdr w).val ≠ LAST_ADDRESS →
      ∃ w', (incOrDecAddressesPastTheIndex r S A (-1)).code[i]? = some w' ∧
        getInstruction w' = getInstruction w ∧ (firstAdr w').space = S ∧
        getInt (firstAdr w').val + 1 = getInt (firstAdr w).val) ∧
    ((firstAdr w).space = S → getInt (firstAdr w).val ≤ A →
      (incOrDecAddressesPastTheIndex r S A (-1)).code[i]? = some w) ∧
    ((firstAdr w).space ≠ S ∨ (firstAdr w).val = LAST_ADDRESS →
      (incOrDecAddressesPastTheIndex r S A (-1)).code[i]? = some w) := by
  have hgA : getInt (getBoolNibb (A : Int)) = A :=
    getInt_getBoolNibb A (by simp only [RAM_SIZE] at hA; omega)
  obtain ⟨hres, hnb, hunused⟩ := delete_success_result r ⟨S, getBoolNibb A⟩ hdel
  simp only [hgA] at hres hnb
  have hcheck : S = .DATA → shouldNotModifyData r false A = 0 := by
    intro hs
    by_contra hne
    exact hnb ⟨hs, hne⟩
  have hwlen : w.length = WORD_SIZE :=
    hwf.2.2.1 w (List.mem_iff_getElem?.2 ⟨i, hw⟩)
  obtain ⟨b0, b1, b2, b3, b4, b5, b6, b7, hwb⟩ := word_cases w hwlen
  by_cases hi : i < (getIndexOfLastNonEmptyInst r.code + 1).toNat
  · have hpatch : (incOrDecAddressesPastTheIndex r S A (-1)).code[i]?
        = some (patchWord S A (-1) w) := by
      rw [incOrDec_code, if_pos hi, hw]
      rfl
    have hweff : w ∈ getEffectiveInstructions r := (mem_effective_iff r w).2 ⟨i, hi, hw⟩
    refine ⟨hres, ?_, ?_, ?_⟩
    · intro h1 h2 h3
      refine ⟨_, hpatch, ?_⟩
      rw [patchWord_pos S A (-1) w h1 (by omega) h3]
      have hfix := fixed_operand_words b0 b1 b2 b3 b4 b5 b6 b7
      rw [← hwb] at hfix
      have hnotinit : getInstruction w ≠ .InitializeFirstAddress := by
        intro hc
        have hk : getInt (firstAdr INIT_INSTRUCTION).val = 0 := by decide
        rw [hfix.1 hc, hk] at h2
        omega
      have hdata_guard : ∀ (x : Word) (n : Nat), w = x → (firstAdr x).space = .DATA →
          getInt (firstAdr x).val = n → S = .DATA ∧ A ≤ n := by
        intro x n hx hsx hnx
        rw [hx, hsx] at h1
        rw [hx, hnx] at h2
        exact ⟨h1.symm, by omega⟩
      have hnotand : getInstruction w ≠ .And := by
        intro hc
        obtain ⟨hs, hle⟩ := hdata_guard AND_INSTRUCTION AND_OPERAND_INDEX (hfix.2.1 hc)
          (by decide) (by decide)
        exact (bound_guard_of_check r false A (hcheck hs) w hweff).2.1 hle (hfix.2.1 hc)
      have hnotor : getInstruction w ≠ .Or := by
        intro hc
        obtain ⟨hs, hle⟩ := hdata_guard OR_INSTRUCTION OR_OPERAND_INDEX (hfix.2.2 hc)
          (by decide) (by decide)
        exact (bound_guard_of_check r false A (hcheck hs) w hweff).2.2.1 hle (hfix.2.2 hc)
      have hs : (firstAdr w).space ≠ .NONE := by rw [h1]; exact hS
      rw [hwb] at hnotinit hnotand hnotor hs h3 h2 h1 ⊢
      have := setAddress_dec_word b0 b1 b2 b3 b4 b5 b6 b7 hnotinit hnotand hnotor hs h3
        (by omega)
      rw [h1] at this
      exact this
    · intro h1 h2
      rw [hpatch]
      congr 1
      by_cases hlt : getInt (firstAdr w).val < A
      · exact patchWord_neg S A (-1) w (Or.inr hlt)
      · have hk : getInt (firstAdr w).val = A := by omega
        by_cases h3 : (firstAdr w).val = LAST_ADDRESS
        · exact patchWord_last S A (-1) w h3
        · exfalso
          have hcanon := firstAdr_val_canonical b0 b1 b2 b3 b4 b5 b6 b7
          rw [← hwb, hk] at hcanon
          have hfirst : firstAdr w = ⟨S, getBoolNibb (A : Int)⟩ := by
            cases hf : firstAdr w with
            | mk sp v =>
              rw [hf] at h1 hcanon
              simp only [] at h1 hcanon
              rw [h1, hcanon]
          by_cases hinit : w = INIT_INSTRUCTION
          · have hsp : (firstAdr INIT_INSTRUCTION).space = .DATA := by decide
            have hk0 : getInt (firstAdr INIT_INSTRUCTION).val = 0 := by decide
            rw [hinit, hsp] at h1
            rw [hinit, hk0] at hk
            exact (bound_guard_of_check r false A (hcheck h1.symm) w hweff).1
              (by rw [← hk]; decide) hinit
          · have hback : backAdr w = firstAdr w := by
              rw [hwb] at hinit ⊢
              exact backAdr_eq_firstAdr_word b0 b1 b2 b3 b4 b5 b6 b7 hinit
            exact addressUsed_false_not_referenced r _ hunused w hweff (by rw [hback, hfirst])
    · intro h
      rw [hpatch]
      congr 1
      rcases h with h | h
      · exact patchWord_neg S A (-1) w (Or.inl h)
      · exact patchWord_last S A (-1) w h
  · have hkeep : (incOrDecAddressesPastTheIndex r S A (-1)).code[i]? = some w := by
      rw [incOrDec_code, if_neg hi, hw]
    have hempty : w = EMPTY_WORD := empty_past_effCount r.code i w (by omega) hw
    refine ⟨hres, ?_, fun _ _ => hkeep, fun _ => hkeep⟩
    intro _ h2 _
    have hk : getInt (firstAdr EMPTY_WORD).val = 0 := by decide
    rw [hempty, hk] at h2
    omega

theorem delete_patch_step_witness :
    (deleteByteAndMoveRestUp ramJumpOverHole ⟨.CODE, getBoolNibb 1⟩).1 = true ∧
    ramJumpOverHole.code[0]? = some JUMP_2 ∧
    firstAdr JUMP_2 = ⟨.CODE, getBoolNibb 2⟩ ∧
    (incOrDecAddressesPastTheIndex ramJumpOverHole .CODE 1 (-1)).code[0]? = some JUMP_1 ∧
    ∃ w', (incOrDecAddressesPastTheIndex ramJumpOverHole .CODE 1 (-1)).code[0]? = some w' ∧
      getInstruction w' = getInstruction JUMP_2 ∧ (firstAdr w').space = .CODE ∧
      getInt (firstAdr w').val + 1 = getInt (firstAdr JUMP_2).val :=
  ⟨by decide, by decide, by decide, by decide,
    (delete_patch_step ramJumpOverHole .CODE 1 0 JUMP_2 (by unfold Ram.WellFormed; decide)
      (by decide) (by decide) (by decide) (by decide)).2.1 (by decide) (by decide)
      (by decide)⟩

/-! ## The patch step of an insert and the three-bit operand 7 -/

/-- C1, at the failing input: CODE holds `Increase 7`, DATA is empty and the cursor is at
DATA 0.  The insert at the cursor is done, so its patch step runs with the operand index
`k = 7 >= A = 0`, not `LAST_ADDRESS`; the rewritten word is still `Increase 7`, so the
operand index decoded from it is 7 and not 8, and no three bits in the operand field could
give an index above 7.  The sibling `Xor 7` is guarded: with it in CODE the same insert is
rejected. -/
theorem insert_patch_increase_7 :
    cursorIncrease.ram.WellFormed ∧
    cursorIncrease.getAddress = ⟨.DATA, FIRST_ADDRESS⟩ ∧
    cursorIncrease.insertByteAndMoveRestDown.1 = true ∧
    cursorIncrease.ram.code[0]? = some INCREASE_7 ∧
    getInstruction INCREASE_7 = .Increase ∧
    (firstAdr INCREASE_7).space = .DATA ∧
    getInt (firstAdr INCREASE_7).val = 7 ∧
    (firstAdr INCREASE_7).val ≠ LAST_ADDRESS ∧
    (incOrDecAddressesPastTheIndex cursorIncrease.ram .DATA 0 1).code[0]? = some INCREASE_7 ∧
    cursorIncrease.insertByteAndMoveRestDown.2.ram.code[0]? = some INCREASE_7 ∧
    getInt (firstAdr INCREASE_7).val ≠ 7 + 1 ∧
    (∀ x y z : Bool, getInt (firstAdr (INCREASE_7.take 5 ++ [x, y, z])).val ≤ 7) ∧
    (insertByteAndMoveRestDown ramXorLast 0 ⟨.DATA, FIRST_ADDRESS⟩).1 = false := by
  refine ⟨?_, by decide, by decide, by decide, by decide, by decide, by decide, by decide,
    by decide, by decide, by decide, by decide, by decide⟩
  unfold Ram.WellFormed
  decide

end Comp
